import Mathlib

/-!
# Verification of the jungo board-game engine

Shallow embedding of the Rust sources (`src/board.rs`, `src/zobrist.rs`,
`src/game.rs`, `src/ai/{minimax,mcts,random,mc}.rs`) together with proofs
of the specification claims about them.

Conventions used in the embedding:
* `usize` values become `Nat`; `u64` Zobrist keys become `Nat` combined with
  `Nat.xor` (XOR never overflows, so no modular reduction is needed);
  `i32` scores become `Int`, with `i32::MIN` rendered as `-(2^31)`.
* The grid `Vec<u8>` becomes a `List Nat` (0 = empty, 1 = black, 2 = white)
  accessed through `List.getD`/`List.set`.  All internal call sites index
  in bounds; the public `Board.get`, whose out-of-bounds behaviour claim C6
  is about, is embedded with an explicit bounds test where `none` models
  the Rust index panic.
* The `ZobristTable` contents are produced in Rust by a seeded RNG
  (`StdRng::seed_from_u64(42)`); the table is modelled as an arbitrary
  fixed pair of key functions, which is all the claims depend on.
* Recursive flood fills that the Rust code bounds with a `visited` array
  are embedded with an explicit fuel argument; enough fuel makes the fuel
  bound unreachable (each recursive call consumes an unvisited cell), which
  the correctness lemmas below make precise.
* `thread_rng` draws become explicit oracle arguments (a `Bool` for
  `gen_bool(0.8)`, a `Nat` reduced mod the list length for
  `gen_range(0..len)`), and the wall-clock simulation loops of the Monte
  Carlo agents become oracle arguments describing the loop outcome.
-/

/-- `Stone` from `board.rs`. -/
inductive Stone where
  | black
  | white
deriving DecidableEq, Repr

/-- `Stone::opposite`. -/
def Stone.opposite : Stone → Stone
  | .black => .white
  | .white => .black

/-- Grid cell constant `EMPTY`. -/
def EMPTY : Nat := 0

/-- Grid cell constant `BLACK`. -/
def BLACK : Nat := 1

/-- Grid cell constant `WHITE`. -/
def WHITE : Nat := 2

/-- `ZobristTable` from `zobrist.rs`: one 64-bit key per (cell, colour).
The Rust constructor fills the two tables from a seeded RNG; the table is
modelled as an arbitrary fixed pair of key functions indexed by (x, y). -/
structure ZobristTable where
  black : Nat → Nat → Nat
  white : Nat → Nat → Nat

/-- `ZobristTable::get_stone_hash`. -/
def ZobristTable.get_stone_hash (t : ZobristTable) (x y : Nat) (isBlack : Bool) : Nat :=
  if isBlack then t.black x y else t.white x y

/-- `Board` from `board.rs`: flat grid, capture counters
`(black_captured, white_captured)` crediting the mover, Zobrist table and
running position hash. -/
structure Board where
  size : Nat
  grid : List Nat
  captured : Nat × Nat
  zobrist_table : ZobristTable
  current_hash : Nat

/-- `Board::new` (the Zobrist table is a construction parameter here because
its Rust contents come from a seeded RNG). -/
def Board.mkNew (size : Nat) (t : ZobristTable) : Board :=
  { size := size
    grid := List.replicate (size * size) EMPTY
    captured := (0, 0)
    zobrist_table := t
    current_hash := 0 }

/-- `Board::index`. -/
def Board.index (b : Board) (x y : Nat) : Nat :=
  y * b.size + x

/-- `Board::get_raw`: unchecked read used internally after bounds
validation (`List.getD` default is never hit at in-bounds call sites). -/
def Board.getRaw (b : Board) (x y : Nat) : Nat :=
  b.grid.getD (b.index x y) 0

/-- `Board::get`: the Rust body indexes the grid vector, which panics iff
the flat index `y*size + x` is out of the vector's range; `none` models
that panic. -/
def Board.get (b : Board) (x y : Nat) : Option (Option Stone) :=
  if b.index x y < b.grid.length then
    some (match b.grid.getD (b.index x y) 0 with
      | 1 => some Stone.black
      | 2 => some Stone.white
      | _ => none)
  else
    none

/-- `Board::stone_to_u8`. -/
def stoneToU8 : Stone → Nat
  | .black => BLACK
  | .white => WHITE

/-- `Board::opposite_u8`. -/
def oppositeU8 (stoneU : Nat) : Nat :=
  if stoneU = BLACK then WHITE
  else if stoneU = WHITE then BLACK
  else EMPTY

/-- `Board::get_neighbors_array`, as the list of in-bounds orthogonal
neighbours in the source's order: left, right, up, down. -/
def Board.nbrsOf (b : Board) (x y : Nat) : List (Nat × Nat) :=
  (if 0 < x then [(x - 1, y)] else []) ++
  (if x < b.size - 1 then [(x + 1, y)] else []) ++
  (if 0 < y then [(x, y - 1)] else []) ++
  (if y < b.size - 1 then [(x, y + 1)] else [])

/-- `Board::get_diagonal_neighbors`. -/
def Board.diagonalsOf (b : Board) (x y : Nat) : List (Nat × Nat) :=
  (if 0 < x && 0 < y then [(x - 1, y - 1)] else []) ++
  (if x < b.size - 1 && 0 < y then [(x + 1, y - 1)] else []) ++
  (if 0 < x && y < b.size - 1 then [(x - 1, y + 1)] else []) ++
  (if x < b.size - 1 && y < b.size - 1 then [(x + 1, y + 1)] else [])

/-- `Board::is_eye`. -/
def Board.is_eye (b : Board) (x y : Nat) (stone : Stone) : Bool :=
  if b.getRaw x y ≠ EMPTY then false
  else
    let stoneU := stoneToU8 stone
    let neighbors := b.nbrsOf x y
    if neighbors.any (fun n => b.getRaw n.1 n.2 ≠ stoneU) then false
    else
      let diagonals := b.diagonalsOf x y
      let oppDiag := diagonals.countP (fun d =>
        b.getRaw d.1 d.2 ≠ EMPTY ∧ b.getRaw d.1 d.2 ≠ stoneU)
      match diagonals.length with
      | 1 => diagonals.all (fun d => b.getRaw d.1 d.2 = stoneU)
      | 2 => oppDiag = 0
      | 4 => decide (oppDiag ≤ 1)
      | _ => false

/-- Row-major traversal order `for y in 0..size { for x in 0..size }`
shared by `count_eyes_for_color` and all the agents' move scans. -/
def rowMajor (size : Nat) : List (Nat × Nat) :=
  (List.range size).flatMap (fun y => (List.range size).map (fun x => (x, y)))

/-- `Board::count_eyes_for_color`. -/
def Board.count_eyes_for_color (b : Board) (stone : Stone) : Nat :=
  ((rowMajor b.size).filter (fun p => b.is_eye p.1 p.2 stone)).length

/-- `Board::count_stones`. -/
def Board.count_stones (b : Board) : Nat × Nat :=
  (b.grid.count BLACK, b.grid.count WHITE)

/-- `Board::get_captured`. -/
def Board.get_captured (b : Board) : Nat × Nat :=
  b.captured

/-- `Board::get_hash`. -/
def Board.get_hash (b : Board) : Nat :=
  b.current_hash

/-- `Board::has_liberty_except_recursive`.  The `for &(nx, ny) in
&neighbors` loop with its early `return true` becomes a fold whose
accumulator `(found, visited)` passes through unchanged once `found` is
set.  The Rust recursion is bounded by the `visited` array (each call marks
a fresh cell); here `fuel` makes that bound explicit, and the lemmas below
show that `size*size + 1` fuel always suffices. -/
def hasLibRec (b : Board) (stoneU ex ey : Nat) :
    Nat → Nat × Nat → List Bool → Bool × List Bool
  | 0, _, visited => (false, visited)
  | fuel + 1, p, visited =>
    let idx := b.index p.1 p.2
    if visited.getD idx false then (false, visited)
    else
      (b.nbrsOf p.1 p.2).foldl (fun acc n =>
        if acc.1 then acc
        else
          let ns := b.getRaw n.1 n.2
          if ns = EMPTY then
            if n ≠ (ex, ey) then (true, acc.2) else acc
          else if ns = stoneU then
            let r := hasLibRec b stoneU ex ey fuel n acc.2
            if r.1 then (true, r.2) else (false, r.2)
          else acc) (false, visited.set idx true)

/-- The loop body of the neighbour fold inside `hasLibRec`, named for the
correctness lemmas (`hasLibRec` unfolds to a fold of this step). -/
def hasLibStep (b : Board) (stoneU ex ey fuel : Nat) :
    Bool × List Bool → Nat × Nat → Bool × List Bool := fun acc n =>
  if acc.1 then acc
  else
    let ns := b.getRaw n.1 n.2
    if ns = EMPTY then
      if n ≠ (ex, ey) then (true, acc.2) else acc
    else if ns = stoneU then
      let r := hasLibRec b stoneU ex ey fuel n acc.2
      if r.1 then (true, r.2) else (false, r.2)
    else acc

/-- `Board::would_capture_after_move`. -/
def Board.would_capture_after_move (b : Board) (gx gy bx b_y : Nat) : Bool :=
  let stoneU := b.getRaw gx gy
  if stoneU = EMPTY then false
  else
    !(hasLibRec b stoneU bx b_y (b.size * b.size + 1) (gx, gy)
        (List.replicate (b.size * b.size) false)).1

/-- `Board::group_has_liberty_except`. -/
def Board.group_has_liberty_except (b : Board) (x y exX exY : Nat) : Bool :=
  let stoneU := b.getRaw x y
  if stoneU = EMPTY then false
  else
    (hasLibRec b stoneU exX exY (b.size * b.size + 1) (x, y)
        (List.replicate (b.size * b.size) false)).1

/-- `Board::is_valid_move`.  The three source loops with early `return true`
become `List.any` over the neighbour array. -/
def Board.is_valid_move (b : Board) (x y : Nat) (stone : Stone) : Bool :=
  if b.size ≤ x || b.size ≤ y || b.getRaw x y ≠ EMPTY then false
  else
    let stoneU := stoneToU8 stone
    let opponentU := oppositeU8 stoneU
    let neighbors := b.nbrsOf x y
    if neighbors.any (fun n =>
        b.getRaw n.1 n.2 = opponentU && b.would_capture_after_move n.1 n.2 x y) then
      true
    else if neighbors.any (fun n => b.getRaw n.1 n.2 = EMPTY) then
      true
    else if neighbors.any (fun n =>
        b.getRaw n.1 n.2 = stoneU && b.group_has_liberty_except n.1 n.2 x y) then
      true
    else false

/-- The `while let Some((cx, cy)) = stack.pop()` loop of `Board::get_group`.
The Vec used as a stack becomes a list with head push/pop (this can permute
the traversal order but not the resulting set), and `fuel` bounds the
iteration count, which the lemmas below show is never reached when
`fuel > stack.length + 5 * (number of unvisited cells)`. -/
def getGroupLoop (b : Board) (stoneU : Nat) :
    Nat → List (Nat × Nat) → List Bool → List (Nat × Nat) → List (Nat × Nat)
  | 0, _, _, group => group
  | _ + 1, [], _, group => group
  | fuel + 1, p :: stack, visited, group =>
    let idx := b.index p.1 p.2
    if visited.getD idx false then getGroupLoop b stoneU fuel stack visited group
    else
      let visited' := visited.set idx true
      let toPush := (b.nbrsOf p.1 p.2).filter (fun n =>
        !(visited'.getD (b.index n.1 n.2) false) && b.getRaw n.1 n.2 = stoneU)
      getGroupLoop b stoneU fuel (toPush ++ stack) visited' (group ++ [p])

/-- `Board::get_group`. -/
def Board.get_group (b : Board) (x y : Nat) : List (Nat × Nat) :=
  let stoneU := b.getRaw x y
  if stoneU = EMPTY then []
  else
    getGroupLoop b stoneU (5 * (b.size * b.size) + 2) [(x, y)]
      (List.replicate (b.size * b.size) false) []

/-- `Board::has_no_liberties`. -/
def Board.has_no_liberties (b : Board) (group : List (Nat × Nat)) : Bool :=
  group.all (fun p => (b.nbrsOf p.1 p.2).all (fun n => b.getRaw n.1 n.2 ≠ EMPTY))

/-- The `for &(gx, gy) in &group` removal loop shared by the capture and
self-capture branches of `Board::check_captures`: un-mark each cell and XOR
its key (chosen by the colour read just before removal) out of the hash. -/
def removeGroup (b : Board) (group : List (Nat × Nat)) : Board :=
  group.foldl (fun bc g =>
    let idx := bc.index g.1 g.2
    let wasBlack := bc.grid.getD idx 0 = BLACK
    { bc with
      grid := bc.grid.set idx EMPTY
      current_hash :=
        bc.current_hash ^^^ bc.zobrist_table.get_stone_hash g.1 g.2 wasBlack }) b

/-- `Board::check_captures`: remove every adjacent opposing group left
without liberties (accumulating the removed-stone count), then remove the
placed stone's own group if it has no liberties, without adding to the
count. -/
def Board.check_captures (b : Board) (x y : Nat) (stone : Stone) : Board × Nat :=
  let stoneU := stoneToU8 stone
  let opponentU := oppositeU8 stoneU
  let step := fun (acc : Board × Nat) (n : Nat × Nat) =>
    let bc := acc.1
    if bc.getRaw n.1 n.2 = opponentU then
      let group := bc.get_group n.1 n.2
      if bc.has_no_liberties group then (removeGroup bc group, acc.2 + group.length)
      else acc
    else acc
  let afterOpp := (b.nbrsOf x y).foldl step (b, 0)
  let selfGroup := afterOpp.1.get_group x y
  if afterOpp.1.has_no_liberties selfGroup then
    (removeGroup afterOpp.1 selfGroup, afterOpp.2)
  else afterOpp

/-- The loop body of the opponent-capture `for` loop in
`Board::check_captures`, named for the claim C4 lemmas (`check_captures`
unfolds to a fold of this step followed by the self-capture phase). -/
def captureStep (stone : Stone) : Board × Nat → Nat × Nat → Board × Nat :=
  fun acc n =>
    if acc.1.getRaw n.1 n.2 = oppositeU8 (stoneToU8 stone) then
      (if acc.1.has_no_liberties (acc.1.get_group n.1 n.2) then
        (removeGroup acc.1 (acc.1.get_group n.1 n.2),
          acc.2 + (acc.1.get_group n.1 n.2).length)
      else acc)
    else acc

/-- `Board::place_stone`. -/
def Board.place_stone (b : Board) (x y : Nat) (stone : Stone) :
    Except String Board :=
  if b.size ≤ x ∨ b.size ≤ y then .error "Position out of bounds"
  else if b.getRaw x y ≠ EMPTY then .error "Position already occupied"
  else
    let stoneU := stoneToU8 stone
    let idx := b.index x y
    let b1 : Board :=
      { b with
        grid := b.grid.set idx stoneU
        current_hash :=
          b.current_hash ^^^ b.zobrist_table.get_stone_hash x y (stone = Stone.black) }
    let res := b1.check_captures x y stone
    let b2 := res.1
    let b3 : Board :=
      match stone with
      | .black => { b2 with captured := (b2.captured.1 + res.2, b2.captured.2) }
      | .white => { b2 with captured := (b2.captured.1, b2.captured.2 + res.2) }
    .ok b3

/-- `Board::would_result_in_hash`. -/
def Board.would_result_in_hash (b : Board) (x y : Nat) (stone : Stone) :
    Option Nat :=
  if !b.is_valid_move x y stone then none
  else
    match b.place_stone x y stone with
    | .ok tb => some tb.get_hash
    | .error _ => none

/-- `Game` from `game.rs`. -/
structure Game where
  board : Board
  current_turn : Stone
  consecutive_passes : Nat
  previous_board : Option Board
  board_history : List Nat

/-- `Game::new`. -/
def Game.mkNew (boardSize : Nat) (t : ZobristTable) : Game :=
  let board := Board.mkNew boardSize t
  { board := board
    current_turn := Stone.black
    consecutive_passes := 0
    previous_board := none
    board_history := [board.get_hash] }

/-- Outcome of one iteration of the `Game::play` loop body. -/
inductive StepOutcome where
  | invalidMove
  | koViolation
  | placeFailed
  | moved
  | passed
  | finishedByPasses
deriving DecidableEq, Repr

/-- One iteration of the move-handling body of the `Game::play` loop: the
active player proposed `mv`.  `continue` paths return the state unchanged;
the second consecutive pass `break`s out (`finishedByPasses`); otherwise the
turn colour flips at the bottom of the loop. -/
def Game.playStep (g : Game) (mv : Option (Nat × Nat)) : StepOutcome × Game :=
  match mv with
  | some (x, y) =>
    if ¬g.board.is_valid_move x y g.current_turn then (.invalidMove, g)
    else
      match g.board.place_stone x y g.current_turn with
      | .error _ => (.placeFailed, g)
      | .ok testBoard =>
        let newHash := testBoard.get_hash
        let historyLen := g.board_history.length
        if 2 ≤ historyLen ∧ g.board_history.getD (historyLen - 2) 0 = newHash then
          (.koViolation, g)
        else
          match g.board.place_stone x y g.current_turn with
          | .ok newBoard =>
            (.moved,
              { g with
                board := newBoard
                consecutive_passes := 0
                previous_board := some g.board
                board_history := g.board_history ++ [newBoard.get_hash]
                current_turn := g.current_turn.opposite })
          | .error _ => (.placeFailed, g)
  | none =>
    let passes := g.consecutive_passes + 1
    if 2 ≤ passes then (.finishedByPasses, { g with consecutive_passes := passes })
    else
      (.passed,
        { g with
          consecutive_passes := passes
          current_turn := g.current_turn.opposite })

/-- `MinimaxAI::evaluate_board` (the `eval_count` side-effect counter does
not influence the result and is omitted). -/
def evaluate_board (b : Board) (stone : Stone) : Int :=
  let counts := b.count_stones
  let caps := b.get_captured
  let blackScore : Int := (counts.1 : Int) + (caps.1 : Int)
  let whiteScore : Int := (counts.2 : Int) + (caps.2 : Int)
  let materialDiff := blackScore - whiteScore
  let ourEyes : Int := (b.count_eyes_for_color stone : Int)
  let theirEyes : Int := (b.count_eyes_for_color stone.opposite : Int)
  let eyeBonus := (min ourEyes 2 - min theirEyes 2) * 20
  let baseScore :=
    match stone with
    | .black => materialDiff
    | .white => -materialDiff
  baseScore * 100 + eyeBonus

/-- `i32::MIN`, the initial `best_score` of `MinimaxAI::get_move`. -/
def i32Min : Int := -(2 ^ 31)

/-- `i32::MAX`. -/
def i32Max : Int := 2 ^ 31 - 1

/-- The `for y { for x { if is_valid_move push } }` scan shared by
`MinimaxAI::minimax` and `MinimaxAI::get_move`. -/
def validMovesList (b : Board) (stone : Stone) : List (Nat × Nat) :=
  (rowMajor b.size).filter (fun p => b.is_valid_move p.1 p.2 stone)

/-- The alpha-beta loop bodies of `MinimaxAI::minimax`: fold over the move
list carrying `(best, alpha, beta, pruned)`; once `beta ≤ alpha` the Rust
`break` fires, modelled by the `pruned` flag short-circuiting the fold. -/
def minimaxRec (b : Board) : Nat → Bool → Int → Int → Stone → Stone → Int
  | 0, _, _, _, _, originalStone => evaluate_board b originalStone
  | depth + 1, isMaximizing, alpha, beta, stone, originalStone =>
    let validMoves := validMovesList b stone
    if validMoves = [] then evaluate_board b originalStone
    else if isMaximizing then
      (validMoves.foldl (fun (acc : Int × Int × Bool) m =>
        if acc.2.2 then acc
        else
          match b.place_stone m.1 m.2 stone with
          | .ok nb =>
            let e := minimaxRec nb depth false acc.2.1 beta stone.opposite originalStone
            let maxEval := max acc.1 e
            let alpha' := max acc.2.1 e
            (maxEval, alpha', beta ≤ alpha')
          | .error _ => acc) (i32Min, alpha, false)).1
    else
      (validMoves.foldl (fun (acc : Int × Int × Bool) m =>
        if acc.2.2 then acc
        else
          match b.place_stone m.1 m.2 stone with
          | .ok nb =>
            let e := minimaxRec nb depth true alpha acc.2.1 stone.opposite originalStone
            let minEval := min acc.1 e
            let beta' := min acc.2.1 e
            (minEval, beta', beta' ≤ alpha)
          | .error _ => acc) (i32Max, beta, false)).1

/-- `MinimaxAI::get_move` for a `MinimaxAI` constructed with `max_depth`. -/
def minimaxGetMove (maxDepth : Nat) (b : Board) (stone : Stone) :
    Option (Nat × Nat) :=
  let validMoves := validMovesList b stone
  if validMoves = [] then none
  else
    (validMoves.foldl (fun (acc : Option (Nat × Nat) × Int) m =>
      match b.place_stone m.1 m.2 stone with
      | .ok testBoard =>
        let score :=
          if maxDepth = 1 then evaluate_board testBoard stone
          else minimaxRec testBoard (maxDepth - 1) false i32Min i32Max
            stone.opposite stone
        if acc.2 < score then (some m, score) else acc
      | .error _ => acc) (none, i32Min)).1

/-- `get_valid_moves` from `ai/mcts.rs`: all legal points, restricted to the
non-eye ones when the colour holds at most 2 eyes and a non-eye move
exists. -/
def mctsGetValidMoves (b : Board) (stone : Stone) : List (Nat × Nat) :=
  let validMoves := (rowMajor b.size).filter (fun p => b.is_valid_move p.1 p.2 stone)
  let nonEyeMoves := validMoves.filter (fun p => ¬b.is_eye p.1 p.2 stone)
  let totalEyes := b.count_eyes_for_color stone
  if totalEyes ≤ 2 ∧ nonEyeMoves ≠ [] then nonEyeMoves else validMoves

/-- `Mcts::run_mcts` up to its time-budgeted search loop.  The tree search
(everything from building the root node onwards) is abstracted as the
`search` argument; the second component counts simulations run, which is 0
on both early-return paths, before any node is allocated or rollout
performed. -/
def runMctsSkeleton
    (search : Board → Stone → List (Nat × Nat) → Option (Nat × Nat) × Nat)
    (b : Board) (stone : Stone) : Option (Nat × Nat) × Nat :=
  let validMoves := mctsGetValidMoves b stone
  if validMoves = [] then (none, 0)
  else if validMoves.length = 1 then (validMoves.head?, 0)
  else search b stone validMoves

/-- The scanning loop of `RandomAI::get_move` with its two early exits
(`MIN_NON_EYE_MOVES = 10` found, or `MAX_SCAN_POSITIONS = 50` scanned with
at least one non-eye move in hand). -/
def randomScanGo (b : Board) (stone : Stone) :
    List (Nat × Nat) → List (Nat × Nat) → List (Nat × Nat) → Nat →
    List (Nat × Nat) × List (Nat × Nat)
  | [], v, ne, _ => (v, ne)
  | p :: rest, v, ne, scanned =>
    let cont := fun (v' ne' : List (Nat × Nat)) =>
      let scanned' := scanned + 1
      if 50 ≤ scanned' ∧ ne' ≠ [] then (v', ne')
      else randomScanGo b stone rest v' ne' scanned'
    if b.is_valid_move p.1 p.2 stone then
      let v' := v ++ [p]
      if ¬b.is_eye p.1 p.2 stone then
        let ne' := ne ++ [p]
        if 10 ≤ ne'.length then (v', ne')
        else cont v' ne'
      else cont v' ne
    else cont v ne

/-- The board scan of `RandomAI::get_move`. -/
def randomScan (b : Board) (stone : Stone) :
    List (Nat × Nat) × List (Nat × Nat) :=
  randomScanGo b stone (rowMajor b.size) [] [] 0

/-- `rng.gen_range(0..l.length)` followed by indexing: the oracle value `r`
is reduced mod the length, so any oracle denotes a valid index; callers
only use this with a nonempty list. -/
def listPick (l : List (Nat × Nat)) (r : Nat) : Nat × Nat :=
  l.getD (r % l.length) (0, 0)

/-- `RandomAI::get_move`.  `coin` is the oracle for `rng.gen_bool(0.8)`
(true on the 0.8-probability branch) and `r1..r5` are the oracles for the
five `gen_range` draw sites. -/
def randomGetMove (b : Board) (stone : Stone) (coin : Bool)
    (r1 r2 r3 r4 r5 : Nat) : Option (Nat × Nat) :=
  let scan := randomScan b stone
  let validMoves := scan.1
  let nonEyeMoves := scan.2
  if validMoves = [] then none
  else if nonEyeMoves ≠ [] then
    if nonEyeMoves.length < 3 then
      let totalEyes := b.count_eyes_for_color stone
      if 2 < totalEyes then
        if coin || nonEyeMoves.isEmpty then some (listPick nonEyeMoves r1)
        else some (listPick validMoves r2)
      else some (listPick nonEyeMoves r3)
    else some (listPick nonEyeMoves r4)
  else
    let totalEyes := b.count_eyes_for_color stone
    if 2 < totalEyes then some (listPick validMoves r5)
    else none

/-- The best-win-rate selection loop at the end of
`MonteCarloAI::get_move`, starting from `best_idx = 0`,
`best_win_rate = 0.0`.  The `f64` win rate is modelled as a rational;
claims C10 only depends on the `games[idx] > 0` guard, not on rounding. -/
def mcSelectBest (len : Nat) (wins games : List Nat) : Nat :=
  ((List.range len).foldl (fun (acc : Nat × Rat) idx =>
    if 0 < games.getD idx 0 then
      let winRate : Rat := (wins.getD idx 0 : Rat) / (games.getD idx 0 : Rat)
      if acc.2 < winRate then (idx, winRate) else acc
    else acc) (0, 0)).1

/-- Tail of `MonteCarloAI::get_move` after the candidate list is fixed:
bail out on an empty list, otherwise pick the best-rate candidate. -/
def mcFinish (validMoves : List (Nat × Nat)) (wins games : List Nat) :
    Option (Nat × Nat) :=
  if validMoves = [] then none
  else some (validMoves.getD (mcSelectBest validMoves.length wins games) (0, 0))

/-- `MonteCarloAI::get_move`.  The wall-clock simulation loop is abstracted
by its outcome: `wins`/`games` give, per candidate index, the totals it
accumulated before the time budget ran out (all-zero `games` is the
zero-completed-simulations case). -/
def mcGetMove (b : Board) (stone : Stone) (wins games : List Nat) :
    Option (Nat × Nat) :=
  let validMoves := (rowMajor b.size).filter (fun p => b.is_valid_move p.1 p.2 stone)
  let nonEyeMoves := validMoves.filter (fun p => ¬b.is_eye p.1 p.2 stone)
  let totalEyes := b.count_eyes_for_color stone
  if totalEyes ≤ 2 ∧ nonEyeMoves ≠ [] then mcFinish nonEyeMoves wins games
  else if totalEyes ≤ 2 ∧ nonEyeMoves = [] then none
  else mcFinish validMoves wins games

/-- A cell coordinate is on the board. -/
def inBounds (b : Board) (p : Nat × Nat) : Prop :=
  p.1 < b.size ∧ p.2 < b.size

/-- Orthogonal adjacency of two cells. -/
def adjacent (p q : Nat × Nat) : Prop :=
  (p.1 = q.1 ∧ (p.2 = q.2 + 1 ∨ q.2 = p.2 + 1)) ∨
  (p.2 = q.2 ∧ (p.1 = q.1 + 1 ∨ q.1 = p.1 + 1))

/-- The raw cell value at a coordinate pair. -/
def cellAt (b : Board) (p : Nat × Nat) : Nat :=
  b.getRaw p.1 p.2

/-- One step of same-colour connectivity: both endpoints on the board, both
of colour `c`, orthogonally adjacent. -/
def stepRel (b : Board) (c : Nat) (p q : Nat × Nat) : Prop :=
  inBounds b p ∧ inBounds b q ∧ cellAt b p = c ∧ cellAt b q = c ∧ adjacent p q

/-- `q` belongs to the same maximal `c`-coloured group as `p` (spec §3:
groups are maximal sets connected through orthogonal adjacency). -/
def reach (b : Board) (c : Nat) : Nat × Nat → Nat × Nat → Prop :=
  Relation.ReflTransGen (stepRel b c)

/-- The group of `p` (colour `c`) has a liberty at a cell other than `e`. -/
def hasLibExceptM (b : Board) (c : Nat) (p e : Nat × Nat) : Prop :=
  ∃ q, reach b c p q ∧ ∃ r ∈ b.nbrsOf q.1 q.2, cellAt b r = EMPTY ∧ r ≠ e

/-- The group of `p` (colour `c`) has at least one liberty. -/
def hasLibM (b : Board) (c : Nat) (p : Nat × Nat) : Prop :=
  ∃ q, reach b c p q ∧ ∃ r ∈ b.nbrsOf q.1 q.2, cellAt b r = EMPTY

/-- Structural well-formedness of a board value: the flat grid has exactly
`size * size` entries and every entry is one of the three cell states. -/
def WF (b : Board) : Prop :=
  b.grid.length = b.size * b.size ∧ ∀ v ∈ b.grid, v ≤ 2

/-- Spec §3 board invariant: every stone belongs to a group with at least
one liberty. -/
def NoDeadGroups (b : Board) : Prop :=
  ∀ p : Nat × Nat, inBounds b p → cellAt b p ≠ EMPTY → hasLibM b (cellAt b p) p

/-- Claim C1(a), from the spec's words: placing at `(x, y)` would strip the
last liberty from at least one adjacent opposing group. -/
def capturesOpponentSpec (b : Board) (x y : Nat) (stone : Stone) : Prop :=
  ∃ n ∈ b.nbrsOf x y,
    cellAt b n = oppositeU8 (stoneToU8 stone) ∧
    ¬hasLibExceptM b (oppositeU8 (stoneToU8 stone)) n (x, y)

/-- Claim C1(b): the new stone would have an empty orthogonal neighbour. -/
def hasEmptyNeighborSpec (b : Board) (x y : Nat) : Prop :=
  ∃ n ∈ b.nbrsOf x y, cellAt b n = EMPTY

/-- Claim C1(c): the new stone adjoins a friendly group retaining a liberty
other than the new point itself. -/
def friendlyRetainsLibertySpec (b : Board) (x y : Nat) (stone : Stone) : Prop :=
  ∃ n ∈ b.nbrsOf x y,
    cellAt b n = stoneToU8 stone ∧ hasLibExceptM b (stoneToU8 stone) n (x, y)

/-- The Zobrist key contributed by flat cell `i` in its current state. -/
def cellKey (b : Board) (i : Nat) : Nat :=
  match b.grid.getD i 0 with
  | 1 => b.zobrist_table.black (i % b.size) (i / b.size)
  | 2 => b.zobrist_table.white (i % b.size) (i / b.size)
  | _ => 0

/-- XOR of `f 0, ..., f (n-1)`. -/
def xorRange (f : Nat → Nat) : Nat → Nat
  | 0 => 0
  | n + 1 => xorRange f n ^^^ f n

/-- Claim C3's right-hand side: XOR of the per-(cell, colour) keys of
exactly the currently occupied cells. -/
def hashSpec (b : Board) : Nat :=
  xorRange (cellKey b) (b.size * b.size)

/-- Claim C3 invariant: the running hash matches `hashSpec`. -/
def HashOk (b : Board) : Prop :=
  b.current_hash = hashSpec b

/-- Number of cells that held an `opponentU` stone on `b` and are empty on
`bf`: the opponent stones removed in going from `b` to `bf`. -/
def removedOppCount (b bf : Board) (opponentU : Nat) : Nat :=
  (List.range (b.size * b.size)).countP
    (fun i => b.grid.getD i 0 = opponentU ∧ bf.grid.getD i 0 = EMPTY)

/-- From the spec's words for claim C7: the static evaluation of the
one-ply successor reached by `m` (legal `m` always places successfully). -/
def onePlyScore (b : Board) (stone : Stone) (m : Nat × Nat) : Int :=
  match b.place_stone m.1 m.2 stone with
  | .ok nb => evaluate_board nb stone
  | .error _ => i32Min

/-- First-encountered maximum of a scored move list (spec tie-break). -/
def firstArgmax : List ((Nat × Nat) × Int) → Option (Nat × Nat)
  | [] => none
  | (m, s) :: rest =>
    some ((rest.foldl
      (fun (acc : (Nat × Nat) × Int) ms => if acc.2 < ms.2 then ms else acc)
      (m, s)).1)

/-- From the spec's words for claim C7: directly compare the static
evaluation of each one-ply successor position, no recursive search, ties to
the first-enumerated move. -/
def directDepth1Choice (b : Board) (stone : Stone) : Option (Nat × Nat) :=
  firstArgmax ((validMovesList b stone).map (fun m => (m, onePlyScore b stone m)))

/-- All legal non-eye moves (full-board scan, for the claim C9 statement).
`validMovesList` is the corresponding full list of legal moves. -/
def nonEyeList (b : Board) (stone : Stone) : List (Nat × Nat) :=
  (validMovesList b stone).filter (fun p => ¬b.is_eye p.1 p.2 stone)

/-- The candidate list of `MonteCarloAI::get_move` after eye filtering:
with at most 2 eyes only non-eye moves are candidates (the pass branch is
the empty-candidates case), otherwise every legal move is. -/
def mcCandidates (b : Board) (stone : Stone) : List (Nat × Nat) :=
  if b.count_eyes_for_color stone ≤ 2 then nonEyeList b stone
  else validMovesList b stone

/-- Invariant of the visited array when `has_liberty_except_recursive`
returns false: a visited cell has colour `c`, its only empty neighbour (if
any) is the excluded point, and its same-coloured neighbours are visited
too. -/
def GoodCell (b : Board) (c ex ey : Nat) (v : List Bool) (q : Nat × Nat) : Prop :=
  cellAt b q = c ∧
  (∀ n ∈ b.nbrsOf q.1 q.2, cellAt b n = EMPTY → n = (ex, ey)) ∧
  (∀ n ∈ b.nbrsOf q.1 q.2, cellAt b n = c → v.getD (b.index n.1 n.2) false = true)

/-- Relation between the post-placement board and the boards threaded
through the opponent-capture loop of `check_captures`: only cells that held
an `opponentU` stone may have been emptied. -/
def OnlyOppRemoved (b1 bc : Board) (opponentU : Nat) : Prop :=
  ∀ q, inBounds b1 q →
    cellAt bc q = cellAt b1 q ∨ (cellAt bc q = EMPTY ∧ cellAt b1 q = opponentU)

/-! ## Concrete fixtures used by witness theorems -/

/-- All-zero Zobrist table for test positions whose claims ignore keys. -/
def ztZero : ZobristTable := ⟨fun _ _ => 0, fun _ _ => 0⟩

/-- Powers-of-two Zobrist table (injective on boards of size at most 3). -/
def ztPow : ZobristTable :=
  ⟨fun x y => 2 ^ (y * 3 + x), fun x y => 2 ^ (16 + y * 3 + x)⟩

/-- Empty 2×2 test board. -/
def bEmpty2 : Board := ⟨2, [0, 0, 0, 0], (0, 0), ztZero, 0⟩

/-- 2×2 test board with a single black stone at (0, 1). -/
def bOneStone : Board := ⟨2, [0, 0, 1, 0], (0, 0), ztZero, 0⟩

/-- 2×2 test board, powers-of-two keys, black stone at (0, 1), hash in
sync. -/
def bOneStonePow : Board := ⟨2, [0, 0, 1, 0], (0, 0), ztPow, 8⟩

/-- 2×2 test board with black stones everywhere but (1, 1). -/
def bAlmostFull : Board := ⟨2, [1, 1, 1, 0], (0, 0), ztZero, 0⟩

/-- 2×2 test board with a white stone at (0, 0) and a black stone at
(1, 0); black to play at (0, 1) captures the white stone. -/
def bCapture : Board := ⟨2, [2, 1, 0, 0], (0, 0), ztZero, 0⟩

/-- 2×2 capture position with powers-of-two keys: white at (0, 0), black
at (1, 0), running hash in sync with the occupied cells. -/
def bCapturePow : Board := ⟨2, [2, 1, 0, 0], (0, 0), ztPow, 65538⟩

/-- Game state (zero keys, history of length 2) in which any successful
placement reproduces the hash two plies back, so simple-Ko rejects it. -/
def gKo : Game := ⟨bEmpty2, Stone.black, 0, none, [0, 0]⟩

/-! ## Basic list and arithmetic helper lemmas -/

theorem getD_replicate_false (n i : Nat) :
    (List.replicate n false).getD i false = false := by
  induction n generalizing i with
  | zero => simp [List.getD]
  | succ m ih =>
    cases i with
    | zero => simp [List.replicate]
    | succ j => simp [List.replicate, List.getD_cons_succ, ih]

theorem getD_replicate_zero (n i : Nat) :
    (List.replicate n (0 : Nat)).getD i 0 = 0 := by
  induction n generalizing i with
  | zero => simp [List.getD]
  | succ m ih =>
    cases i with
    | zero => simp [List.replicate]
    | succ j => simp [List.replicate, List.getD_cons_succ, ih]

theorem getD_set_self {α : Type} [Inhabited α] (l : List α) (i : Nat) (v d : α)
    (h : i < l.length) : (l.set i v).getD i d = v := by
  rw [List.getD_eq_getElem?_getD, List.getElem?_set_self (by simpa using h)]
  rfl

theorem getD_set_ne {α : Type} (l : List α) {i j : Nat} (v d : α)
    (h : i ≠ j) : (l.set i v).getD j d = l.getD j d := by
  rw [List.getD_eq_getElem?_getD, List.getElem?_set_ne h, ← List.getD_eq_getElem?_getD]

theorem count_false_set (l : List Bool) :
    ∀ i : Nat, i < l.length → l.getD i false = false →
    (l.set i true).count false + 1 = l.count false := by
  induction l with
  | nil => intro i h; simp at h
  | cons a t ih =>
    intro i hi hfalse
    cases i with
    | zero =>
      simp only [List.getD_cons_zero] at hfalse
      subst hfalse
      simp [List.set, List.count_cons]
    | succ j =>
      simp only [List.getD_cons_succ] at hfalse
      have := ih j (by simpa using hi) hfalse
      simp only [List.set, List.count_cons]
      omega

theorem count_false_le_of_mono (l l' : List Bool) (hlen : l'.length = l.length)
    (hmono : ∀ i, l.getD i false = true → l'.getD i false = true) :
    l'.count false ≤ l.count false := by
  induction l generalizing l' with
  | nil => cases l' with
    | nil => simp
    | cons a t => simp at hlen
  | cons a t ih =>
    cases l' with
    | nil => simp at hlen
    | cons a' t' =>
      have htail : t'.count false ≤ t.count false := by
        refine ih t' (by simpa using hlen) ?_
        intro i hi
        have := hmono (i + 1)
        simpa [List.getD_cons_succ] using this hi
      have hhead : a = true → a' = true := by
        intro ha
        have := hmono 0
        simpa [List.getD_cons_zero, ha] using this
      simp only [List.count_cons]
      cases a with
      | false => cases a' <;> simp <;> omega
      | true =>
        have := hhead rfl
        subst this
        simpa using htail

theorem foldl_inv {α β : Type} (P : β → Prop) :
    ∀ (l : List α) (f : β → α → β) (init : β), P init →
    (∀ acc a, a ∈ l → P acc → P (f acc a)) → P (l.foldl f init) := by
  intro l
  induction l with
  | nil => intro f init h _; simpa using h
  | cons a t ih =>
    intro f init h hstep
    simp only [List.foldl_cons]
    exact ih f (f init a) (hstep init a (by simp) h)
      (fun acc x hx hacc => hstep acc x (by simp [hx]) hacc)

/-! ## Coordinate and index lemmas -/

theorem index_lt (b : Board) {p : Nat × Nat} (h : inBounds b p) :
    b.index p.1 p.2 < b.size * b.size := by
  obtain ⟨hx, hy⟩ := h
  have h3 : (p.2 + 1) * b.size ≤ b.size * b.size := Nat.mul_le_mul_right _ hy
  have h2 : (p.2 + 1) * b.size = p.2 * b.size + b.size := by ring
  show p.2 * b.size + p.1 < b.size * b.size
  omega

theorem index_mod (b : Board) {p : Nat × Nat} (h : inBounds b p) :
    b.index p.1 p.2 % b.size = p.1 := by
  show (p.2 * b.size + p.1) % b.size = p.1
  rw [Nat.add_comm, Nat.add_mul_mod_self_right]
  exact Nat.mod_eq_of_lt h.1

theorem index_div (b : Board) {p : Nat × Nat} (h : inBounds b p) :
    b.index p.1 p.2 / b.size = p.2 := by
  have hs : 0 < b.size := Nat.lt_of_le_of_lt (Nat.zero_le _) h.1
  show (p.2 * b.size + p.1) / b.size = p.2
  rw [Nat.mul_comm, Nat.mul_add_div hs, Nat.div_eq_of_lt h.1]
  omega

theorem index_inj (b : Board) {p q : Nat × Nat} (hp : inBounds b p) (hq : inBounds b q)
    (h : b.index p.1 p.2 = b.index q.1 q.2) : p = q := by
  have h1 : p.1 = q.1 := by
    have := index_mod b hp
    have h2 := index_mod b hq
    rw [h] at this
    omega
  have h2 : p.2 = q.2 := by
    have := index_div b hp
    have h2 := index_div b hq
    rw [h] at this
    omega
  exact Prod.ext h1 h2

theorem mem_ite_singleton {α : Type} (a v : α) (c : Prop) [Decidable c] :
    (a ∈ if c then [v] else []) ↔ c ∧ a = v := by
  split_ifs with h <;> simp [h]

theorem mem_nbrsOf (b : Board) {x y : Nat} (hx : x < b.size) (hy : y < b.size)
    (n : Nat × Nat) : n ∈ b.nbrsOf x y ↔ inBounds b n ∧ adjacent (x, y) n := by
  obtain ⟨nx, ny⟩ := n
  simp only [Board.nbrsOf, List.mem_append, mem_ite_singleton, Prod.mk.injEq,
    inBounds, adjacent]
  omega

theorem nbrsOf_length_le (b : Board) (x y : Nat) : (b.nbrsOf x y).length ≤ 4 := by
  unfold Board.nbrsOf
  split_ifs <;> simp

theorem adjacent_comm {p q : Nat × Nat} : adjacent p q ↔ adjacent q p := by
  obtain ⟨a, c⟩ := p
  obtain ⟨d, e⟩ := q
  simp only [adjacent]
  omega

/-! ## Cell-value and well-formedness lemmas -/

theorem cellAt_le_two {b : Board} (hwf : WF b) (p : Nat × Nat) : cellAt b p ≤ 2 := by
  show b.grid.getD (b.index p.1 p.2) 0 ≤ 2
  by_cases h : b.index p.1 p.2 < b.grid.length
  · rw [List.getD_eq_getElem _ _ h]
    exact hwf.2 _ (List.getElem_mem h)
  · rw [List.getD_eq_getElem?_getD, List.getElem?_eq_none (by omega), Option.getD_none]
    omega

theorem stoneToU8_ne_zero (stone : Stone) : stoneToU8 stone ≠ 0 := by
  cases stone <;> decide

theorem oppositeU8_stone (stone : Stone) :
    oppositeU8 (stoneToU8 stone) = stoneToU8 stone.opposite := by
  cases stone <;> decide

theorem oppositeU8_ne_zero (stone : Stone) : oppositeU8 (stoneToU8 stone) ≠ 0 := by
  cases stone <;> decide

theorem oppositeU8_ne_stoneU (stone : Stone) :
    oppositeU8 (stoneToU8 stone) ≠ stoneToU8 stone := by
  cases stone <;> decide

theorem cell_cases {b : Board} (hwf : WF b) (p : Nat × Nat) (stone : Stone)
    (h : cellAt b p ≠ EMPTY) :
    cellAt b p = stoneToU8 stone ∨ cellAt b p = oppositeU8 (stoneToU8 stone) := by
  have h2 := cellAt_le_two hwf p
  have h0 : cellAt b p ≠ 0 := h
  cases stone
  · rw [show stoneToU8 Stone.black = 1 from rfl, show oppositeU8 1 = 2 from rfl]
    omega
  · rw [show stoneToU8 Stone.white = 2 from rfl, show oppositeU8 2 = 1 from rfl]
    omega

/-! ## Reachability lemmas -/

theorem stepRel_symm {b : Board} {c : Nat} : Symmetric (stepRel b c) := by
  intro p q h
  obtain ⟨h1, h2, h3, h4, h5⟩ := h
  exact ⟨h2, h1, h4, h3, adjacent_comm.mp h5⟩

theorem reach_symm {b : Board} {c : Nat} {p q : Nat × Nat} (h : reach b c p q) :
    reach b c q p :=
  Relation.ReflTransGen.symmetric stepRel_symm h

theorem reach_last {b : Board} {c : Nat} {p q : Nat × Nat} (h : reach b c p q) :
    p = q ∨ (inBounds b q ∧ cellAt b q = c) := by
  induction h with
  | refl => exact Or.inl rfl
  | tail _ hstep _ => exact Or.inr ⟨hstep.2.1, hstep.2.2.2.1⟩

theorem reach_mono_of_cells {b b' : Board} {c : Nat} (hs : b'.size = b.size)
    (hc : ∀ q, inBounds b q → cellAt b q = c → cellAt b' q = c)
    {p q : Nat × Nat} (h : reach b c p q) : reach b' c p q := by
  refine Relation.ReflTransGen.mono ?_ h
  intro u v huv
  obtain ⟨h1, h2, h3, h4, h5⟩ := huv
  have hb1 : inBounds b' u := by simpa [inBounds, hs] using h1
  have hb2 : inBounds b' v := by simpa [inBounds, hs] using h2
  exact ⟨hb1, hb2, hc u h1 h3, hc v h2 h4, h5⟩

theorem hasLibM_mono {b b' : Board} {c : Nat} (hs : b'.size = b.size)
    (hcells : ∀ q, inBounds b q → cellAt b q = c → cellAt b' q = c)
    (hempty : ∀ r, cellAt b r = EMPTY → cellAt b' r = EMPTY)
    (hnbrs : ∀ x y, b'.nbrsOf x y = b.nbrsOf x y)
    {p : Nat × Nat} (h : hasLibM b c p) : hasLibM b' c p := by
  obtain ⟨q, hq, r, hr, hre⟩ := h
  exact ⟨q, reach_mono_of_cells hs hcells hq, r, by rw [hnbrs]; exact hr, hempty r hre⟩

/-! ## Claim C6: out-of-range reads -/

/-- C6 counterexample: on a 2×2 board the out-of-range read `get(2, 0)` is
not fatal — it silently returns the stone stored at the different cell
(0, 1), whose flat index `0*2 + 2 = 2` it aliases. -/
theorem c6_counterexample :
    bOneStone.size ≤ 2 ∧ bOneStone.get 2 0 = some (some Stone.black) ∧
      bOneStone.get 2 0 = bOneStone.get 0 1 ∧ ((2, 0) : Nat × Nat) ≠ (0, 1) := by
  refine ⟨by decide, by decide, by decide, by decide⟩

/-- C6 (amended): reading `(x, y)` is fatal exactly when the flat index
`y*size + x` falls outside the backing array; an out-of-range coordinate
whose flat index is still inside the array silently reads the cell at
coordinates `(index % size, index / size)` instead. -/
theorem c6_get_flat_index (b : Board) (x y : Nat) (hwf : WF b) :
    (b.get x y = none ↔ b.size * b.size ≤ y * b.size + x) ∧
    (y * b.size + x < b.size * b.size → 0 < b.size →
      b.get x y = b.get ((y * b.size + x) % b.size) ((y * b.size + x) / b.size) ∧
      (y * b.size + x) % b.size < b.size ∧
      (y * b.size + x) / b.size < b.size) := by
  have hidx : b.index x y = y * b.size + x := rfl
  constructor
  · by_cases h : y * b.size + x < b.size * b.size
    · simp [Board.get, hwf.1, hidx, h, Nat.not_le.mpr h]
    · simp [Board.get, hwf.1, hidx, h, Nat.le_of_not_lt h]
  · intro hin hpos
    have hidx2 : b.index ((y * b.size + x) % b.size) ((y * b.size + x) / b.size) =
        y * b.size + x := by
      show (y * b.size + x) / b.size * b.size + (y * b.size + x) % b.size =
        y * b.size + x
      rw [Nat.mul_comm]
      exact Nat.div_add_mod _ _
    refine ⟨?_, Nat.mod_lt _ hpos, (Nat.div_lt_iff_lt_mul hpos).mpr hin⟩
    unfold Board.get
    rw [hidx, hidx2]

/-- C6 amended-claim witness at a concrete in-range flat index. -/
theorem c6_get_flat_index_witness :
    bOneStone.get 2 0 = bOneStone.get ((0 * bOneStone.size + 2) % bOneStone.size)
      ((0 * bOneStone.size + 2) / bOneStone.size) :=
  ((c6_get_flat_index bOneStone 2 0 (by constructor <;> decide)).2
    (by decide) (by decide)).1

/-! ## Claim C8: MCTS single-move early return -/

/-- C8: whenever the MCTS candidate enumeration yields exactly one legal
point, `run_mcts` returns that point immediately with zero simulations run,
whatever the time-budgeted tree-search loop would have done. -/
theorem c8_mcts_single_move
    (search : Board → Stone → List (Nat × Nat) → Option (Nat × Nat) × Nat)
    (b : Board) (stone : Stone) (m : Nat × Nat)
    (h : mctsGetValidMoves b stone = [m]) :
    runMctsSkeleton search b stone = (some m, 0) := by
  unfold runMctsSkeleton
  rw [h]
  simp

/-- C8 witness: a 2×2 position where white's only legal point is the
capturing move (1, 1); any search loop is bypassed. -/
theorem c8_mcts_single_move_witness :
    runMctsSkeleton (fun _ _ _ => (none, 99)) bAlmostFull Stone.white =
      (some (1, 1), 0) :=
  c8_mcts_single_move _ bAlmostFull Stone.white (1, 1) (by decide)

/-! ## Claim C10: MonteCarlo never passes on nonempty candidates -/

theorem mcSelectBest_lt (len : Nat) (wins games : List Nat) (h : 0 < len) :
    mcSelectBest len wins games < len := by
  unfold mcSelectBest
  refine foldl_inv (fun acc : Nat × Rat => acc.1 < len) _ _ _ h ?_
  intro acc a ha hacc
  simp only [List.mem_range] at ha
  split
  · show (if acc.2 < ((wins.getD a 0 : Rat) / (games.getD a 0 : Rat)) then
        (a, ((wins.getD a 0 : Rat) / (games.getD a 0 : Rat))) else acc).1 < len
    split
    · exact ha
    · exact hacc
  · exact hacc

theorem getD_all_zero {games : List Nat} (h : ∀ g ∈ games, g = 0) (idx : Nat) :
    games.getD idx 0 = 0 := by
  rcases Nat.lt_or_ge idx games.length with hlt | hge
  · rw [List.getD_eq_getElem _ _ hlt]
    exact h _ (List.getElem_mem hlt)
  · rw [List.getD_eq_getElem?_getD, List.getElem?_eq_none (by omega), Option.getD_none]

theorem mcSelectBest_zero (len : Nat) (wins games : List Nat)
    (h : ∀ g ∈ games, g = 0) : mcSelectBest len wins games = 0 := by
  unfold mcSelectBest
  have hfold : ∀ (l : List Nat) (acc : Nat × Rat),
      l.foldl (fun (acc : Nat × Rat) idx =>
        if 0 < games.getD idx 0 then
          let winRate : Rat := (wins.getD idx 0 : Rat) / (games.getD idx 0 : Rat)
          if acc.2 < winRate then (idx, winRate) else acc
        else acc) acc = acc := by
    intro l
    induction l with
    | nil => intro acc; rfl
    | cons a t ih =>
      intro acc
      simp only [List.foldl_cons, getD_all_zero h a]
      simpa using ih acc
  rw [hfold]

theorem headI_eq_getD_zero {l : List (Nat × Nat)} (h : l ≠ []) :
    l.headI = l.getD 0 (0, 0) := by
  cases l with
  | nil => exact absurd rfl h
  | cons a t => rfl

theorem mcFinish_spec (validMoves : List (Nat × Nat)) (wins games : List Nat)
    (h : validMoves ≠ []) :
    (∃ m ∈ validMoves, mcFinish validMoves wins games = some m) ∧
    ((∀ g ∈ games, g = 0) → mcFinish validMoves wins games = some validMoves.headI) := by
  have hlen : 0 < validMoves.length := List.length_pos.mpr h
  constructor
  · have hbest := mcSelectBest_lt validMoves.length wins games hlen
    refine ⟨validMoves.getD (mcSelectBest validMoves.length wins games) (0, 0), ?_, ?_⟩
    · rw [List.getD_eq_getElem _ _ hbest]
      exact List.getElem_mem hbest
    · simp [mcFinish, h]
  · intro hz
    rw [headI_eq_getD_zero h]
    simp [mcFinish, h, mcSelectBest_zero _ wins games hz]

/-- C10: whenever the MonteCarlo agent's eye-filtered candidate list is
nonempty it returns one of the candidates — it never passes — and if the
time budget allowed zero completed simulations (all per-move game counters
zero) it returns the first candidate in enumeration order. -/
theorem c10_mc_never_passes (b : Board) (stone : Stone) (wins games : List Nat)
    (h : mcCandidates b stone ≠ []) :
    (∃ m ∈ mcCandidates b stone, mcGetMove b stone wins games = some m) ∧
    ((∀ g ∈ games, g = 0) →
      mcGetMove b stone wins games = some (mcCandidates b stone).headI) := by
  by_cases heyes : b.count_eyes_for_color stone ≤ 2
  · have hc : mcCandidates b stone = nonEyeList b stone := by
      simp [mcCandidates, heyes]
    rw [hc] at h ⊢
    have hne : (validMovesList b stone).filter
        (fun p => ¬b.is_eye p.1 p.2 stone) ≠ [] := h
    have hgoal : mcGetMove b stone wins games =
        mcFinish (nonEyeList b stone) wins games := by
      unfold mcGetMove
      rw [if_pos ⟨heyes, hne⟩]
      rfl
    rw [hgoal]
    exact mcFinish_spec _ wins games h
  · have hc : mcCandidates b stone = validMovesList b stone := by
      simp [mcCandidates, heyes]
    rw [hc] at h ⊢
    have hgoal : mcGetMove b stone wins games =
        mcFinish (validMovesList b stone) wins games := by
      unfold mcGetMove
      rw [if_neg (by intro hcon; exact heyes hcon.1),
        if_neg (by intro hcon; exact heyes hcon.1)]
      rfl
    rw [hgoal]
    exact mcFinish_spec _ wins games h

/-- C10 witness: empty 2×2 board, empty simulation tallies — the agent
returns the first enumerated candidate (0, 0). -/
theorem c10_mc_never_passes_witness :
    mcGetMove bEmpty2 Stone.black [] [] = some (mcCandidates bEmpty2 Stone.black).headI :=
  (c10_mc_never_passes bEmpty2 Stone.black [] [] (by decide)).2 (by simp)

/-! ## Claim C5: simple-Ko rejection in the controller -/

theorem valid_guard (b : Board) (x y : Nat) (stone : Stone)
    (h : b.is_valid_move x y stone = true) :
    x < b.size ∧ y < b.size ∧ b.getRaw x y = EMPTY := by
  refine ⟨?_, ?_, ?_⟩
  · by_contra hx
    unfold Board.is_valid_move at h
    rw [if_pos (by simp [Nat.le_of_not_lt hx])] at h
    cases h
  · by_contra hy
    unfold Board.is_valid_move at h
    rw [if_pos (by simp [Nat.le_of_not_lt hy])] at h
    cases h
  · by_contra he
    unfold Board.is_valid_move at h
    rw [if_pos (by simp [he])] at h
    cases h

theorem place_stone_ok_of_valid (b : Board) (x y : Nat) (stone : Stone)
    (h : b.is_valid_move x y stone = true) :
    ∃ nb, b.place_stone x y stone = .ok nb := by
  obtain ⟨hx, hy, he⟩ := valid_guard b x y stone h
  cases hres : b.place_stone x y stone with
  | ok nb => exact ⟨nb, rfl⟩
  | error e =>
    exfalso
    unfold Board.place_stone at hres
    rw [if_neg (by omega), if_neg (by simp [he])] at hres
    cases hres

theorem playStep_some_invalid (g : Game) (x y : Nat)
    (hv : g.board.is_valid_move x y g.current_turn = false) :
    g.playStep (some (x, y)) = (StepOutcome.invalidMove, g) := by
  simp [Game.playStep, hv]

theorem playStep_some_valid (g : Game) (x y : Nat) (tb : Board)
    (hv : g.board.is_valid_move x y g.current_turn = true)
    (htb : g.board.place_stone x y g.current_turn = .ok tb) :
    g.playStep (some (x, y)) =
      if 2 ≤ g.board_history.length ∧
          g.board_history.getD (g.board_history.length - 2) 0 = tb.get_hash then
        (StepOutcome.koViolation, g)
      else
        (StepOutcome.moved,
          { g with
            board := tb
            consecutive_passes := 0
            previous_board := some g.board
            board_history := g.board_history ++ [tb.get_hash]
            current_turn := g.current_turn.opposite }) := by
  simp only [Game.playStep]
  rw [if_neg (by simp [hv]), htb]

/-- C5: on a submitted move the controller first checks board legality
(rejecting as `invalidMove` with no state change), then applies the move to
a scratch copy and rejects as `koViolation` — leaving board, turn colour,
pass counter and history untouched — exactly when the scratch hash equals
the history entry two plies back; in every other case (in particular after
any other move has been interposed, which changes that two-back entry) the
move is committed: board updated, hash appended, passes reset, colour
flipped.  Only this one-entry comparison exists, so only immediate
recapture is detected. -/
theorem c5_ko_check (g : Game) (x y : Nat) :
    (((g.playStep (some (x, y))).1 = StepOutcome.invalidMove ∨
      (g.playStep (some (x, y))).1 = StepOutcome.koViolation) →
      (g.playStep (some (x, y))).2 = g) ∧
    (g.board.is_valid_move x y g.current_turn = false →
      (g.playStep (some (x, y))).1 = StepOutcome.invalidMove) ∧
    (g.board.is_valid_move x y g.current_turn = true →
      ∀ tb, g.board.place_stone x y g.current_turn = .ok tb →
        (((g.playStep (some (x, y))).1 = StepOutcome.koViolation ↔
          2 ≤ g.board_history.length ∧
          g.board_history.getD (g.board_history.length - 2) 0 = tb.get_hash) ∧
        (¬(2 ≤ g.board_history.length ∧
            g.board_history.getD (g.board_history.length - 2) 0 = tb.get_hash) →
          g.playStep (some (x, y)) =
            (StepOutcome.moved,
              { g with
                board := tb
                consecutive_passes := 0
                previous_board := some g.board
                board_history := g.board_history ++ [tb.get_hash]
                current_turn := g.current_turn.opposite })))) := by
  by_cases hv : g.board.is_valid_move x y g.current_turn = true
  · obtain ⟨tb0, htb0⟩ := place_stone_ok_of_valid _ _ _ _ hv
    have hchar := playStep_some_valid g x y tb0 hv htb0
    refine ⟨?_, ?_, ?_⟩
    · intro hout
      rw [hchar]
      rw [hchar] at hout
      by_cases hko : 2 ≤ g.board_history.length ∧
          g.board_history.getD (g.board_history.length - 2) 0 = tb0.get_hash
      · rw [if_pos hko]
      · rw [if_neg hko] at hout
        rcases hout with hout | hout <;> cases hout
    · intro hcon
      rw [hv] at hcon
      cases hcon
    · intro _ tb htb
      have htbeq : tb = tb0 := by
        rw [htb0] at htb
        exact (Except.ok.inj htb).symm
      subst htbeq
      constructor
      · rw [hchar]
        by_cases hko : 2 ≤ g.board_history.length ∧
            g.board_history.getD (g.board_history.length - 2) 0 = tb.get_hash
        · rw [if_pos hko]
          exact iff_of_true rfl hko
        · rw [if_neg hko]
          exact iff_of_false (by simp) hko
      · intro hko
        rw [hchar, if_neg hko]
  · have hv' : g.board.is_valid_move x y g.current_turn = false := by
      cases hcase : g.board.is_valid_move x y g.current_turn
      · rfl
      · exact absurd hcase hv
    have hchar := playStep_some_invalid g x y hv'
    refine ⟨?_, ?_, ?_⟩
    · intro _
      rw [hchar]
    · intro _
      rw [hchar]
    · intro hcon
      rw [hv'] at hcon
      cases hcon

/-- C5 witness: zero-key game state in which the speculative hash equals
the two-back history entry, so the move is rejected as Ko. -/
theorem c5_ko_check_witness :
    (gKo.playStep (some (0, 0))).1 = StepOutcome.koViolation :=
  (((c5_ko_check gKo 0 0).2.2 (by decide)
    ⟨2, [1, 0, 0, 0], (0, 0), ztZero, 0⟩ rfl).1).mpr (by decide)

/-! ## Claim C9: Random agent policy -/

theorem randomScanGo_extend (b : Board) (stone : Stone) :
    ∀ (l v ne : List (Nat × Nat)) (k : Nat),
    ∃ tv tne, randomScanGo b stone l v ne k = (v ++ tv, ne ++ tne) := by
  intro l
  induction l with
  | nil => intro v ne k; exact ⟨[], [], by simp [randomScanGo]⟩
  | cons p rest ih =>
    intro v ne k
    unfold randomScanGo
    dsimp only
    split
    · split
      · split
        · exact ⟨[p], [p], rfl⟩
        · split
          · exact ⟨[p], [p], rfl⟩
          · obtain ⟨tv, tne, heq⟩ := ih (v ++ [p]) (ne ++ [p]) (k + 1)
            exact ⟨[p] ++ tv, [p] ++ tne, by rw [heq]; simp⟩
      · split
        · exact ⟨[p], [], by simp⟩
        · obtain ⟨tv, tne, heq⟩ := ih (v ++ [p]) ne (k + 1)
          exact ⟨[p] ++ tv, tne, by rw [heq]; simp⟩
    · split
      · exact ⟨[], [], by simp⟩
      · obtain ⟨tv, tne, heq⟩ := ih v ne (k + 1)
        exact ⟨tv, tne, by rw [heq]⟩

theorem randomScanGo_mem (b : Board) (stone : Stone) :
    ∀ (l v ne : List (Nat × Nat)) (k : Nat),
    (∀ m, m ∈ (randomScanGo b stone l v ne k).1 →
      m ∈ v ∨ (m ∈ l ∧ b.is_valid_move m.1 m.2 stone = true)) ∧
    (∀ m, m ∈ (randomScanGo b stone l v ne k).2 →
      m ∈ ne ∨ (m ∈ l ∧ b.is_valid_move m.1 m.2 stone = true ∧
        b.is_eye m.1 m.2 stone = false)) := by
  intro l
  induction l with
  | nil =>
    intro v ne k
    constructor
    · intro m hm; exact Or.inl (by simpa [randomScanGo] using hm)
    · intro m hm; exact Or.inl (by simpa [randomScanGo] using hm)
  | cons p rest ih =>
    intro v ne k
    unfold randomScanGo
    dsimp only
    split
    case isTrue hvm =>
      split
      case isTrue heye =>
        have heye' : b.is_eye p.1 p.2 stone = false := by
          simpa using heye
        split
        · constructor
          · intro m hm
            rcases List.mem_append.mp hm with hm | hm
            · exact Or.inl hm
            · exact Or.inr ⟨by simp [List.mem_singleton.mp hm], by
                rw [List.mem_singleton.mp hm]; exact hvm⟩
          · intro m hm
            rcases List.mem_append.mp hm with hm | hm
            · exact Or.inl hm
            · refine Or.inr ⟨by simp [List.mem_singleton.mp hm], ?_, ?_⟩ <;>
                rw [List.mem_singleton.mp hm]
              · exact hvm
              · exact heye'
        · split
          · constructor
            · intro m hm
              rcases List.mem_append.mp hm with hm | hm
              · exact Or.inl hm
              · exact Or.inr ⟨by simp [List.mem_singleton.mp hm], by
                  rw [List.mem_singleton.mp hm]; exact hvm⟩
            · intro m hm
              rcases List.mem_append.mp hm with hm | hm
              · exact Or.inl hm
              · refine Or.inr ⟨by simp [List.mem_singleton.mp hm], ?_, ?_⟩ <;>
                  rw [List.mem_singleton.mp hm]
                · exact hvm
                · exact heye'
          · obtain ⟨ihv, ihne⟩ := ih (v ++ [p]) (ne ++ [p]) (k + 1)
            constructor
            · intro m hm
              rcases ihv m hm with hm2 | hm2
              · rcases List.mem_append.mp hm2 with hm3 | hm3
                · exact Or.inl hm3
                · exact Or.inr ⟨by simp [List.mem_singleton.mp hm3], by
                    rw [List.mem_singleton.mp hm3]; exact hvm⟩
              · exact Or.inr ⟨by simp [hm2.1], hm2.2⟩
            · intro m hm
              rcases ihne m hm with hm2 | hm2
              · rcases List.mem_append.mp hm2 with hm3 | hm3
                · exact Or.inl hm3
                · refine Or.inr ⟨by simp [List.mem_singleton.mp hm3], ?_, ?_⟩ <;>
                    rw [List.mem_singleton.mp hm3]
                  · exact hvm
                  · exact heye'
              · exact Or.inr ⟨by simp [hm2.1], hm2.2⟩
      case isFalse heye =>
        split
        · constructor
          · intro m hm
            rcases List.mem_append.mp hm with hm | hm
            · exact Or.inl hm
            · exact Or.inr ⟨by simp [List.mem_singleton.mp hm], by
                rw [List.mem_singleton.mp hm]; exact hvm⟩
          · intro m hm
            exact Or.inl hm
        · obtain ⟨ihv, ihne⟩ := ih (v ++ [p]) ne (k + 1)
          constructor
          · intro m hm
            rcases ihv m hm with hm2 | hm2
            · rcases List.mem_append.mp hm2 with hm3 | hm3
              · exact Or.inl hm3
              · exact Or.inr ⟨by simp [List.mem_singleton.mp hm3], by
                  rw [List.mem_singleton.mp hm3]; exact hvm⟩
            · exact Or.inr ⟨by simp [hm2.1], hm2.2⟩
          · intro m hm
            rcases ihne m hm with hm2 | hm2
            · exact Or.inl hm2
            · exact Or.inr ⟨by simp [hm2.1], hm2.2⟩
    case isFalse hvm =>
      split
      · constructor
        · intro m hm; exact Or.inl hm
        · intro m hm; exact Or.inl hm
      · obtain ⟨ihv, ihne⟩ := ih v ne (k + 1)
        constructor
        · intro m hm
          rcases ihv m hm with hm2 | hm2
          · exact Or.inl hm2
          · exact Or.inr ⟨by simp [hm2.1], hm2.2⟩
        · intro m hm
          rcases ihne m hm with hm2 | hm2
          · exact Or.inl hm2
          · exact Or.inr ⟨by simp [hm2.1], hm2.2⟩

theorem randomScanGo_no_noneye (b : Board) (stone : Stone) :
    ∀ (l v ne : List (Nat × Nat)) (k : Nat),
    (randomScanGo b stone l v ne k).2 = [] →
    ne = [] ∧
    (randomScanGo b stone l v ne k).1 =
      v ++ l.filter (fun p => b.is_valid_move p.1 p.2 stone) ∧
    (∀ m ∈ l, b.is_valid_move m.1 m.2 stone = true →
      b.is_eye m.1 m.2 stone = true) := by
  intro l
  induction l with
  | nil =>
    intro v ne k h2
    refine ⟨by simpa [randomScanGo] using h2, by simp [randomScanGo], by simp⟩
  | cons p rest ih =>
    intro v ne k h2
    unfold randomScanGo at h2 ⊢
    dsimp only at h2 ⊢
    split at h2
    case isTrue hvm =>
      split at h2
      case isTrue heye =>
        exfalso
        split at h2
        · simp at h2
        · split at h2
          · simp at h2
          · obtain ⟨tv, tne, heq⟩ :=
              randomScanGo_extend b stone rest (v ++ [p]) (ne ++ [p]) (k + 1)
            rw [heq] at h2
            simp at h2
      case isFalse heye =>
        have heye' : b.is_eye p.1 p.2 stone = true := by
          by_contra hcon
          exact heye (by simp [Bool.of_not_eq_true hcon])
        split at h2
        case isTrue hbreak =>
          exact absurd h2 hbreak.2
        case isFalse hbreak =>
          obtain ⟨hne, h1, hall⟩ := ih (v ++ [p]) ne (k + 1) h2
          refine ⟨hne, ?_, ?_⟩
          · rw [if_pos hvm, if_neg heye, if_neg hbreak, h1]
            simp [List.filter_cons, hvm]
          · intro m hm hvmm
            rcases List.mem_cons.mp hm with hm | hm
            · rw [hm]; exact heye'
            · exact hall m hm hvmm
    case isFalse hvm =>
      have hvm' : b.is_valid_move p.1 p.2 stone = false := by
        by_contra hcon
        exact hvm (Bool.of_not_eq_false hcon)
      split at h2
      case isTrue hbreak =>
        exact absurd h2 hbreak.2
      case isFalse hbreak =>
        obtain ⟨hne, h1, hall⟩ := ih v ne (k + 1) h2
        refine ⟨hne, ?_, ?_⟩
        · rw [if_neg hvm, if_neg hbreak, h1]
          simp [List.filter_cons, hvm']
        · intro m hm hvmm
          rcases List.mem_cons.mp hm with hm | hm
          · rw [hm] at hvmm
            rw [hvmm] at hvm'
            cases hvm'
          · exact hall m hm hvmm

theorem randomScanGo_sub (b : Board) (stone : Stone) :
    ∀ (l v ne : List (Nat × Nat)) (k : Nat), (∀ m ∈ ne, m ∈ v) →
    ∀ m ∈ (randomScanGo b stone l v ne k).2, m ∈ (randomScanGo b stone l v ne k).1 := by
  intro l
  induction l with
  | nil =>
    intro v ne k hsub m hm
    simp only [randomScanGo] at hm ⊢
    exact hsub m hm
  | cons p rest ih =>
    intro v ne k hsub
    unfold randomScanGo
    dsimp only
    have hgrow : ∀ m ∈ ne, m ∈ v ++ [p] := fun m hm => List.mem_append.mpr (Or.inl (hsub m hm))
    have hgrow2 : ∀ m ∈ ne ++ [p], m ∈ v ++ [p] := by
      intro m hm
      rcases List.mem_append.mp hm with hm | hm
      · exact List.mem_append.mpr (Or.inl (hsub m hm))
      · exact List.mem_append.mpr (Or.inr hm)
    split
    · split
      · split
        · exact hgrow2
        · split
          · exact hgrow2
          · exact ih (v ++ [p]) (ne ++ [p]) (k + 1) hgrow2
      · split
        · exact hgrow
        · exact ih (v ++ [p]) ne (k + 1) hgrow
    · split
      · exact hsub
      · exact ih v ne (k + 1) hsub

theorem randomScan_mem_valid (b : Board) (stone : Stone) {m : Nat × Nat}
    (hm : m ∈ (randomScan b stone).1) : m ∈ validMovesList b stone := by
  rcases (randomScanGo_mem b stone (rowMajor b.size) [] [] 0).1 m hm with h | h
  · cases h
  · exact List.mem_filter.mpr ⟨h.1, h.2⟩

theorem randomScan_mem_noneye (b : Board) (stone : Stone) {m : Nat × Nat}
    (hm : m ∈ (randomScan b stone).2) : m ∈ nonEyeList b stone := by
  rcases (randomScanGo_mem b stone (rowMajor b.size) [] [] 0).2 m hm with h | h
  · cases h
  · refine List.mem_filter.mpr ⟨List.mem_filter.mpr ⟨h.1, h.2.1⟩, ?_⟩
    simp [h.2.2]

theorem randomScan_noneye_empty (b : Board) (stone : Stone)
    (h : (randomScan b stone).2 = []) :
    (randomScan b stone).1 = validMovesList b stone ∧ nonEyeList b stone = [] := by
  obtain ⟨_, h1, hall⟩ := randomScanGo_no_noneye b stone (rowMajor b.size) [] [] 0 h
  refine ⟨by simpa [validMovesList] using h1, ?_⟩
  rw [nonEyeList, List.filter_eq_nil_iff]
  intro m hmem
  have := hall m (List.mem_filter.mp hmem).1 (List.mem_filter.mp hmem).2
  simp [this]

theorem randomScan_valid_empty (b : Board) (stone : Stone)
    (h : (randomScan b stone).1 = []) :
    validMovesList b stone = [] ∧ (randomScan b stone).2 = [] := by
  have hsub : ∀ m ∈ (randomScan b stone).2, m ∈ (randomScan b stone).1 :=
    randomScanGo_sub b stone (rowMajor b.size) [] [] 0 (by simp)
  have h2 : (randomScan b stone).2 = [] := by
    rcases hcase : (randomScan b stone).2 with _ | ⟨m, t⟩
    · rfl
    · exfalso
      have := hsub m (by rw [hcase]; simp)
      rw [h] at this
      cases this
  obtain ⟨h1, _⟩ := randomScan_noneye_empty b stone h2
  rw [h] at h1
  exact ⟨h1.symm, h2⟩

theorem listPick_mem {l : List (Nat × Nat)} (h : l ≠ []) (r : Nat) :
    listPick l r ∈ l := by
  have hlen : 0 < l.length := List.length_pos.mpr h
  have hmod : r % l.length < l.length := Nat.mod_lt _ hlen
  rw [listPick, List.getD_eq_getElem _ _ hmod]
  exact List.getElem_mem hmod

/-- C9: the Random agent's observable policy.  With the `thread_rng` draws
modelled as oracles (`coin` is the `gen_bool(0.8)` outcome, true on the
0.8-probability side): (1) it passes exactly when there is no legal move at
all or the colour holds at most 2 eyes and only eye moves remain; (2) any
returned move is legal; (3) with at most 2 eyes, eye points are excluded
entirely; (4) with more than 2 eyes and a non-eye move available, the
0.8-probability branch plays a non-eye move (non-eye moves preferred);
(5) with more than 2 eyes and only eye moves left, it still plays
(eye-filling permitted). -/
theorem c9_random_policy (b : Board) (stone : Stone) (coin : Bool)
    (r1 r2 r3 r4 r5 : Nat) :
    (randomGetMove b stone coin r1 r2 r3 r4 r5 = none ↔
      validMovesList b stone = [] ∨
        (nonEyeList b stone = [] ∧ b.count_eyes_for_color stone ≤ 2)) ∧
    (∀ m, randomGetMove b stone coin r1 r2 r3 r4 r5 = some m →
      m ∈ validMovesList b stone) ∧
    (b.count_eyes_for_color stone ≤ 2 →
      ∀ m, randomGetMove b stone coin r1 r2 r3 r4 r5 = some m →
        m ∈ nonEyeList b stone) ∧
    (2 < b.count_eyes_for_color stone → coin = true →
      (randomScan b stone).2 ≠ [] →
      ∀ m, randomGetMove b stone coin r1 r2 r3 r4 r5 = some m →
        m ∈ nonEyeList b stone) ∧
    (2 < b.count_eyes_for_color stone → nonEyeList b stone = [] →
      validMovesList b stone ≠ [] →
      ∃ m ∈ validMovesList b stone,
        randomGetMove b stone coin r1 r2 r3 r4 r5 = some m) := by
  by_cases hv : (randomScan b stone).1 = []
  · obtain ⟨hvl, hsne⟩ := randomScan_valid_empty b stone hv
    have hres : randomGetMove b stone coin r1 r2 r3 r4 r5 = none := by
      simp only [randomGetMove]
      rw [if_pos hv]
    refine ⟨?_, ?_, ?_, ?_, ?_⟩
    · rw [hres]
      simp [hvl]
    · intro m hm
      rw [hres] at hm
      cases hm
    · intro _ m hm
      rw [hres] at hm
      cases hm
    · intro _ _ _ m hm
      rw [hres] at hm
      cases hm
    · intro _ _ hcon
      exact absurd hvl hcon
  · by_cases hne : (randomScan b stone).2 = []
    · obtain ⟨hsv, hnel⟩ := randomScan_noneye_empty b stone hne
      have hvl : validMovesList b stone ≠ [] := by
        rw [← hsv]
        exact hv
      by_cases heyes : 2 < b.count_eyes_for_color stone
      · have hres : randomGetMove b stone coin r1 r2 r3 r4 r5 =
            some (listPick (randomScan b stone).1 r5) := by
          simp only [randomGetMove]
          rw [if_neg hv, if_neg (fun hcon => hcon hne), if_pos heyes]
        have hmem : listPick (randomScan b stone).1 r5 ∈ validMovesList b stone :=
          randomScan_mem_valid b stone (listPick_mem hv r5)
        refine ⟨?_, ?_, ?_, ?_, ?_⟩
        · rw [hres]
          simp only [reduceCtorEq, false_iff]
          intro hcon
          rcases hcon with hcon | hcon
          · exact hvl hcon
          · omega
        · intro m hm
          rw [hres] at hm
          rw [← Option.some.inj hm]
          exact hmem
        · intro hcon
          omega
        · intro _ _ hcon
          exact absurd hne hcon
        · intro _ _ _
          exact ⟨listPick (randomScan b stone).1 r5, hmem, hres⟩
      · have hres : randomGetMove b stone coin r1 r2 r3 r4 r5 = none := by
          simp only [randomGetMove]
          rw [if_neg hv, if_neg (fun hcon => hcon hne), if_neg heyes]
        refine ⟨?_, ?_, ?_, ?_, ?_⟩
        · rw [hres]
          simp only [true_iff]
          exact Or.inr ⟨hnel, by omega⟩
        · intro m hm
          rw [hres] at hm
          cases hm
        · intro _ m hm
          rw [hres] at hm
          cases hm
        · intro hcon
          omega
        · intro hcon
          omega
    · -- a non-eye move was found by the scan
      have hnel : nonEyeList b stone ≠ [] := by
        obtain ⟨m, hm⟩ := List.exists_mem_of_ne_nil _ hne
        exact List.ne_nil_of_mem (randomScan_mem_noneye b stone hm)
      have hvl : validMovesList b stone ≠ [] := by
        obtain ⟨m, hm⟩ := List.exists_mem_of_ne_nil _ hv
        exact List.ne_nil_of_mem (randomScan_mem_valid b stone hm)
      have hsome : ∀ m, randomGetMove b stone coin r1 r2 r3 r4 r5 = some m →
          m ∈ validMovesList b stone := by
        intro m hm
        simp only [randomGetMove] at hm
        rw [if_neg hv, if_pos hne] at hm
        split at hm
        · split at hm
          · split at hm
            · rw [← Option.some.inj hm]
              exact List.mem_filter.mp
                (randomScan_mem_noneye b stone (listPick_mem hne r1)) |>.1
            · rw [← Option.some.inj hm]
              exact randomScan_mem_valid b stone (listPick_mem hv r2)
          · rw [← Option.some.inj hm]
            exact List.mem_filter.mp
              (randomScan_mem_noneye b stone (listPick_mem hne r3)) |>.1
        · rw [← Option.some.inj hm]
          exact List.mem_filter.mp
            (randomScan_mem_noneye b stone (listPick_mem hne r4)) |>.1
      have hissome : ∃ m, randomGetMove b stone coin r1 r2 r3 r4 r5 = some m := by
        simp only [randomGetMove]
        rw [if_neg hv, if_pos hne]
        split
        · split
          · split
            · exact ⟨_, rfl⟩
            · exact ⟨_, rfl⟩
          · exact ⟨_, rfl⟩
        · exact ⟨_, rfl⟩
      refine ⟨?_, hsome, ?_, ?_, ?_⟩
      · obtain ⟨m, hm⟩ := hissome
        rw [hm]
        simp only [reduceCtorEq, false_iff]
        intro hcon
        rcases hcon with hcon | hcon
        · exact hvl hcon
        · exact hnel hcon.1
      · intro heyes m hm
        simp only [randomGetMove] at hm
        rw [if_neg hv, if_pos hne] at hm
        by_cases hlen : (randomScan b stone).2.length < 3
        · rw [if_pos hlen,
            if_neg (by omega : ¬2 < b.count_eyes_for_color stone)] at hm
          rw [← Option.some.inj hm]
          exact randomScan_mem_noneye b stone (listPick_mem hne r3)
        · rw [if_neg hlen] at hm
          rw [← Option.some.inj hm]
          exact randomScan_mem_noneye b stone (listPick_mem hne r4)
      · intro heyes hcoin _ m hm
        simp only [randomGetMove] at hm
        rw [if_neg hv, if_pos hne] at hm
        by_cases hlen : (randomScan b stone).2.length < 3
        · rw [if_pos hlen, if_pos heyes,
            if_pos (by simp [hcoin] :
              (coin || (randomScan b stone).2.isEmpty) = true)] at hm
          rw [← Option.some.inj hm]
          exact randomScan_mem_noneye b stone (listPick_mem hne r1)
        · rw [if_neg hlen] at hm
          rw [← Option.some.inj hm]
          exact randomScan_mem_noneye b stone (listPick_mem hne r4)
      · intro _ hcon
        exact absurd hcon hnel

/-- C9 witness: on the empty 2×2 board (0 eyes) black plays a legal
non-eye move for any oracle draws. -/
theorem c9_random_policy_witness :
    (0 : Nat) ≤ 2 ∧ randomGetMove bEmpty2 Stone.black true 0 0 0 0 0 = some (0, 0) ∧
      (0, 0) ∈ nonEyeList bEmpty2 Stone.black :=
  ⟨by decide, by decide,
    (c9_random_policy bEmpty2 Stone.black true 0 0 0 0 0).2.2.1 (by decide)
      (0, 0) (by decide)⟩

/-! ## Claim C7: minimax at depth 1 equals direct one-ply evaluation -/

theorem foldl_fst_congr {α β : Type} (l : List α) (f g : β → α → β) (init : β)
    (h : ∀ acc a, a ∈ l → f acc a = g acc a) : l.foldl f init = l.foldl g init := by
  induction l generalizing init with
  | nil => rfl
  | cons a t ih =>
    simp only [List.foldl_cons]
    rw [h init a (by simp)]
    exact ih _ (fun acc x hx => h acc x (by simp [hx]))

theorem foldl_opt_pair (score : Nat × Nat → Int) :
    ∀ (rest : List (Nat × Nat)) (a : Nat × Nat) (c : Int),
    (rest.foldl (fun (acc : Option (Nat × Nat) × Int) m =>
      if acc.2 < score m then (some m, score m) else acc) (some a, c)).1 =
    some ((rest.foldl (fun (acc : (Nat × Nat) × Int) m =>
      if acc.2 < score m then (m, score m) else acc) (a, c)).1) := by
  intro rest
  induction rest with
  | nil => intro a c; rfl
  | cons m t ih =>
    intro a c
    simp only [List.foldl_cons]
    by_cases hlt : c < score m
    · rw [if_pos hlt, if_pos hlt]
      exact ih m (score m)
    · rw [if_neg hlt, if_neg hlt]
      exact ih a c

theorem fold_best_eq_firstArgmax (score : Nat × Nat → Int) :
    ∀ (l : List (Nat × Nat)), l ≠ [] → (∀ m ∈ l, i32Min < score m) →
    (l.foldl (fun (acc : Option (Nat × Nat) × Int) m =>
      if acc.2 < score m then (some m, score m) else acc) (none, i32Min)).1 =
    firstArgmax (l.map (fun m => (m, score m))) := by
  intro l hne hsc
  cases l with
  | nil => exact absurd rfl hne
  | cons m0 rest =>
    simp only [List.foldl_cons, List.map_cons, firstArgmax]
    rw [if_pos (hsc m0 (by simp))]
    rw [List.foldl_map]
    exact foldl_opt_pair score rest m0 (score m0)

/-- C7: for a position with at least one legal move (and one-ply scores
above the `i32::MIN` sentinel, which holds for any position a real game can
reach), `MinimaxAI::get_move` at depth 1 returns exactly the move obtained
by evaluating every one-ply successor directly and taking the first
maximum in row-major enumeration order — no recursive search. -/
theorem c7_minimax_depth1 (b : Board) (stone : Stone)
    (hmoves : validMovesList b stone ≠ [])
    (hsc : ∀ m ∈ validMovesList b stone, i32Min < onePlyScore b stone m) :
    minimaxGetMove 1 b stone = directDepth1Choice b stone := by
  have hclean : ((validMovesList b stone).foldl
      (fun (acc : Option (Nat × Nat) × Int) m =>
        if acc.2 < onePlyScore b stone m then (some m, onePlyScore b stone m)
        else acc) (none, i32Min)).1 = directDepth1Choice b stone := by
    unfold directDepth1Choice
    exact fold_best_eq_firstArgmax (onePlyScore b stone) _ hmoves hsc
  rw [← hclean]
  unfold minimaxGetMove
  rw [if_neg hmoves]
  congr 1
  apply foldl_fst_congr
  intro acc m hm
  have hvalid : b.is_valid_move m.1 m.2 stone = true := (List.mem_filter.mp hm).2
  obtain ⟨nb, hnb⟩ := place_stone_ok_of_valid _ _ _ _ hvalid
  have hops : onePlyScore b stone m = evaluate_board nb stone := by
    unfold onePlyScore
    rw [hnb]
  rw [hnb, hops]
  simp

/-- C7 witness on the empty 2×2 board. -/
theorem c7_minimax_depth1_witness :
    minimaxGetMove 1 bEmpty2 Stone.black = directDepth1Choice bEmpty2 Stone.black :=
  c7_minimax_depth1 bEmpty2 Stone.black (by decide) (by decide)

/-! ## Correctness of the `get_group` flood fill -/

theorem closed_reach (b : Board) (c : Nat) (G : List (Nat × Nat))
    (hclosed : ∀ g ∈ G, ∀ n ∈ b.nbrsOf g.1 g.2, cellAt b n = c → n ∈ G) :
    ∀ g ∈ G, ∀ q, reach b c g q → q ∈ G := by
  intro g hg q hreach
  induction hreach with
  | refl => exact hg
  | tail hr hstep ih =>
    obtain ⟨hu, hv, hcu, hcv, hadj⟩ := hstep
    exact hclosed _ ih _ ((mem_nbrsOf b hu.1 hu.2 _).mpr ⟨hv, hadj⟩) hcv

theorem has_no_liberties_iff (b : Board) (l : List (Nat × Nat)) :
    b.has_no_liberties l = true ↔
      ∀ p ∈ l, ∀ n ∈ b.nbrsOf p.1 p.2, cellAt b n ≠ EMPTY := by
  simp [Board.has_no_liberties, cellAt, Board.getRaw, List.all_eq_true]

theorem getGroupLoop_spec (b : Board) (c : Nat) (p0 : Nat × Nat) (hwf : WF b) :
    ∀ (fuel : Nat) (stack : List (Nat × Nat)) (visited : List Bool)
      (group : List (Nat × Nat)),
    visited.length = b.size * b.size →
    stack.length + 5 * visited.count false < fuel →
    (∀ s ∈ stack, inBounds b s ∧ cellAt b s = c ∧ reach b c p0 s) →
    (∀ g ∈ group, inBounds b g ∧ cellAt b g = c ∧ reach b c p0 g) →
    (∀ q, inBounds b q →
      (visited.getD (b.index q.1 q.2) false = true ↔ q ∈ group)) →
    group.Nodup →
    (∀ g ∈ group, ∀ n ∈ b.nbrsOf g.1 g.2, cellAt b n = c →
      n ∈ group ∨ n ∈ stack) →
    (∀ g ∈ getGroupLoop b c fuel stack visited group,
        inBounds b g ∧ cellAt b g = c ∧ reach b c p0 g) ∧
    (getGroupLoop b c fuel stack visited group).Nodup ∧
    (∀ g ∈ group, g ∈ getGroupLoop b c fuel stack visited group) ∧
    (∀ s ∈ stack, s ∈ getGroupLoop b c fuel stack visited group) ∧
    (∀ g ∈ getGroupLoop b c fuel stack visited group,
      ∀ n ∈ b.nbrsOf g.1 g.2, cellAt b n = c →
        n ∈ getGroupLoop b c fuel stack visited group) := by
  intro fuel
  induction fuel with
  | zero =>
    intro stack visited group _ hfuel _ _ _ _ _
    omega
  | succ f ih =>
    intro stack visited group hlen hfuel hstack hgroup hiff hnodup hclosed
    cases stack with
    | nil =>
      show (∀ g ∈ group, _) ∧ group.Nodup ∧ _
      refine ⟨hgroup, hnodup, fun g hg => hg, fun s hs => absurd hs (by simp), ?_⟩
      intro g hg n hn hcn
      rcases hclosed g hg n hn hcn with h | h
      · exact h
      · cases h
    | cons p rest =>
      obtain ⟨hpin, hpc, hpreach⟩ := hstack p (by simp)
      have hidxlt : b.index p.1 p.2 < visited.length := by
        rw [hlen]
        exact index_lt b hpin
      by_cases hv : visited.getD (b.index p.1 p.2) false = true
      · have hres : getGroupLoop b c (f + 1) (p :: rest) visited group =
            getGroupLoop b c f rest visited group := by
          conv_lhs => unfold getGroupLoop
          rw [if_pos hv]
        rw [hres]
        have hpgrp : p ∈ group := (hiff p hpin).mp hv
        have := ih rest visited group hlen (by simp at hfuel ⊢; omega)
          (fun s hs => hstack s (by simp [hs]))
          hgroup hiff hnodup
          (fun g hg n hn hcn => by
            rcases hclosed g hg n hn hcn with h | h
            · exact Or.inl h
            · rcases List.mem_cons.mp h with h | h
              · rw [h]; exact Or.inl hpgrp
              · exact Or.inr h)
        refine ⟨this.1, this.2.1, this.2.2.1, ?_, this.2.2.2.2⟩
        intro s hs
        rcases List.mem_cons.mp hs with h | h
        · rw [h]; exact this.2.2.1 p hpgrp
        · exact this.2.2.2.1 s h
      · have hv' : visited.getD (b.index p.1 p.2) false = false := by
          cases hcase : visited.getD (b.index p.1 p.2) false
          · rfl
          · exact absurd hcase hv
        have hpnot : p ∉ group := fun hcon => hv ((hiff p hpin).mpr hcon)
        have hres : getGroupLoop b c (f + 1) (p :: rest) visited group =
            getGroupLoop b c f
              (((b.nbrsOf p.1 p.2).filter (fun n =>
                !((visited.set (b.index p.1 p.2) true).getD (b.index n.1 n.2) false) &&
                  b.getRaw n.1 n.2 = c)) ++ rest)
              (visited.set (b.index p.1 p.2) true) (group ++ [p]) := by
          conv_lhs => unfold getGroupLoop
          rw [if_neg hv]
        rw [hres]
        set visited' := visited.set (b.index p.1 p.2) true with hvis'
        set toPush := (b.nbrsOf p.1 p.2).filter (fun n =>
          !(visited'.getD (b.index n.1 n.2) false) && b.getRaw n.1 n.2 = c) with htp
        have hcount : visited'.count false + 1 = visited.count false :=
          count_false_set visited _ hidxlt hv'
        have hiff' : ∀ q, inBounds b q →
            (visited'.getD (b.index q.1 q.2) false = true ↔ q ∈ group ++ [p]) := by
          intro q hq
          by_cases hqp : q = p
          · subst hqp
            rw [hvis', getD_set_self _ _ _ _ hidxlt]
            simp
          · have hne : b.index p.1 p.2 ≠ b.index q.1 q.2 := fun hcon =>
              hqp (index_inj b hq hpin hcon.symm)
            rw [hvis', getD_set_ne _ _ _ hne]
            rw [hiff q hq]
            simp [hqp]
        have hstack' : ∀ s ∈ toPush ++ rest,
            inBounds b s ∧ cellAt b s = c ∧ reach b c p0 s := by
          intro s hs
          rcases List.mem_append.mp hs with hs | hs
          · have hmem := List.mem_filter.mp hs
            have hcell : cellAt b s = c := by
              have := hmem.2
              simp only [Bool.and_eq_true, decide_eq_true_eq] at this
              exact this.2
            have hsin : inBounds b s ∧ adjacent (p.1, p.2) s :=
              (mem_nbrsOf b hpin.1 hpin.2 s).mp hmem.1
            refine ⟨hsin.1, hcell, ?_⟩
            exact hpreach.tail ⟨hpin, hsin.1, hpc, hcell, hsin.2⟩
          · exact hstack s (by simp [hs])
        have hgroup' : ∀ g ∈ group ++ [p],
            inBounds b g ∧ cellAt b g = c ∧ reach b c p0 g := by
          intro g hg
          rcases List.mem_append.mp hg with hg | hg
          · exact hgroup g hg
          · rw [List.mem_singleton.mp hg]
            exact ⟨hpin, hpc, hpreach⟩
        have hnodup' : (group ++ [p]).Nodup := by
          rw [List.nodup_append]
          exact ⟨hnodup, List.nodup_singleton p,
            fun a ha hb => hpnot (by rwa [List.mem_singleton.mp hb] at ha)⟩
        have hclosed' : ∀ g ∈ group ++ [p], ∀ n ∈ b.nbrsOf g.1 g.2,
            cellAt b n = c → n ∈ group ++ [p] ∨ n ∈ toPush ++ rest := by
          intro g hg n hn hcn
          rcases List.mem_append.mp hg with hg | hg
          · rcases hclosed g hg n hn hcn with h | h
            · exact Or.inl (List.mem_append.mpr (Or.inl h))
            · rcases List.mem_cons.mp h with h | h
              · rw [h]
                exact Or.inl (List.mem_append.mpr (Or.inr (by simp)))
              · exact Or.inr (List.mem_append.mpr (Or.inr h))
          · rw [List.mem_singleton.mp hg] at hn
            have hnin : inBounds b n := ((mem_nbrsOf b hpin.1 hpin.2 n).mp hn).1
            by_cases hvn : visited'.getD (b.index n.1 n.2) false = true
            · exact Or.inl ((hiff' n hnin).mp hvn)
            · refine Or.inr (List.mem_append.mpr (Or.inl ?_))
              rw [htp]
              refine List.mem_filter.mpr ⟨hn, ?_⟩
              simp only [Bool.and_eq_true, Bool.not_eq_true', decide_eq_true_eq]
              refine ⟨?_, hcn⟩
              cases hcase : visited'.getD (b.index n.1 n.2) false
              · rfl
              · exact absurd hcase hvn
        have htplen : toPush.length ≤ 4 := by
          calc toPush.length ≤ (b.nbrsOf p.1 p.2).length := by
                rw [htp]; exact List.length_filter_le _ _
            _ ≤ 4 := nbrsOf_length_le b p.1 p.2
        have hfuel' : (toPush ++ rest).length + 5 * visited'.count false < f := by
          rw [List.length_append]
          simp only [List.length_cons] at hfuel
          omega
        have hlen' : visited'.length = b.size * b.size := by
          rw [hvis', List.length_set]
          exact hlen
        have := ih (toPush ++ rest) visited' (group ++ [p]) hlen' hfuel'
          hstack' hgroup' hiff' hnodup' hclosed'
        refine ⟨this.1, this.2.1, ?_, ?_, this.2.2.2.2⟩
        · intro g hg
          exact this.2.2.1 g (List.mem_append.mpr (Or.inl hg))
        · intro s hs
          rcases List.mem_cons.mp hs with h | h
          · rw [h]
            exact this.2.2.1 p (List.mem_append.mpr (Or.inr (by simp)))
          · exact this.2.2.2.1 s (List.mem_append.mpr (Or.inr h))

theorem get_group_spec (b : Board) (p0 : Nat × Nat) (hwf : WF b)
    (hin : inBounds b p0) (hc : cellAt b p0 ≠ EMPTY) :
    (∀ g ∈ b.get_group p0.1 p0.2,
        inBounds b g ∧ cellAt b g = cellAt b p0 ∧ reach b (cellAt b p0) p0 g) ∧
    (b.get_group p0.1 p0.2).Nodup ∧
    p0 ∈ b.get_group p0.1 p0.2 ∧
    (∀ q, reach b (cellAt b p0) p0 q → q ∈ b.get_group p0.1 p0.2) := by
  have hgg : b.get_group p0.1 p0.2 =
      getGroupLoop b (cellAt b p0) (5 * (b.size * b.size) + 2) [p0]
        (List.replicate (b.size * b.size) false) [] := by
    show (if cellAt b p0 = EMPTY then []
      else getGroupLoop b (cellAt b p0) (5 * (b.size * b.size) + 2) [p0]
        (List.replicate (b.size * b.size) false) []) = _
    rw [if_neg hc]
  have hcnt : (List.replicate (b.size * b.size) false).count false =
      b.size * b.size := by
    simp [List.count_replicate]
  have hmain := getGroupLoop_spec b (cellAt b p0) p0 hwf
    (5 * (b.size * b.size) + 2) [p0] (List.replicate (b.size * b.size) false) []
    (by simp)
    (by rw [hcnt]; simp; omega)
    (by
      intro s hs
      rw [List.mem_singleton.mp hs]
      exact ⟨hin, rfl, Relation.ReflTransGen.refl⟩)
    (by intro g hg; cases hg)
    (by
      intro q _
      rw [getD_replicate_false]
      simp)
    List.nodup_nil
    (by intro g hg; cases hg)
  rw [hgg]
  refine ⟨hmain.1, hmain.2.1, hmain.2.2.2.1 p0 (by simp), ?_⟩
  intro q hq
  exact closed_reach b (cellAt b p0) _ hmain.2.2.2.2 p0
    (hmain.2.2.2.1 p0 (by simp)) q hq

/-! ## Structure preservation of the removal loop -/

theorem removeGroup_size (b : Board) (G : List (Nat × Nat)) :
    (removeGroup b G).size = b.size := by
  refine foldl_inv (fun bc : Board => bc.size = b.size) G _ b rfl ?_
  intro acc g _ h
  exact h

theorem removeGroup_captured (b : Board) (G : List (Nat × Nat)) :
    (removeGroup b G).captured = b.captured := by
  refine foldl_inv (fun bc : Board => bc.captured = b.captured) G _ b rfl ?_
  intro acc g _ h
  exact h

theorem removeGroup_zobrist (b : Board) (G : List (Nat × Nat)) :
    (removeGroup b G).zobrist_table = b.zobrist_table := by
  refine foldl_inv (fun bc : Board => bc.zobrist_table = b.zobrist_table) G _ b rfl ?_
  intro acc g _ h
  exact h

theorem removeGroup_grid_length (b : Board) (G : List (Nat × Nat)) :
    (removeGroup b G).grid.length = b.grid.length := by
  refine foldl_inv (fun bc : Board => bc.grid.length = b.grid.length) G _ b rfl ?_
  intro acc g _ h
  simp only [removeGroup, List.length_set]
  exact h

theorem removeGroup_wf (b : Board) (G : List (Nat × Nat)) (hwf : WF b) :
    WF (removeGroup b G) := by
  refine foldl_inv (fun bc : Board => bc.size = b.size ∧ WF bc) G _ b ⟨rfl, hwf⟩ ?_
    |>.2
  intro acc g _ h
  refine ⟨h.1, ?_, ?_⟩
  · simp only [List.length_set]
    rw [h.2.1, h.1]
  · intro v hv
    rcases List.mem_or_eq_of_mem_set hv with hv | hv
    · exact h.2.2 v hv
    · rw [hv]
      decide

theorem index_eq_of_size {bc b0 : Board} (h : bc.size = b0.size) (x y : Nat) :
    bc.index x y = b0.index x y := by
  unfold Board.index
  rw [h]

theorem cellAt_removeGroup (b : Board) (G : List (Nat × Nat))
    (hwfl : b.grid.length = b.size * b.size) (hG : ∀ g ∈ G, inBounds b g) :
    ∀ q, inBounds b q →
      cellAt (removeGroup b G) q = if q ∈ G then EMPTY else cellAt b q := by
  induction G generalizing b with
  | nil =>
    intro q _
    simp [removeGroup]
  | cons g G' ih =>
    intro q hq
    have hgin : inBounds b g := hG g (by simp)
    have hglt : b.index g.1 g.2 < b.grid.length := by
      rw [hwfl]
      exact index_lt b hgin
    have hstep : removeGroup b (g :: G') =
        removeGroup { b with
          grid := b.grid.set (b.index g.1 g.2) EMPTY
          current_hash := b.current_hash ^^^
            b.zobrist_table.get_stone_hash g.1 g.2
              (b.grid.getD (b.index g.1 g.2) 0 = BLACK) } G' := rfl
    set b1 : Board := { b with
      grid := b.grid.set (b.index g.1 g.2) EMPTY
      current_hash := b.current_hash ^^^
        b.zobrist_table.get_stone_hash g.1 g.2
          (b.grid.getD (b.index g.1 g.2) 0 = BLACK) } with hb1
    have hcell1 : ∀ r, inBounds b r →
        cellAt b1 r = if r = g then EMPTY else cellAt b r := by
      intro r hr
      by_cases hrg : r = g
      · subst hrg
        simp only [if_pos rfl]
        show (b.grid.set (b.index r.1 r.2) EMPTY).getD (b.index r.1 r.2) 0 = EMPTY
        rw [getD_set_self _ _ _ _ hglt]
      · simp only [if_neg hrg]
        show (b.grid.set (b.index g.1 g.2) EMPTY).getD (b.index r.1 r.2) 0 =
          b.grid.getD (b.index r.1 r.2) 0
        exact getD_set_ne _ _ _ (fun hcon => hrg (index_inj b hr hgin hcon.symm))
    have hres := ih b1 (by simpa [hb1, List.length_set] using hwfl)
      (fun g' hg' => hG g' (by simp [hg'])) q hq
    rw [hstep, hres]
    by_cases hqG : q ∈ G'
    · simp [hqG]
    · by_cases hqg : q = g
      · rw [if_neg hqG, hcell1 q hq, if_pos hqg, if_pos (by simp [hqg])]
      · rw [if_neg hqG, hcell1 q hq, if_neg hqg,
          if_neg (by simp [hqg, hqG])]

/-! ## Claim C2: capture credit accounting -/

theorem countP_flip_one {P P' : Nat → Bool} :
    ∀ (l : List Nat), l.Nodup → ∀ i0 ∈ l, P i0 = false → P' i0 = true →
    (∀ j ∈ l, j ≠ i0 → P' j = P j) →
    l.countP P' = l.countP P + 1 := by
  intro l
  induction l with
  | nil => intro _ i0 h; cases h
  | cons a t ih =>
    intro hnd i0 hi0 hP hP' hsame
    rcases List.mem_cons.mp hi0 with h | h
    · subst h
      have hPt : ∀ j ∈ t, P' j = P j := by
        intro j hj
        refine hsame j (by simp [hj]) ?_
        intro hcon
        subst hcon
        exact (List.nodup_cons.mp hnd).1 hj
      rw [List.countP_cons, List.countP_cons, hP, hP',
        List.countP_congr (fun x hx => by rw [hPt x hx])]
      simp
    · have hai0 : a ≠ i0 := by
        intro hcon
        subst hcon
        exact (List.nodup_cons.mp hnd).1 h
      rw [List.countP_cons, List.countP_cons,
        ih (List.nodup_cons.mp hnd).2 i0 h hP hP'
          (fun j hj hne => hsame j (by simp [hj]) hne),
        hsame a (by simp) hai0]
      omega

theorem cellOf_inBounds (b : Board) (i : Nat) (hi : i < b.size * b.size) :
    inBounds b (i % b.size, i / b.size) := by
  have h0 : 0 < b.size := by
    by_contra hcon
    have : b.size = 0 := by omega
    rw [this] at hi
    omega
  exact ⟨Nat.mod_lt _ h0, by
    show i / b.size < b.size
    exact (Nat.div_lt_iff_lt_mul h0).mpr hi⟩

theorem getD_eq_cellAt (b : Board) (i : Nat) (hi : i < b.size * b.size) :
    b.grid.getD i 0 = cellAt b (i % b.size, i / b.size) := by
  have h0 : 0 < b.size := by
    by_contra hcon
    have : b.size = 0 := by omega
    rw [this] at hi
    omega
  show b.grid.getD i 0 = b.grid.getD (b.index (i % b.size) (i / b.size)) 0
  congr 1
  show i = (i / b.size) * b.size + i % b.size
  rw [Nat.mul_comm]
  exact (Nat.div_add_mod i b.size).symm

theorem index_cellOf (b : Board) (i : Nat) :
    b.index (i % b.size) (i / b.size) = (i / b.size) * b.size + i % b.size := rfl

theorem removedOppCount_self (b bc : Board) (opponentU : Nat) (hopp : opponentU ≠ 0)
    (hcell : ∀ q, inBounds b q → cellAt bc q = cellAt b q)
    (hsz : bc.size = b.size) (hlen : bc.grid.length = b.size * b.size) :
    removedOppCount b bc opponentU = 0 := by
  rw [removedOppCount, List.countP_eq_zero]
  intro i hi
  rw [List.mem_range] at hi
  simp only [decide_eq_true_eq, not_and]
  intro hbase
  have hcc : bc.grid.getD i 0 = cellAt bc (i % b.size, i / b.size) := by
    have : bc.grid.getD i 0 = cellAt bc (i % bc.size, i / bc.size) :=
      getD_eq_cellAt bc i (by rw [hsz]; exact hi)
    rwa [hsz] at this
  rw [hcc, hcell _ (cellOf_inBounds b i hi), ← getD_eq_cellAt b i hi, hbase]
  exact hopp

theorem removedOppCount_remove_one (b bc : Board) (opponentU : Nat) (g : Nat × Nat)
    (hopp : opponentU ≠ 0) (hsz : bc.size = b.size)
    (hlen : bc.grid.length = b.size * b.size)
    (hg : inBounds b g) (hcur : cellAt bc g = opponentU)
    (hbase : cellAt b g = opponentU) :
    removedOppCount b { bc with
        grid := bc.grid.set (bc.index g.1 g.2) EMPTY
        current_hash := bc.current_hash ^^^ bc.zobrist_table.get_stone_hash g.1 g.2
          (bc.grid.getD (bc.index g.1 g.2) 0 = BLACK) } opponentU =
      removedOppCount b bc opponentU + 1 := by
  have hidx : bc.index g.1 g.2 = b.index g.1 g.2 := index_eq_of_size hsz g.1 g.2
  have hilt : b.index g.1 g.2 < b.size * b.size := index_lt b hg
  refine countP_flip_one (List.range (b.size * b.size)) (List.nodup_range _)
    (b.index g.1 g.2) (List.mem_range.mpr hilt) ?_ ?_ ?_
  · simp only [decide_eq_false_iff_not, not_and]
    intro _
    show ¬bc.grid.getD (b.index g.1 g.2) 0 = EMPTY
    rw [← hidx]
    show ¬cellAt bc g = EMPTY
    rw [hcur]
    exact hopp
  · simp only [decide_eq_true_eq]
    constructor
    · show b.grid.getD (b.index g.1 g.2) 0 = opponentU
      exact hbase
    · show (bc.grid.set (bc.index g.1 g.2) EMPTY).getD (b.index g.1 g.2) 0 = EMPTY
      rw [← hidx]
      exact getD_set_self _ _ _ _ (by rw [hlen, hsz] at *; omega)
  · intro j hj hne
    have hgd : (bc.grid.set (bc.index g.1 g.2) EMPTY).getD j 0 =
        bc.grid.getD j 0 :=
      getD_set_ne _ _ _ (by rw [hidx]; exact fun hcon => hne hcon.symm)
    simp only [hgd]

theorem removedOppCount_removeGroup (b : Board) (opponentU : Nat)
    (hopp : opponentU ≠ 0) :
    ∀ (G : List (Nat × Nat)) (bc : Board),
    bc.size = b.size → bc.grid.length = b.size * b.size → G.Nodup →
    (∀ g ∈ G, inBounds b g ∧ cellAt bc g = opponentU ∧ cellAt b g = opponentU) →
    removedOppCount b (removeGroup bc G) opponentU =
      removedOppCount b bc opponentU + G.length := by
  intro G
  induction G with
  | nil =>
    intro bc _ _ _ _
    simp [removeGroup]
  | cons g G' ih =>
    intro bc hsz hlen hnd hcells
    obtain ⟨hgin, hgcur, hgbase⟩ := hcells g (by simp)
    set b1 : Board := { bc with
      grid := bc.grid.set (bc.index g.1 g.2) EMPTY
      current_hash := bc.current_hash ^^^ bc.zobrist_table.get_stone_hash g.1 g.2
        (bc.grid.getD (bc.index g.1 g.2) 0 = BLACK) } with hb1
    have hstep : removeGroup bc (g :: G') = removeGroup b1 G' := rfl
    have hcells' : ∀ g' ∈ G',
        inBounds b g' ∧ cellAt b1 g' = opponentU ∧ cellAt b g' = opponentU := by
      intro g' hg'
      obtain ⟨h1, h2, h3⟩ := hcells g' (by simp [hg'])
      refine ⟨h1, ?_, h3⟩
      have hne : g' ≠ g := by
        intro hcon
        subst hcon
        exact (List.nodup_cons.mp hnd).1 hg'
      show (bc.grid.set (bc.index g.1 g.2) EMPTY).getD (bc.index g'.1 g'.2) 0 =
        opponentU
      rw [getD_set_ne _ _ _ (fun hcon => hne (by
        rw [index_eq_of_size hsz, index_eq_of_size hsz] at hcon
        exact index_inj b h1 hgin hcon.symm))]
      exact h2
    rw [hstep, ih b1 hsz (by simp [hb1, List.length_set, hlen]) 
      (List.nodup_cons.mp hnd).2 hcells',
      removedOppCount_remove_one b bc opponentU g hopp hsz hlen hgin hgcur hgbase]
    simp only [List.length_cons]
    omega

theorem removedOppCount_remove_nonopp (b bc : Board) (opponentU : Nat)
    (hsz : bc.size = b.size) (hlen : bc.grid.length = b.size * b.size)
    (G : List (Nat × Nat))
    (hG : ∀ g ∈ G, inBounds b g ∧ cellAt b g ≠ opponentU) :
    removedOppCount b (removeGroup bc G) opponentU =
      removedOppCount b bc opponentU := by
  unfold removedOppCount
  refine List.countP_congr ?_
  intro i hi
  rw [List.mem_range] at hi
  set q : Nat × Nat := (i % b.size, i / b.size) with hqdef
  have hqin : inBounds b q := cellOf_inBounds b i hi
  have hqinc : inBounds bc q := by
    constructor
    · rw [hsz]; exact hqin.1
    · rw [hsz]; exact hqin.2
  have hgetc : ∀ (w : Board), w.size = b.size → w.grid.getD i 0 = cellAt w q := by
    intro w hw
    have := getD_eq_cellAt w i (by rw [hw]; exact hi)
    rw [hw] at this
    exact this
  by_cases hqG : q ∈ G
  · have hbase : cellAt b q ≠ opponentU := (hG q hqG).2
    rw [hgetc b rfl]
    simp [hbase]
  · have hGc : ∀ g ∈ G, inBounds bc g := by
      intro g hg
      exact ⟨by rw [hsz]; exact (hG g hg).1.1, by rw [hsz]; exact (hG g hg).1.2⟩
    have hcells := cellAt_removeGroup bc G (by rw [hlen, hsz]) hGc q hqinc
    rw [if_neg hqG] at hcells
    rw [hgetc (removeGroup bc G) (by rw [removeGroup_size, hsz]),
      hgetc bc hsz, hcells]

theorem removedOppCount_grid_congr (b bf bf' : Board) (opponentU : Nat)
    (h : bf.grid = bf'.grid) :
    removedOppCount b bf opponentU = removedOppCount b bf' opponentU := by
  unfold removedOppCount
  rw [h]

/-- C2: a successful placement increases the mover's capture counter by
exactly the number of cells that held an opponent stone before the move and
are empty after it (the captured opponent stones), and leaves the
opponent's counter unchanged; self-captured stones of the mover's own
colour contribute to neither counter. -/
theorem c2_capture_credit (b : Board) (x y : Nat) (stone : Stone) (b' : Board)
    (hwf : WF b) (hplace : b.place_stone x y stone = .ok b') :
    (stone = Stone.black → b'.captured =
      (b.captured.1 + removedOppCount b b' (oppositeU8 (stoneToU8 stone)),
        b.captured.2)) ∧
    (stone = Stone.white → b'.captured =
      (b.captured.1,
        b.captured.2 + removedOppCount b b' (oppositeU8 (stoneToU8 stone)))) := by
  have hx : x < b.size := by
    by_contra hcon
    unfold Board.place_stone at hplace
    rw [if_pos (Or.inl (Nat.le_of_not_lt hcon))] at hplace
    simp at hplace
  have hy : y < b.size := by
    by_contra hcon
    unfold Board.place_stone at hplace
    rw [if_pos (Or.inr (Nat.le_of_not_lt hcon))] at hplace
    simp at hplace
  have he : b.getRaw x y = EMPTY := by
    by_contra hcon
    unfold Board.place_stone at hplace
    rw [if_neg (by omega), if_pos hcon] at hplace
    simp at hplace
  set stoneU := stoneToU8 stone with hstU
  set opponentU := oppositeU8 stoneU with hoppU
  have hoppne : opponentU ≠ 0 := oppositeU8_ne_zero stone
  have hstne : stoneU ≠ 0 := stoneToU8_ne_zero stone
  have hstopp : opponentU ≠ stoneU := oppositeU8_ne_stoneU stone
  set b1 : Board := { b with
    grid := b.grid.set (b.index x y) stoneU
    current_hash := b.current_hash ^^^
      b.zobrist_table.get_stone_hash x y (stone = Stone.black) } with hb1
  have hb1wf : WF b1 := by
    refine ⟨by simp [hb1, List.length_set, hwf.1], ?_⟩
    intro v hv
    rcases List.mem_or_eq_of_mem_set hv with hv | hv
    · exact hwf.2 v hv
    · rw [hv, hstU]
      cases stone <;> decide
  have hxyin : inBounds b1 (x, y) := by
    refine ⟨?_, ?_⟩
    · exact hx
    · exact hy
  have hidxlt : b.index x y < b.grid.length := by
    rw [hwf.1]
    exact @index_lt b (x, y) ⟨hx, hy⟩
  have hb1xy : cellAt b1 (x, y) = stoneU := by
    show (b.grid.set (b.index x y) stoneU).getD (b.index x y) 0 = stoneU
    exact getD_set_self _ _ _ _ hidxlt
  have hb1cell : ∀ q, inBounds b q → q ≠ (x, y) → cellAt b1 q = cellAt b q := by
    intro q hq hne
    show (b.grid.set (b.index x y) stoneU).getD (b.index q.1 q.2) 0 =
      b.grid.getD (b.index q.1 q.2) 0
    exact getD_set_ne _ _ _ (fun hcon => hne (index_inj b hq ⟨hx, hy⟩ hcon.symm))
  -- the opponent-capture loop invariant
  set P : Board × Nat → Prop := fun acc =>
    acc.1.size = b.size ∧ acc.1.grid.length = b.size * b.size ∧ WF acc.1 ∧
    acc.1.zobrist_table = b.zobrist_table ∧
    acc.1.captured = b.captured ∧
    OnlyOppRemoved b1 acc.1 opponentU ∧
    acc.2 = removedOppCount b1 acc.1 opponentU with hP
  have hPinit : P (b1, 0) := by
    refine ⟨rfl, by simp [hb1, List.length_set, hwf.1], hb1wf, rfl, rfl,
      fun q _ => Or.inl rfl, ?_⟩
    rw [removedOppCount_self b1 b1 opponentU hoppne (fun q _ => rfl) rfl
      (by simp [hb1, List.length_set, hwf.1])]
  have hstep : ∀ (acc : Board × Nat) (n : Nat × Nat), n ∈ b1.nbrsOf x y → P acc →
      P (if acc.1.getRaw n.1 n.2 = opponentU then
          (if acc.1.has_no_liberties (acc.1.get_group n.1 n.2) then
            (removeGroup acc.1 (acc.1.get_group n.1 n.2),
              acc.2 + (acc.1.get_group n.1 n.2).length)
          else acc)
        else acc) := by
    intro acc n hn hacc
    obtain ⟨hsz, hlen, haccwf, hzob, hcap, honly, hcount⟩ := hacc
    by_cases hc1 : acc.1.getRaw n.1 n.2 = opponentU
    · rw [if_pos hc1]
      by_cases hc2 : acc.1.has_no_liberties (acc.1.get_group n.1 n.2) = true
      · rw [if_pos hc2]
        have hnin : inBounds b1 n := ((mem_nbrsOf b1 hx hy n).mp hn).1
        have hninc : inBounds acc.1 n := ⟨by rw [hsz]; exact hnin.1,
          by rw [hsz]; exact hnin.2⟩
        have hcellopp : cellAt acc.1 n = opponentU := hc1
        have hgs := get_group_spec acc.1 n haccwf hninc
          (by rw [hcellopp]; exact hoppne)
        set G := acc.1.get_group n.1 n.2 with hG
        have hGcells : ∀ g ∈ G, inBounds b1 g ∧ cellAt acc.1 g = opponentU ∧
            cellAt b1 g = opponentU := by
          intro g hg
          obtain ⟨hgin, hgc, _⟩ := hgs.1 g hg
          have hgb1 : inBounds b1 g := ⟨by rw [← hsz]; exact hgin.1,
            by rw [← hsz]; exact hgin.2⟩
          rw [hcellopp] at hgc
          refine ⟨hgb1, hgc, ?_⟩
          rcases honly g hgb1 with h | h
          · rw [← h]; exact hgc
          · rw [hgc] at h
            exact absurd h.1.symm (fun hh => hoppne hh.symm)
        refine ⟨by rw [removeGroup_size, hsz],
          by rw [removeGroup_grid_length, hlen],
          removeGroup_wf _ _ haccwf,
          by rw [removeGroup_zobrist, hzob],
          by rw [removeGroup_captured, hcap], ?_, ?_⟩
        · intro q hq
          have hqinc : inBounds acc.1 q := ⟨by rw [hsz]; exact hq.1,
            by rw [hsz]; exact hq.2⟩
          have hcells := cellAt_removeGroup acc.1 G
            (by rw [hlen, hsz]) (fun g hg => by
              have := (hGcells g hg).1
              exact ⟨by rw [hsz]; exact this.1, by rw [hsz]; exact this.2⟩) q hqinc
          by_cases hqG : q ∈ G
          · rw [if_pos hqG] at hcells
            exact Or.inr ⟨hcells, (hGcells q hqG).2.2⟩
          · rw [if_neg hqG] at hcells
            rw [hcells]
            exact honly q hq
        · rw [removedOppCount_removeGroup b1 opponentU hoppne G acc.1
            (by rw [hsz]) (by rw [hlen]) hgs.2.1
            (fun g hg => ⟨(hGcells g hg).1, (hGcells g hg).2.1, (hGcells g hg).2.2⟩),
            hcount]
      · rw [if_neg hc2]
        exact ⟨hsz, hlen, haccwf, hzob, hcap, honly, hcount⟩
    · rw [if_neg hc1]
      exact ⟨hsz, hlen, haccwf, hzob, hcap, honly, hcount⟩
  have hfold := foldl_inv P (b1.nbrsOf x y)
    (fun (acc : Board × Nat) (n : Nat × Nat) =>
      if acc.1.getRaw n.1 n.2 = opponentU then
        (if acc.1.has_no_liberties (acc.1.get_group n.1 n.2) then
          (removeGroup acc.1 (acc.1.get_group n.1 n.2),
            acc.2 + (acc.1.get_group n.1 n.2).length)
        else acc)
      else acc)
    (b1, 0) hPinit hstep
  set A := (b1.nbrsOf x y).foldl
    (fun (acc : Board × Nat) (n : Nat × Nat) =>
      if acc.1.getRaw n.1 n.2 = opponentU then
        (if acc.1.has_no_liberties (acc.1.get_group n.1 n.2) then
          (removeGroup acc.1 (acc.1.get_group n.1 n.2),
            acc.2 + (acc.1.get_group n.1 n.2).length)
        else acc)
      else acc)
    (b1, 0) with hA
  obtain ⟨hAsz, hAlen, hAwf, hAzob, hAcap, hAonly, hAcount⟩ := hfold
  have hcc : b1.check_captures x y stone =
      (if A.1.has_no_liberties (A.1.get_group x y) then
        (removeGroup A.1 (A.1.get_group x y), A.2)
      else A) := rfl
  -- the final board after a possible self-capture removal
  have hAxy : cellAt A.1 (x, y) = stoneU := by
    rcases hAonly (x, y) hxyin with h | h
    · rw [h]; exact hb1xy
    · rw [hb1xy] at h
      exact absurd h.2 (fun hh => hstopp hh.symm)
  have hselfcells : ∀ g ∈ A.1.get_group x y,
      inBounds b1 g ∧ cellAt b1 g ≠ opponentU := by
    intro g hg
    have hxyinc : inBounds A.1 (x, y) := ⟨by rw [hAsz]; exact hx,
      by rw [hAsz]; exact hy⟩
    have hgs := get_group_spec A.1 (x, y) hAwf hxyinc (by rw [hAxy]; exact hstne)
    obtain ⟨hgin, hgc, _⟩ := hgs.1 g hg
    have hgb1 : inBounds b1 g := ⟨by rw [← hAsz]; exact hgin.1,
      by rw [← hAsz]; exact hgin.2⟩
    rw [hAxy] at hgc
    refine ⟨hgb1, ?_⟩
    rcases hAonly g hgb1 with h | h
    · rw [← h, hgc]
      exact fun hcon => hstopp hcon.symm
    · rw [hgc] at h
      exact absurd h.1.symm (fun hh => hstne hh.symm)
  have hcount2 : removedOppCount b1 (b1.check_captures x y stone).1 opponentU =
      A.2 := by
    rw [hcc]
    by_cases hsc : A.1.has_no_liberties (A.1.get_group x y) = true
    · rw [if_pos hsc]
      show removedOppCount b1 (removeGroup A.1 (A.1.get_group x y)) opponentU = A.2
      rw [removedOppCount_remove_nonopp b1 A.1 opponentU (by rw [hAsz])
        (by rw [hAlen]) _ hselfcells, hAcount]
    · rw [if_neg hsc]
      exact hAcount.symm
  have hcapfinal : (b1.check_captures x y stone).1.captured = b.captured := by
    rw [hcc]
    by_cases hsc : A.1.has_no_liberties (A.1.get_group x y) = true
    · rw [if_pos hsc]
      show (removeGroup A.1 (A.1.get_group x y)).captured = b.captured
      rw [removeGroup_captured, hAcap]
    · rw [if_neg hsc]
      exact hAcap
  -- relate the count over base board b1 to the count over base board b
  have hbasecongr : ∀ bf : Board,
      removedOppCount b1 bf opponentU = removedOppCount b bf opponentU := by
    intro bf
    unfold removedOppCount
    have hszeq : b1.size = b.size := rfl
    rw [hszeq]
    refine List.countP_congr ?_
    intro i hi
    rw [List.mem_range] at hi
    by_cases hii : i = b.index x y
    · subst hii
      have hb1i : b1.grid.getD (b.index x y) 0 = stoneU := hb1xy
      have hbi : b.grid.getD (b.index x y) 0 = EMPTY := he
      rw [hb1i, hbi]
      simp only [decide_eq_true_eq]
      constructor
      · intro hcon
        exact absurd hcon.1.symm hstopp
      · intro hcon
        rw [EMPTY] at hcon
        exact absurd hcon.1.symm hoppne
    · have : b1.grid.getD i 0 = b.grid.getD i 0 := by
        show (b.grid.set (b.index x y) stoneU).getD i 0 = b.grid.getD i 0
        exact getD_set_ne _ _ _ (fun hcon => hii hcon.symm)
      rw [this]
  have hcount3 : (b1.check_captures x y stone).2 = A.2 := by
    rw [hcc]
    by_cases hsc : A.1.has_no_liberties (A.1.get_group x y) = true
    · rw [if_pos hsc]
    · rw [if_neg hsc]
  constructor
  · intro hblack
    subst hblack
    have hb'eq : { (b1.check_captures x y Stone.black).1 with
        captured := ((b1.check_captures x y Stone.black).1.captured.1 +
          (b1.check_captures x y Stone.black).2,
          (b1.check_captures x y Stone.black).1.captured.2) } = b' := by
      unfold Board.place_stone at hplace
      rw [if_neg (by omega), if_neg (fun hcon => hcon he)] at hplace
      exact Except.ok.inj hplace
    have hgrids : b'.grid = (b1.check_captures x y Stone.black).1.grid := by
      rw [← hb'eq]
    have hfincount : removedOppCount b b' opponentU = A.2 := by
      rw [removedOppCount_grid_congr b b' (b1.check_captures x y Stone.black).1
          opponentU hgrids, ← hbasecongr]
      exact hcount2
    rw [hfincount, ← hb'eq]
    show ((b1.check_captures x y Stone.black).1.captured.1 +
        (b1.check_captures x y Stone.black).2,
      (b1.check_captures x y Stone.black).1.captured.2) =
      (b.captured.1 + A.2, b.captured.2)
    rw [hcapfinal, hcount3]
  · intro hwhite
    subst hwhite
    have hb'eq : { (b1.check_captures x y Stone.white).1 with
        captured := ((b1.check_captures x y Stone.white).1.captured.1,
          (b1.check_captures x y Stone.white).1.captured.2 +
            (b1.check_captures x y Stone.white).2) } = b' := by
      unfold Board.place_stone at hplace
      rw [if_neg (by omega), if_neg (fun hcon => hcon he)] at hplace
      exact Except.ok.inj hplace
    have hgrids : b'.grid = (b1.check_captures x y Stone.white).1.grid := by
      rw [← hb'eq]
    have hfincount : removedOppCount b b' opponentU = A.2 := by
      rw [removedOppCount_grid_congr b b' (b1.check_captures x y Stone.white).1
          opponentU hgrids, ← hbasecongr]
      exact hcount2
    rw [hfincount, ← hb'eq]
    show ((b1.check_captures x y Stone.white).1.captured.1,
      (b1.check_captures x y Stone.white).1.captured.2 +
        (b1.check_captures x y Stone.white).2) =
      (b.captured.1, b.captured.2 + A.2)
    rw [hcapfinal, hcount3]

/-- C2 witness: black plays (0, 1) on `bCapture`, capturing the white
stone at (0, 0): black's counter becomes exactly the removed-stone count,
white's stays 0. -/
theorem c2_capture_credit_witness :
    (⟨2, [0, 1, 1, 0], (1, 0), ztZero, 0⟩ : Board).captured =
      (bCapture.captured.1 +
        removedOppCount bCapture ⟨2, [0, 1, 1, 0], (1, 0), ztZero, 0⟩
          (oppositeU8 (stoneToU8 Stone.black)),
        bCapture.captured.2) :=
  (c2_capture_credit bCapture 0 1 Stone.black ⟨2, [0, 1, 1, 0], (1, 0), ztZero, 0⟩
    ⟨by decide, by decide⟩ rfl).1 rfl

/-! ## Claim C3: the Zobrist hash invariant -/

theorem xor_left_comm (a b c : Nat) : a ^^^ (b ^^^ c) = b ^^^ (a ^^^ c) := by
  rw [← Nat.xor_assoc, Nat.xor_comm a b, Nat.xor_assoc]

theorem xorRange_congr (f g : Nat → Nat) :
    ∀ n : Nat, (∀ j, j < n → f j = g j) → xorRange f n = xorRange g n := by
  intro n
  induction n with
  | zero => intro _; rfl
  | succ m ih =>
    intro h
    show xorRange f m ^^^ f m = xorRange g m ^^^ g m
    rw [ih (fun j hj => h j (by omega)), h m (by omega)]

theorem xorRange_zero_fn : ∀ n : Nat, xorRange (fun _ => 0) n = 0 := by
  intro n
  induction n with
  | zero => rfl
  | succ m ih =>
    show xorRange (fun _ => 0) m ^^^ (0 : Nat) = 0
    rw [ih, Nat.xor_zero]

theorem xorRange_update (f g : Nat → Nat) :
    ∀ n i : Nat, i < n → (∀ j, j < n → j ≠ i → f j = g j) →
    xorRange g n = xorRange f n ^^^ f i ^^^ g i := by
  intro n
  induction n with
  | zero =>
    intro i hi _
    omega
  | succ m ih =>
    intro i hi hcongr
    by_cases him : i = m
    · have hpref : xorRange f m = xorRange g m :=
        xorRange_congr f g m (fun j hj => hcongr j (by omega) (by omega))
      have hfm : f i = f m := by rw [him]
      have hgm : g i = g m := by rw [him]
      show xorRange g m ^^^ g m = xorRange f m ^^^ f m ^^^ f i ^^^ g i
      rw [hfm, hgm, ← hpref, Nat.xor_assoc (xorRange f m) (f m) (f m),
        Nat.xor_self, Nat.xor_zero]
    · have ihm := ih i (by omega) (fun j hj hne => hcongr j (by omega) hne)
      have hm : f m = g m := hcongr m (by omega) (by omega)
      show xorRange g m ^^^ g m = xorRange f m ^^^ f m ^^^ f i ^^^ g i
      rw [ihm, ← hm]
      simp [Nat.xor_assoc, Nat.xor_comm, xor_left_comm]

theorem cellKey_of_getD_zero (b : Board) (i : Nat) (h : b.grid.getD i 0 = 0) :
    cellKey b i = 0 := by
  unfold cellKey
  rw [h]

theorem cellKey_of_getD_black (b : Board) (i : Nat) (h : b.grid.getD i 0 = 1) :
    cellKey b i = b.zobrist_table.black (i % b.size) (i / b.size) := by
  unfold cellKey
  rw [h]

theorem cellKey_of_getD_white (b : Board) (i : Nat) (h : b.grid.getD i 0 = 2) :
    cellKey b i = b.zobrist_table.white (i % b.size) (i / b.size) := by
  unfold cellKey
  rw [h]

theorem cellKey_congr (b b' : Board) (i : Nat) (hsz : b'.size = b.size)
    (hz : b'.zobrist_table = b.zobrist_table)
    (hg : b'.grid.getD i 0 = b.grid.getD i 0) :
    cellKey b' i = cellKey b i := by
  unfold cellKey
  rw [hg, hsz, hz]

theorem hashSpec_set (b : Board) (idx u h : Nat) (hidx : idx < b.size * b.size) :
    hashSpec { b with grid := b.grid.set idx u, current_hash := h } =
      hashSpec b ^^^ cellKey b idx ^^^
        cellKey { b with grid := b.grid.set idx u, current_hash := h } idx := by
  unfold hashSpec
  exact xorRange_update (cellKey b)
    (cellKey { b with grid := b.grid.set idx u, current_hash := h })
    (b.size * b.size) idx hidx
    (fun j hj hne =>
      (cellKey_congr b { b with grid := b.grid.set idx u, current_hash := h } j
        rfl rfl (getD_set_ne b.grid u 0 (Ne.symm hne))).symm)

theorem hashOk_mkNew (n : Nat) (t : ZobristTable) : HashOk (Board.mkNew n t) := by
  have h : hashSpec (Board.mkNew n t) = 0 := by
    unfold hashSpec
    rw [xorRange_congr (cellKey (Board.mkNew n t)) (fun _ => 0)
      ((Board.mkNew n t).size * (Board.mkNew n t).size)
      (fun j hj => cellKey_of_getD_zero (Board.mkNew n t) j
        (getD_replicate_zero (n * n) j)),
      xorRange_zero_fn]
  exact h.symm

theorem hashOk_remove_step (bc : Board) (g : Nat × Nat) (hwf : WF bc)
    (hok : HashOk bc) (hgin : inBounds bc g)
    (hgc : cellAt bc g = BLACK ∨ cellAt bc g = WHITE) :
    HashOk { bc with
      grid := bc.grid.set (bc.index g.1 g.2) EMPTY
      current_hash := bc.current_hash ^^^ bc.zobrist_table.get_stone_hash g.1 g.2
        (bc.grid.getD (bc.index g.1 g.2) 0 = BLACK) } := by
  have hok' : bc.current_hash = hashSpec bc := hok
  have hidxlt : bc.index g.1 g.2 < bc.size * bc.size := index_lt bc hgin
  have hidxlen : bc.index g.1 g.2 < bc.grid.length := by
    rw [hwf.1]
    exact hidxlt
  set b2 : Board := { bc with
    grid := bc.grid.set (bc.index g.1 g.2) EMPTY
    current_hash := bc.current_hash ^^^ bc.zobrist_table.get_stone_hash g.1 g.2
      (bc.grid.getD (bc.index g.1 g.2) 0 = BLACK) } with hb2
  have hset := hashSpec_set bc (bc.index g.1 g.2) EMPTY
    (bc.current_hash ^^^ bc.zobrist_table.get_stone_hash g.1 g.2
      (bc.grid.getD (bc.index g.1 g.2) 0 = BLACK)) hidxlt
  rw [← hb2] at hset
  have hkey1 : cellKey b2 (bc.index g.1 g.2) = 0 :=
    cellKey_of_getD_zero b2 (bc.index g.1 g.2)
      (getD_set_self bc.grid (bc.index g.1 g.2) EMPTY 0 hidxlen)
  have hokey : cellKey bc (bc.index g.1 g.2) =
      bc.zobrist_table.get_stone_hash g.1 g.2
        (bc.grid.getD (bc.index g.1 g.2) 0 = BLACK) := by
    rcases hgc with h | h
    · have hget : bc.grid.getD (bc.index g.1 g.2) 0 = 1 := h
      rw [cellKey_of_getD_black bc (bc.index g.1 g.2) hget]
      have hmod : bc.index g.1 g.2 % bc.size = g.1 := index_mod bc hgin
      have hdiv : bc.index g.1 g.2 / bc.size = g.2 := index_div bc hgin
      rw [hmod, hdiv]
      have hdec : decide (bc.grid.getD (bc.index g.1 g.2) 0 = BLACK) = true :=
        decide_eq_true (by rw [hget]; decide)
      rw [hdec]
      rfl
    · have hget : bc.grid.getD (bc.index g.1 g.2) 0 = 2 := h
      rw [cellKey_of_getD_white bc (bc.index g.1 g.2) hget]
      have hmod : bc.index g.1 g.2 % bc.size = g.1 := index_mod bc hgin
      have hdiv : bc.index g.1 g.2 / bc.size = g.2 := index_div bc hgin
      rw [hmod, hdiv]
      have hdec : decide (bc.grid.getD (bc.index g.1 g.2) 0 = BLACK) = false :=
        decide_eq_false (by rw [hget]; decide)
      rw [hdec]
      rfl
  show b2.current_hash = hashSpec b2
  rw [hset, hkey1, Nat.xor_zero, hokey, ← hok']

theorem removeGroup_hashOk (c : Nat) (hcbw : c = BLACK ∨ c = WHITE) :
    ∀ (G : List (Nat × Nat)) (bc : Board), WF bc → HashOk bc → G.Nodup →
    (∀ g ∈ G, inBounds bc g ∧ cellAt bc g = c) →
    HashOk (removeGroup bc G) := by
  intro G
  induction G with
  | nil =>
    intro bc _ hok _ _
    exact hok
  | cons g G' ih =>
    intro bc hwf hok hnd hcells
    obtain ⟨hgin, hgc⟩ := hcells g (by simp)
    set b2 : Board := { bc with
      grid := bc.grid.set (bc.index g.1 g.2) EMPTY
      current_hash := bc.current_hash ^^^ bc.zobrist_table.get_stone_hash g.1 g.2
        (bc.grid.getD (bc.index g.1 g.2) 0 = BLACK) } with hb2
    have hok1 : HashOk b2 :=
      hashOk_remove_step bc g hwf hok hgin
        (Or.imp (fun h => hgc.trans h) (fun h => hgc.trans h) hcbw)
    have hwf1 : WF b2 := by
      refine ⟨?_, ?_⟩
      · show (bc.grid.set (bc.index g.1 g.2) EMPTY).length = bc.size * bc.size
        rw [List.length_set]
        exact hwf.1
      · intro v hv
        rcases List.mem_or_eq_of_mem_set hv with hv | hv
        · exact hwf.2 v hv
        · rw [hv]
          decide
    have hcells' : ∀ g' ∈ G', inBounds b2 g' ∧ cellAt b2 g' = c := by
      intro g' hg'
      obtain ⟨hgin', hgc'⟩ := hcells g' (by simp [hg'])
      have hne : g' ≠ g := by
        intro hcon
        subst hcon
        exact (List.nodup_cons.mp hnd).1 hg'
      refine ⟨⟨hgin'.1, hgin'.2⟩, ?_⟩
      show (bc.grid.set (bc.index g.1 g.2) EMPTY).getD (bc.index g'.1 g'.2) 0 = c
      rw [getD_set_ne _ _ _ (fun hcon => hne (index_inj bc hgin' hgin hcon.symm))]
      exact hgc'
    show HashOk (removeGroup b2 G')
    exact ih b2 hwf1 hok1 (List.nodup_cons.mp hnd).2 hcells'

theorem hashOk_place_cell (b : Board) (x y : Nat) (stone : Stone) (hwf : WF b)
    (hok : HashOk b) (hx : x < b.size) (hy : y < b.size)
    (he : b.getRaw x y = EMPTY) :
    HashOk { b with
      grid := b.grid.set (b.index x y) (stoneToU8 stone)
      current_hash := b.current_hash ^^^
        b.zobrist_table.get_stone_hash x y (stone = Stone.black) } := by
  have hok' : b.current_hash = hashSpec b := hok
  have hin : inBounds b (x, y) := ⟨hx, hy⟩
  have hidxlt : b.index x y < b.size * b.size := @index_lt b (x, y) hin
  have hidxlen : b.index x y < b.grid.length := by
    rw [hwf.1]
    exact hidxlt
  have hmod : b.index x y % b.size = x := @index_mod b (x, y) hin
  have hdiv : b.index x y / b.size = y := @index_div b (x, y) hin
  have hkey0 : cellKey b (b.index x y) = 0 := cellKey_of_getD_zero b _ he
  cases stone with
  | black =>
    set b2 : Board := { b with
      grid := b.grid.set (b.index x y) (stoneToU8 Stone.black)
      current_hash := b.current_hash ^^^
        b.zobrist_table.get_stone_hash x y (Stone.black = Stone.black) } with hb2
    have hset := hashSpec_set b (b.index x y) (stoneToU8 Stone.black)
      (b.current_hash ^^^
        b.zobrist_table.get_stone_hash x y (Stone.black = Stone.black)) hidxlt
    rw [← hb2] at hset
    have hget1 : b2.grid.getD (b.index x y) 0 = 1 :=
      getD_set_self b.grid (b.index x y) (stoneToU8 Stone.black) 0 hidxlen
    have hknew : cellKey b2 (b.index x y) = b.zobrist_table.black x y := by
      rw [cellKey_of_getD_black b2 (b.index x y) hget1]
      show b.zobrist_table.black (b.index x y % b.size) (b.index x y / b.size) =
        b.zobrist_table.black x y
      rw [hmod, hdiv]
    show b2.current_hash = hashSpec b2
    rw [hset, hkey0, Nat.xor_zero, hknew, ← hok']
    rfl
  | white =>
    set b2 : Board := { b with
      grid := b.grid.set (b.index x y) (stoneToU8 Stone.white)
      current_hash := b.current_hash ^^^
        b.zobrist_table.get_stone_hash x y (Stone.white = Stone.black) } with hb2
    have hset := hashSpec_set b (b.index x y) (stoneToU8 Stone.white)
      (b.current_hash ^^^
        b.zobrist_table.get_stone_hash x y (Stone.white = Stone.black)) hidxlt
    rw [← hb2] at hset
    have hget2 : b2.grid.getD (b.index x y) 0 = 2 :=
      getD_set_self b.grid (b.index x y) (stoneToU8 Stone.white) 0 hidxlen
    have hknew : cellKey b2 (b.index x y) = b.zobrist_table.white x y := by
      rw [cellKey_of_getD_white b2 (b.index x y) hget2]
      show b.zobrist_table.white (b.index x y % b.size) (b.index x y / b.size) =
        b.zobrist_table.white x y
      rw [hmod, hdiv]
    show b2.current_hash = hashSpec b2
    rw [hset, hkey0, Nat.xor_zero, hknew, ← hok']
    rfl

theorem check_captures_hashOk (b1 : Board) (x y : Nat) (stone : Stone)
    (hwf1 : WF b1) (hok1 : HashOk b1) (hx : x < b1.size) (hy : y < b1.size) :
    HashOk (b1.check_captures x y stone).1 ∧ WF (b1.check_captures x y stone).1 ∧
      (b1.check_captures x y stone).1.size = b1.size := by
  set opponentU := oppositeU8 (stoneToU8 stone) with hoppU
  have hoppbw : opponentU = BLACK ∨ opponentU = WHITE := by
    rw [hoppU]
    cases stone with
    | black => exact Or.inr rfl
    | white => exact Or.inl rfl
  have hoppne : opponentU ≠ 0 := by
    rw [hoppU]
    exact oppositeU8_ne_zero stone
  set P : Board × Nat → Prop := fun acc =>
    acc.1.size = b1.size ∧ WF acc.1 ∧ HashOk acc.1 with hP
  have hPinit : P (b1, 0) := ⟨rfl, hwf1, hok1⟩
  have hstep : ∀ (acc : Board × Nat) (n : Nat × Nat), n ∈ b1.nbrsOf x y → P acc →
      P (if acc.1.getRaw n.1 n.2 = opponentU then
          (if acc.1.has_no_liberties (acc.1.get_group n.1 n.2) then
            (removeGroup acc.1 (acc.1.get_group n.1 n.2),
              acc.2 + (acc.1.get_group n.1 n.2).length)
          else acc)
        else acc) := by
    intro acc n hn hacc
    obtain ⟨hsz, haccwf, haccok⟩ := hacc
    by_cases hc1 : acc.1.getRaw n.1 n.2 = opponentU
    · rw [if_pos hc1]
      by_cases hc2 : acc.1.has_no_liberties (acc.1.get_group n.1 n.2) = true
      · rw [if_pos hc2]
        have hnin : inBounds b1 n := ((mem_nbrsOf b1 hx hy n).mp hn).1
        have hninc : inBounds acc.1 n := ⟨by rw [hsz]; exact hnin.1,
          by rw [hsz]; exact hnin.2⟩
        have hcellopp : cellAt acc.1 n = opponentU := hc1
        have hgs := get_group_spec acc.1 n haccwf hninc
          (by rw [hcellopp]; exact hoppne)
        have hgcells : ∀ g ∈ acc.1.get_group n.1 n.2,
            inBounds acc.1 g ∧ cellAt acc.1 g = opponentU := by
          intro g hg
          obtain ⟨hgin, hgc, _⟩ := hgs.1 g hg
          rw [hcellopp] at hgc
          exact ⟨hgin, hgc⟩
        refine ⟨by rw [removeGroup_size]; exact hsz,
          removeGroup_wf _ _ haccwf, ?_⟩
        exact removeGroup_hashOk opponentU hoppbw (acc.1.get_group n.1 n.2) acc.1
          haccwf haccok hgs.2.1 hgcells
      · rw [if_neg hc2]
        exact ⟨hsz, haccwf, haccok⟩
    · rw [if_neg hc1]
      exact ⟨hsz, haccwf, haccok⟩
  have hfold := foldl_inv P (b1.nbrsOf x y)
    (fun (acc : Board × Nat) (n : Nat × Nat) =>
      if acc.1.getRaw n.1 n.2 = opponentU then
        (if acc.1.has_no_liberties (acc.1.get_group n.1 n.2) then
          (removeGroup acc.1 (acc.1.get_group n.1 n.2),
            acc.2 + (acc.1.get_group n.1 n.2).length)
        else acc)
      else acc)
    (b1, 0) hPinit hstep
  set A := (b1.nbrsOf x y).foldl
    (fun (acc : Board × Nat) (n : Nat × Nat) =>
      if acc.1.getRaw n.1 n.2 = opponentU then
        (if acc.1.has_no_liberties (acc.1.get_group n.1 n.2) then
          (removeGroup acc.1 (acc.1.get_group n.1 n.2),
            acc.2 + (acc.1.get_group n.1 n.2).length)
        else acc)
      else acc)
    (b1, 0) with hA
  obtain ⟨hAsz, hAwf, hAok⟩ := hfold
  have hcc2 : b1.check_captures x y stone =
      (if A.1.has_no_liberties (A.1.get_group x y) then
        (removeGroup A.1 (A.1.get_group x y), A.2)
      else A) := rfl
  rw [hcc2]
  by_cases hsc : A.1.has_no_liberties (A.1.get_group x y) = true
  · rw [if_pos hsc]
    by_cases hc0 : A.1.getRaw x y = EMPTY
    · have hgeq : A.1.get_group x y = [] := by
        show (if A.1.getRaw x y = EMPTY then []
          else getGroupLoop A.1 (A.1.getRaw x y) (5 * (A.1.size * A.1.size) + 2)
            [(x, y)] (List.replicate (A.1.size * A.1.size) false) []) = []
        rw [if_pos hc0]
      rw [hgeq]
      exact ⟨hAok, hAwf, hAsz⟩
    · have hxyinA : inBounds A.1 (x, y) := ⟨by rw [hAsz]; exact hx,
        by rw [hAsz]; exact hy⟩
      have hle : cellAt A.1 (x, y) ≤ 2 := cellAt_le_two hAwf (x, y)
      have h0 : cellAt A.1 (x, y) ≠ 0 := hc0
      have h12 : cellAt A.1 (x, y) = BLACK ∨ cellAt A.1 (x, y) = WHITE := by
        show cellAt A.1 (x, y) = 1 ∨ cellAt A.1 (x, y) = 2
        omega
      have hgs := get_group_spec A.1 (x, y) hAwf hxyinA hc0
      have hgcells : ∀ g ∈ A.1.get_group x y,
          inBounds A.1 g ∧ cellAt A.1 g = cellAt A.1 (x, y) := by
        intro g hg
        obtain ⟨hgin, hgc, _⟩ := hgs.1 g hg
        exact ⟨hgin, hgc⟩
      refine ⟨?_, removeGroup_wf _ _ hAwf, by rw [removeGroup_size]; exact hAsz⟩
      exact removeGroup_hashOk (cellAt A.1 (x, y)) h12 (A.1.get_group x y) A.1
        hAwf hAok hgs.2.1 hgcells
  · rw [if_neg hsc]
    exact ⟨hAok, hAwf, hAsz⟩

theorem hashOk_captured_update (b0 : Board) (cap : Nat × Nat) (h : HashOk b0) :
    HashOk { b0 with captured := cap } := by
  have h' : b0.current_hash = hashSpec b0 := h
  have hsp : hashSpec { b0 with captured := cap } = hashSpec b0 := by
    unfold hashSpec
    exact xorRange_congr (cellKey { b0 with captured := cap }) (cellKey b0)
      (b0.size * b0.size)
      (fun j hj => cellKey_congr b0 { b0 with captured := cap } j rfl rfl rfl)
  show ({ b0 with captured := cap } : Board).current_hash =
    hashSpec { b0 with captured := cap }
  rw [hsp]
  exact h'

theorem wf_captured_update (b0 : Board) (cap : Nat × Nat) (h : WF b0) :
    WF { b0 with captured := cap } :=
  ⟨h.1, h.2⟩

theorem place_stone_hashOk (b : Board) (x y : Nat) (stone : Stone) (b' : Board)
    (hwf : WF b) (hok : HashOk b) (hplace : b.place_stone x y stone = .ok b') :
    HashOk b' ∧ WF b' := by
  have hx : x < b.size := by
    by_contra hcon
    unfold Board.place_stone at hplace
    rw [if_pos (Or.inl (Nat.le_of_not_lt hcon))] at hplace
    simp at hplace
  have hy : y < b.size := by
    by_contra hcon
    unfold Board.place_stone at hplace
    rw [if_pos (Or.inr (Nat.le_of_not_lt hcon))] at hplace
    simp at hplace
  have he : b.getRaw x y = EMPTY := by
    by_contra hcon
    unfold Board.place_stone at hplace
    rw [if_neg (by omega), if_pos hcon] at hplace
    simp at hplace
  cases stone with
  | black =>
    set b1 : Board := { b with
      grid := b.grid.set (b.index x y) (stoneToU8 Stone.black)
      current_hash := b.current_hash ^^^
        b.zobrist_table.get_stone_hash x y (Stone.black = Stone.black) } with hb1
    have hok1 : HashOk b1 := hashOk_place_cell b x y Stone.black hwf hok hx hy he
    have hwf1 : WF b1 := by
      refine ⟨?_, ?_⟩
      · show (b.grid.set (b.index x y) (stoneToU8 Stone.black)).length =
          b.size * b.size
        rw [List.length_set]
        exact hwf.1
      · intro v hv
        rcases List.mem_or_eq_of_mem_set hv with hv | hv
        · exact hwf.2 v hv
        · rw [hv]
          decide
    have hcc := check_captures_hashOk b1 x y Stone.black hwf1 hok1 hx hy
    have hb'eq : { (b1.check_captures x y Stone.black).1 with
        captured := ((b1.check_captures x y Stone.black).1.captured.1 +
          (b1.check_captures x y Stone.black).2,
          (b1.check_captures x y Stone.black).1.captured.2) } = b' := by
      unfold Board.place_stone at hplace
      rw [if_neg (by omega), if_neg (fun hcon => hcon he)] at hplace
      exact Except.ok.inj hplace
    constructor
    · rw [← hb'eq]
      exact hashOk_captured_update (b1.check_captures x y Stone.black).1
        ((b1.check_captures x y Stone.black).1.captured.1 +
          (b1.check_captures x y Stone.black).2,
          (b1.check_captures x y Stone.black).1.captured.2) hcc.1
    · rw [← hb'eq]
      exact wf_captured_update (b1.check_captures x y Stone.black).1
        ((b1.check_captures x y Stone.black).1.captured.1 +
          (b1.check_captures x y Stone.black).2,
          (b1.check_captures x y Stone.black).1.captured.2) hcc.2.1
  | white =>
    set b1 : Board := { b with
      grid := b.grid.set (b.index x y) (stoneToU8 Stone.white)
      current_hash := b.current_hash ^^^
        b.zobrist_table.get_stone_hash x y (Stone.white = Stone.black) } with hb1
    have hok1 : HashOk b1 := hashOk_place_cell b x y Stone.white hwf hok hx hy he
    have hwf1 : WF b1 := by
      refine ⟨?_, ?_⟩
      · show (b.grid.set (b.index x y) (stoneToU8 Stone.white)).length =
          b.size * b.size
        rw [List.length_set]
        exact hwf.1
      · intro v hv
        rcases List.mem_or_eq_of_mem_set hv with hv | hv
        · exact hwf.2 v hv
        · rw [hv]
          decide
    have hcc := check_captures_hashOk b1 x y Stone.white hwf1 hok1 hx hy
    have hb'eq : { (b1.check_captures x y Stone.white).1 with
        captured := ((b1.check_captures x y Stone.white).1.captured.1,
          (b1.check_captures x y Stone.white).1.captured.2 +
            (b1.check_captures x y Stone.white).2) } = b' := by
      unfold Board.place_stone at hplace
      rw [if_neg (by omega), if_neg (fun hcon => hcon he)] at hplace
      exact Except.ok.inj hplace
    constructor
    · rw [← hb'eq]
      exact hashOk_captured_update (b1.check_captures x y Stone.white).1
        ((b1.check_captures x y Stone.white).1.captured.1,
          (b1.check_captures x y Stone.white).1.captured.2 +
            (b1.check_captures x y Stone.white).2) hcc.1
    · rw [← hb'eq]
      exact wf_captured_update (b1.check_captures x y Stone.white).1
        ((b1.check_captures x y Stone.white).1.captured.1,
          (b1.check_captures x y Stone.white).1.captured.2 +
            (b1.check_captures x y Stone.white).2) hcc.2.1

/-- C3: the running Zobrist hash always equals the XOR of the per-(cell,
colour) keys of exactly the occupied cells: it does so on a fresh board,
and every successful placement — including opponent captures and
self-capture removals — preserves the property (together with structural
well-formedness, so the invariant propagates along any play sequence). -/
theorem c3_hash_invariant (n : Nat) (t : ZobristTable) (b : Board) (x y : Nat)
    (stone : Stone) (b' : Board) (hwf : WF b) (hok : HashOk b)
    (hplace : b.place_stone x y stone = .ok b') :
    HashOk (Board.mkNew n t) ∧ HashOk b' ∧ WF b' :=
  ⟨hashOk_mkNew n t, (place_stone_hashOk b x y stone b' hwf hok hplace).1,
    (place_stone_hashOk b x y stone b' hwf hok hplace).2⟩

/-- C3 witness: black plays (0, 1) on `bCapturePow` and captures the white
stone; the resulting hash 10 is exactly the XOR of the keys of the two
remaining black stones. -/
theorem c3_hash_invariant_witness :
    HashOk (Board.mkNew 2 ztZero) ∧
      HashOk (⟨2, [0, 1, 1, 0], (1, 0), ztPow, 10⟩ : Board) ∧
      WF (⟨2, [0, 1, 1, 0], (1, 0), ztPow, 10⟩ : Board) :=
  c3_hash_invariant 2 ztZero bCapturePow 0 1 Stone.black
    ⟨2, [0, 1, 1, 0], (1, 0), ztPow, 10⟩ ⟨by decide, by decide⟩ rfl rfl

/-! ## Claim C1: soundness and completeness of the liberty search -/

theorem hasLibRec_succ (b : Board) (c ex ey fuel : Nat) (p : Nat × Nat)
    (v : List Bool) :
    hasLibRec b c ex ey (fuel + 1) p v =
      if v.getD (b.index p.1 p.2) false then (false, v)
      else (b.nbrsOf p.1 p.2).foldl (hasLibStep b c ex ey fuel)
        (false, v.set (b.index p.1 p.2) true) := rfl

theorem foldl_true_id (b : Board) (c ex ey fuel : Nat) :
    ∀ (l : List (Nat × Nat)) (acc : Bool × List Bool), acc.1 = true →
    l.foldl (hasLibStep b c ex ey fuel) acc = acc := by
  intro l
  induction l with
  | nil => intro acc _; rfl
  | cons n l' ih =>
    intro acc h
    show l'.foldl (hasLibStep b c ex ey fuel) (hasLibStep b c ex ey fuel acc n) = acc
    have hstep : hasLibStep b c ex ey fuel acc n = acc := by
      unfold hasLibStep
      rw [if_pos h]
    rw [hstep]
    exact ih acc h

theorem hasLibStep_false_empty_hit (b : Board) (c ex ey f : Nat)
    (acc : Bool × List Bool) (n : Nat × Nat) (hacc : acc.1 = false)
    (h1 : b.getRaw n.1 n.2 = EMPTY) (h2 : n ≠ (ex, ey)) :
    hasLibStep b c ex ey f acc n = (true, acc.2) := by
  simp only [hasLibStep]
  rw [if_neg (by simp [hacc]), if_pos h1, if_pos h2]

theorem hasLibStep_false_empty_skip (b : Board) (c ex ey f : Nat)
    (acc : Bool × List Bool) (n : Nat × Nat) (hacc : acc.1 = false)
    (h1 : b.getRaw n.1 n.2 = EMPTY) (h2 : ¬n ≠ (ex, ey)) :
    hasLibStep b c ex ey f acc n = acc := by
  simp only [hasLibStep]
  rw [if_neg (by simp [hacc]), if_pos h1, if_neg h2]

theorem hasLibStep_false_stone (b : Board) (c ex ey f : Nat)
    (acc : Bool × List Bool) (n : Nat × Nat) (hacc : acc.1 = false)
    (h1 : b.getRaw n.1 n.2 ≠ EMPTY) (h2 : b.getRaw n.1 n.2 = c) :
    hasLibStep b c ex ey f acc n =
      if (hasLibRec b c ex ey f n acc.2).1 = true
      then (true, (hasLibRec b c ex ey f n acc.2).2)
      else (false, (hasLibRec b c ex ey f n acc.2).2) := by
  simp only [hasLibStep]
  rw [if_neg (by simp [hacc]), if_neg h1, if_pos h2]

theorem hasLibStep_false_other (b : Board) (c ex ey f : Nat)
    (acc : Bool × List Bool) (n : Nat × Nat) (hacc : acc.1 = false)
    (h1 : b.getRaw n.1 n.2 ≠ EMPTY) (h2 : b.getRaw n.1 n.2 ≠ c) :
    hasLibStep b c ex ey f acc n = acc := by
  simp only [hasLibStep]
  rw [if_neg (by simp [hacc]), if_neg h1, if_neg h2]

theorem hasLibRec_sound (b : Board) (c ex ey : Nat) :
    ∀ fuel : Nat, ∀ (p : Nat × Nat) (v : List Bool),
    inBounds b p → cellAt b p = c →
    (hasLibRec b c ex ey fuel p v).1 = true →
    hasLibExceptM b c p (ex, ey) := by
  intro fuel
  induction fuel with
  | zero =>
    intro p v _ _ h
    simp [hasLibRec] at h
  | succ f ih =>
    intro p v hp hpc h
    rw [hasLibRec_succ] at h
    by_cases hv : v.getD (b.index p.1 p.2) false = true
    · rw [if_pos hv] at h
      simp at h
    · rw [if_neg hv] at h
      have key : ∀ (l : List (Nat × Nat)), (∀ m ∈ l, m ∈ b.nbrsOf p.1 p.2) →
          ∀ acc : Bool × List Bool, acc.1 = false →
          (l.foldl (hasLibStep b c ex ey f) acc).1 = true →
          ∃ n ∈ b.nbrsOf p.1 p.2,
            (b.getRaw n.1 n.2 = EMPTY ∧ n ≠ (ex, ey)) ∨
            (b.getRaw n.1 n.2 = c ∧
              ∃ w, (hasLibRec b c ex ey f n w).1 = true) := by
        intro l
        induction l with
        | nil =>
          intro _ acc hacc hres
          rw [List.foldl_nil] at hres
          simp [hacc] at hres
        | cons m l' ihl =>
          intro hsub acc hacc hres
          rw [List.foldl_cons] at hres
          by_cases h1 : b.getRaw m.1 m.2 = EMPTY
          · by_cases h2 : m = (ex, ey)
            · rw [hasLibStep_false_empty_skip b c ex ey f acc m hacc h1
                (by simp [h2])] at hres
              exact ihl (fun r hr => hsub r (by simp [hr])) acc hacc hres
            · exact ⟨m, hsub m (by simp), Or.inl ⟨h1, h2⟩⟩
          · by_cases h2 : b.getRaw m.1 m.2 = c
            · by_cases h3 : (hasLibRec b c ex ey f m acc.2).1 = true
              · exact ⟨m, hsub m (by simp), Or.inr ⟨h2, acc.2, h3⟩⟩
              · rw [hasLibStep_false_stone b c ex ey f acc m hacc h1 h2,
                  if_neg h3] at hres
                exact ihl (fun r hr => hsub r (by simp [hr]))
                  (false, (hasLibRec b c ex ey f m acc.2).2) rfl hres
            · rw [hasLibStep_false_other b c ex ey f acc m hacc h1 h2] at hres
              exact ihl (fun r hr => hsub r (by simp [hr])) acc hacc hres
      obtain ⟨n, hn, hcase⟩ := key (b.nbrsOf p.1 p.2) (fun m hm => hm)
        (false, v.set (b.index p.1 p.2) true) rfl h
      obtain ⟨hnin, hnadj⟩ := (mem_nbrsOf b hp.1 hp.2 n).mp hn
      rcases hcase with ⟨hE, hNe⟩ | ⟨hC, w, hw⟩
      · exact ⟨p, Relation.ReflTransGen.refl, n, hn, hE, hNe⟩
      · obtain ⟨q, hq, hr⟩ := ih n w hnin hC hw
        exact ⟨q, Relation.ReflTransGen.head ⟨hp, hnin, hpc, hC, hnadj⟩ hq, hr⟩

theorem hasLibRec_false_post (b : Board) (c ex ey : Nat) (hc0 : c ≠ 0) :
    ∀ fuel : Nat, ∀ (p : Nat × Nat) (v : List Bool),
    v.length = b.size * b.size →
    v.count false < fuel →
    inBounds b p → cellAt b p = c →
    (hasLibRec b c ex ey fuel p v).1 = false →
    (hasLibRec b c ex ey fuel p v).2.length = b.size * b.size ∧
    (∀ i, v.getD i false = true →
      (hasLibRec b c ex ey fuel p v).2.getD i false = true) ∧
    (hasLibRec b c ex ey fuel p v).2.getD (b.index p.1 p.2) false = true ∧
    (∀ q, inBounds b q →
      (hasLibRec b c ex ey fuel p v).2.getD (b.index q.1 q.2) false = true →
      v.getD (b.index q.1 q.2) false = false →
      GoodCell b c ex ey (hasLibRec b c ex ey fuel p v).2 q) := by
  intro fuel
  induction fuel with
  | zero =>
    intro p v _ hcnt
    omega
  | succ f ih =>
    intro p v hlen hcnt hp hpc hres
    by_cases hv : v.getD (b.index p.1 p.2) false = true
    · have hr : hasLibRec b c ex ey (f + 1) p v = (false, v) := by
        rw [hasLibRec_succ, if_pos hv]
      rw [hr] at hres ⊢
      refine ⟨hlen, fun i hi => hi, hv, ?_⟩
      intro q _ hq hq0
      rw [hq0] at hq
      exact absurd hq Bool.false_ne_true
    · have hvf : v.getD (b.index p.1 p.2) false = false := by
        cases hcase : v.getD (b.index p.1 p.2) false
        · rfl
        · exact absurd hcase hv
      have hidxlt : b.index p.1 p.2 < v.length := by
        rw [hlen]
        exact index_lt b hp
      have hr : hasLibRec b c ex ey (f + 1) p v =
          (b.nbrsOf p.1 p.2).foldl (hasLibStep b c ex ey f)
            (false, v.set (b.index p.1 p.2) true) := by
        rw [hasLibRec_succ, if_neg hv]
      rw [hr] at hres ⊢
      have hlen1 : (v.set (b.index p.1 p.2) true).length = b.size * b.size := by
        rw [List.length_set]
        exact hlen
      have hcnt1 : (v.set (b.index p.1 p.2) true).count false + 1 = v.count false :=
        count_false_set v _ hidxlt hvf
      have hmono1 : ∀ i, v.getD i false = true →
          (v.set (b.index p.1 p.2) true).getD i false = true := by
        intro i hi
        by_cases hii : i = b.index p.1 p.2
        · subst hii
          exact getD_set_self v _ true false hidxlt
        · rw [getD_set_ne v true false (fun hcon => hii hcon.symm)]
          exact hi
      have hp1 : (v.set (b.index p.1 p.2) true).getD (b.index p.1 p.2) false =
          true := getD_set_self v _ true false hidxlt
      have key : ∀ (l : List (Nat × Nat)), (∀ m ∈ l, m ∈ b.nbrsOf p.1 p.2) →
          ∀ (w : List Bool),
          w.length = b.size * b.size →
          w.count false < f →
          (∀ i, (v.set (b.index p.1 p.2) true).getD i false = true →
            w.getD i false = true) →
          (∀ q, inBounds b q → w.getD (b.index q.1 q.2) false = true →
            (v.set (b.index p.1 p.2) true).getD (b.index q.1 q.2) false = false →
            GoodCell b c ex ey w q) →
          (l.foldl (hasLibStep b c ex ey f) (false, w)).1 = false →
          (l.foldl (hasLibStep b c ex ey f) (false, w)).2.length =
            b.size * b.size ∧
          (∀ i, w.getD i false = true →
            (l.foldl (hasLibStep b c ex ey f) (false, w)).2.getD i false =
              true) ∧
          (∀ q, inBounds b q →
            (l.foldl (hasLibStep b c ex ey f)
              (false, w)).2.getD (b.index q.1 q.2) false = true →
            (v.set (b.index p.1 p.2) true).getD (b.index q.1 q.2) false =
              false →
            GoodCell b c ex ey (l.foldl (hasLibStep b c ex ey f) (false, w)).2
              q) ∧
          (∀ m ∈ l,
            (b.getRaw m.1 m.2 = EMPTY → m = (ex, ey)) ∧
            (b.getRaw m.1 m.2 = c →
              (l.foldl (hasLibStep b c ex ey f)
                (false, w)).2.getD (b.index m.1 m.2) false = true)) := by
        intro l
        induction l with
        | nil =>
          intro _ w hwlen _ _ hwgood _
          exact ⟨hwlen, fun i hi => hi, hwgood, fun m hm => absurd hm (by simp)⟩
        | cons m l' ihl =>
          intro hsub w hwlen hwcnt hwmono hwgood hres2
          have hmmem : m ∈ b.nbrsOf p.1 p.2 := hsub m (by simp)
          have hmin : inBounds b m := ((mem_nbrsOf b hp.1 hp.2 m).mp hmmem).1
          by_cases h1 : b.getRaw m.1 m.2 = EMPTY
          · by_cases h2 : m = (ex, ey)
            · have hstep := hasLibStep_false_empty_skip b c ex ey f (false, w) m
                rfl h1 (by simp [h2])
              rw [List.foldl_cons, hstep] at hres2 ⊢
              obtain ⟨ha, hb2, hc2, hd⟩ :=
                ihl (fun r hr => hsub r (by simp [hr])) w hwlen hwcnt hwmono
                  hwgood hres2
              refine ⟨ha, hb2, hc2, ?_⟩
              intro r hr
              rcases List.mem_cons.mp hr with hr | hr
              · subst hr
                refine ⟨fun _ => h2, fun hcon => ?_⟩
                rw [h1] at hcon
                exact absurd hcon.symm hc0
              · exact hd r hr
            · have hstep := hasLibStep_false_empty_hit b c ex ey f (false, w) m
                rfl h1 h2
              rw [List.foldl_cons, hstep,
                foldl_true_id b c ex ey f l' (true, w) rfl] at hres2
              simp at hres2
          · by_cases h2 : b.getRaw m.1 m.2 = c
            · have hstep := hasLibStep_false_stone b c ex ey f (false, w) m
                rfl h1 h2
              by_cases h3 : (hasLibRec b c ex ey f m w).1 = true
              · rw [List.foldl_cons, hstep, if_pos h3,
                  foldl_true_id b c ex ey f l'
                    (true, (hasLibRec b c ex ey f m w).2) rfl] at hres2
                simp at hres2
              · have h3' : (hasLibRec b c ex ey f m w).1 = false := by
                  cases hcase : (hasLibRec b c ex ey f m w).1
                  · rfl
                  · exact absurd hcase h3
                obtain ⟨hslen, hsmono, hsmark, hsgood⟩ :=
                  ih m w hwlen hwcnt hmin h2 h3'
                have hw'len : (hasLibRec b c ex ey f m w).2.length = w.length := by
                  rw [hslen, hwlen]
                have hw'cnt : (hasLibRec b c ex ey f m w).2.count false < f :=
                  Nat.lt_of_le_of_lt
                    (count_false_le_of_mono w (hasLibRec b c ex ey f m w).2
                      hw'len hsmono) hwcnt
                have hw'mono : ∀ i,
                    (v.set (b.index p.1 p.2) true).getD i false = true →
                    (hasLibRec b c ex ey f m w).2.getD i false = true :=
                  fun i hi => hsmono i (hwmono i hi)
                have hw'good : ∀ q, inBounds b q →
                    (hasLibRec b c ex ey f m w).2.getD (b.index q.1 q.2) false =
                      true →
                    (v.set (b.index p.1 p.2) true).getD (b.index q.1 q.2)
                      false = false →
                    GoodCell b c ex ey (hasLibRec b c ex ey f m w).2 q := by
                  intro q hqin hq' hq0
                  by_cases hqw : w.getD (b.index q.1 q.2) false = true
                  · have hg := hwgood q hqin hqw hq0
                    exact ⟨hg.1, hg.2.1,
                      fun r hr hrc => hsmono _ (hg.2.2 r hr hrc)⟩
                  · have hqwf : w.getD (b.index q.1 q.2) false = false := by
                      cases hcase : w.getD (b.index q.1 q.2) false
                      · rfl
                      · exact absurd hcase hqw
                    exact hsgood q hqin hq' hqwf
                rw [List.foldl_cons, hstep, if_neg h3] at hres2 ⊢
                obtain ⟨ha, hb2, hc2, hd⟩ :=
                  ihl (fun r hr => hsub r (by simp [hr]))
                    (hasLibRec b c ex ey f m w).2 hslen hw'cnt hw'mono hw'good
                    hres2
                refine ⟨ha, fun i hi => hb2 i (hsmono i hi), hc2, ?_⟩
                intro r hr
                rcases List.mem_cons.mp hr with hr | hr
                · subst hr
                  exact ⟨fun hcon => absurd hcon h1, fun _ => hb2 _ hsmark⟩
                · exact hd r hr
            · have hstep := hasLibStep_false_other b c ex ey f (false, w) m
                rfl h1 h2
              rw [List.foldl_cons, hstep] at hres2 ⊢
              obtain ⟨ha, hb2, hc2, hd⟩ :=
                ihl (fun r hr => hsub r (by simp [hr])) w hwlen hwcnt hwmono
                  hwgood hres2
              refine ⟨ha, hb2, hc2, ?_⟩
              intro r hr
              rcases List.mem_cons.mp hr with hr | hr
              · subst hr
                exact ⟨fun hcon => absurd hcon h1,
                  fun hcon => absurd hcon h2⟩
              · exact hd r hr
      obtain ⟨hflen, hfmono, hfgood, hfproc⟩ :=
        key (b.nbrsOf p.1 p.2) (fun m hm => hm) (v.set (b.index p.1 p.2) true)
          hlen1 (by omega) (fun i hi => hi)
          (by
            intro q _ hq hq0
            rw [hq0] at hq
            exact absurd hq Bool.false_ne_true)
          hres
      refine ⟨hflen, fun i hi => hfmono i (hmono1 i hi), hfmono _ hp1, ?_⟩
      intro q hqin hq hq0
      by_cases hqp : b.index q.1 q.2 = b.index p.1 p.2
      · have hq_eq : q = p := index_inj b hqin hp hqp
        subst hq_eq
        refine ⟨hpc, ?_, ?_⟩
        · intro r hr hrE
          exact (hfproc r hr).1 hrE
        · intro r hr hrc
          exact (hfproc r hr).2 hrc
      · have hq1 : (v.set (b.index p.1 p.2) true).getD (b.index q.1 q.2) false =
            false := by
          rw [getD_set_ne v true false (fun hcon => hqp hcon.symm)]
          exact hq0
        exact hfgood q hqin hq hq1

theorem hasLibRec_complete (b : Board) (c ex ey : Nat) (hc0 : c ≠ 0)
    (p : Nat × Nat) (hp : inBounds b p) (hpc : cellAt b p = c)
    (hres : (hasLibRec b c ex ey (b.size * b.size + 1) p
      (List.replicate (b.size * b.size) false)).1 = false) :
    ¬hasLibExceptM b c p (ex, ey) := by
  intro hlib
  obtain ⟨hflen, hfmono, hfmark, hfgood⟩ :=
    hasLibRec_false_post b c ex ey hc0 (b.size * b.size + 1) p
      (List.replicate (b.size * b.size) false)
      (by simp)
      (by
        rw [show (List.replicate (b.size * b.size) false).count false =
          b.size * b.size from by simp [List.count_replicate]]
        omega)
      hp hpc hres
  have hvisited : ∀ q, reach b c p q →
      (hasLibRec b c ex ey (b.size * b.size + 1) p
        (List.replicate (b.size * b.size) false)).2.getD (b.index q.1 q.2)
        false = true ∧
      inBounds b q := by
    intro q hq
    induction hq with
    | refl => exact ⟨hfmark, hp⟩
    | tail hr hstep ih =>
      obtain ⟨hu, hvv, hcu, hcv, hadj⟩ := hstep
      have hgood := hfgood _ ih.2 ih.1 (getD_replicate_false _ _)
      have hmem := (mem_nbrsOf b hu.1 hu.2 _).mpr ⟨hvv, hadj⟩
      exact ⟨hgood.2.2 _ hmem hcv, hvv⟩
  obtain ⟨q, hreach, r, hrmem, hrE, hrNe⟩ := hlib
  have hq := hvisited q hreach
  have hgoodq := hfgood q hq.2 hq.1 (getD_replicate_false _ _)
  exact hrNe (hgoodq.2.1 r hrmem hrE)

theorem hasLibRec_iff_top (b : Board) (c ex ey : Nat) (hc0 : c ≠ 0)
    (p : Nat × Nat) (hp : inBounds b p) (hpc : cellAt b p = c) :
    (hasLibRec b c ex ey (b.size * b.size + 1) p
      (List.replicate (b.size * b.size) false)).1 = true ↔
    hasLibExceptM b c p (ex, ey) := by
  constructor
  · exact hasLibRec_sound b c ex ey _ p _ hp hpc
  · intro hlib
    by_contra hcon
    have hfalse : (hasLibRec b c ex ey (b.size * b.size + 1) p
        (List.replicate (b.size * b.size) false)).1 = false := by
      cases hcase : (hasLibRec b c ex ey (b.size * b.size + 1) p
        (List.replicate (b.size * b.size) false)).1
      · rfl
      · exact absurd hcase hcon
    exact hasLibRec_complete b c ex ey hc0 p hp hpc hfalse hlib

theorem group_has_liberty_except_iff (b : Board) (x y exX exY : Nat)
    (hin : inBounds b (x, y)) (hne : b.getRaw x y ≠ EMPTY) :
    b.group_has_liberty_except x y exX exY = true ↔
      hasLibExceptM b (b.getRaw x y) (x, y) (exX, exY) := by
  have hgl : b.group_has_liberty_except x y exX exY =
      (hasLibRec b (b.getRaw x y) exX exY (b.size * b.size + 1) (x, y)
        (List.replicate (b.size * b.size) false)).1 := by
    show (if b.getRaw x y = EMPTY then false
      else (hasLibRec b (b.getRaw x y) exX exY (b.size * b.size + 1) (x, y)
        (List.replicate (b.size * b.size) false)).1) = _
    rw [if_neg hne]
  rw [hgl]
  exact hasLibRec_iff_top b (b.getRaw x y) exX exY hne (x, y) hin rfl

theorem would_capture_iff (b : Board) (gx gy bx b_y : Nat)
    (hin : inBounds b (gx, gy)) (hne : b.getRaw gx gy ≠ EMPTY) :
    b.would_capture_after_move gx gy bx b_y = true ↔
      ¬hasLibExceptM b (b.getRaw gx gy) (gx, gy) (bx, b_y) := by
  have hwc : b.would_capture_after_move gx gy bx b_y =
      !(hasLibRec b (b.getRaw gx gy) bx b_y (b.size * b.size + 1) (gx, gy)
        (List.replicate (b.size * b.size) false)).1 := by
    show (if b.getRaw gx gy = EMPTY then false
      else !(hasLibRec b (b.getRaw gx gy) bx b_y (b.size * b.size + 1) (gx, gy)
        (List.replicate (b.size * b.size) false)).1) = _
    rw [if_neg hne]
  have hiff := hasLibRec_iff_top b (b.getRaw gx gy) bx b_y hne (gx, gy) hin rfl
  rw [hwc]
  constructor
  · intro hfalse hlib
    have htrue := hiff.mpr hlib
    rw [htrue] at hfalse
    simp at hfalse
  · intro hnlib
    cases hcase : (hasLibRec b (b.getRaw gx gy) bx b_y (b.size * b.size + 1)
      (gx, gy) (List.replicate (b.size * b.size) false)).1
    · rfl
    · exact absurd (hiff.mp hcase) hnlib

theorem any_capture_iff (b : Board) (x y : Nat) (stone : Stone)
    (hx : x < b.size) (hy : y < b.size) :
    ((b.nbrsOf x y).any (fun n =>
      b.getRaw n.1 n.2 = oppositeU8 (stoneToU8 stone) &&
        b.would_capture_after_move n.1 n.2 x y) = true) ↔
    capturesOpponentSpec b x y stone := by
  rw [List.any_eq_true]
  constructor
  · rintro ⟨n, hn, hcond⟩
    rw [Bool.and_eq_true, decide_eq_true_eq] at hcond
    obtain ⟨hno, hwc⟩ := hcond
    have hnin : inBounds b n := ((mem_nbrsOf b hx hy n).mp hn).1
    have hnne : b.getRaw n.1 n.2 ≠ EMPTY := by
      rw [hno]
      exact oppositeU8_ne_zero stone
    have hnl := (would_capture_iff b n.1 n.2 x y hnin hnne).mp hwc
    rw [hno] at hnl
    exact ⟨n, hn, hno, hnl⟩
  · rintro ⟨n, hn, hno, hnl⟩
    have hno' : b.getRaw n.1 n.2 = oppositeU8 (stoneToU8 stone) := hno
    refine ⟨n, hn, ?_⟩
    rw [Bool.and_eq_true, decide_eq_true_eq]
    have hnin : inBounds b n := ((mem_nbrsOf b hx hy n).mp hn).1
    have hnne : b.getRaw n.1 n.2 ≠ EMPTY := by
      rw [hno']
      exact oppositeU8_ne_zero stone
    refine ⟨hno', ?_⟩
    apply (would_capture_iff b n.1 n.2 x y hnin hnne).mpr
    rw [hno']
    exact hnl

theorem any_empty_iff (b : Board) (x y : Nat) :
    ((b.nbrsOf x y).any (fun n => b.getRaw n.1 n.2 = EMPTY) = true) ↔
      hasEmptyNeighborSpec b x y := by
  rw [List.any_eq_true]
  unfold hasEmptyNeighborSpec
  constructor
  · rintro ⟨n, hn, hcond⟩
    rw [decide_eq_true_eq] at hcond
    exact ⟨n, hn, hcond⟩
  · rintro ⟨n, hn, hcond⟩
    refine ⟨n, hn, ?_⟩
    rw [decide_eq_true_eq]
    exact hcond

theorem any_friendly_iff (b : Board) (x y : Nat) (stone : Stone)
    (hx : x < b.size) (hy : y < b.size) :
    ((b.nbrsOf x y).any (fun n =>
      b.getRaw n.1 n.2 = stoneToU8 stone &&
        b.group_has_liberty_except n.1 n.2 x y) = true) ↔
    friendlyRetainsLibertySpec b x y stone := by
  rw [List.any_eq_true]
  constructor
  · rintro ⟨n, hn, hcond⟩
    rw [Bool.and_eq_true, decide_eq_true_eq] at hcond
    obtain ⟨hno, hgl⟩ := hcond
    have hnin : inBounds b n := ((mem_nbrsOf b hx hy n).mp hn).1
    have hnne : b.getRaw n.1 n.2 ≠ EMPTY := by
      rw [hno]
      exact stoneToU8_ne_zero stone
    have hnl := (group_has_liberty_except_iff b n.1 n.2 x y hnin hnne).mp hgl
    rw [hno] at hnl
    exact ⟨n, hn, hno, hnl⟩
  · rintro ⟨n, hn, hno, hnl⟩
    have hno' : b.getRaw n.1 n.2 = stoneToU8 stone := hno
    refine ⟨n, hn, ?_⟩
    rw [Bool.and_eq_true, decide_eq_true_eq]
    have hnin : inBounds b n := ((mem_nbrsOf b hx hy n).mp hn).1
    have hnne : b.getRaw n.1 n.2 ≠ EMPTY := by
      rw [hno']
      exact stoneToU8_ne_zero stone
    refine ⟨hno', ?_⟩
    apply (group_has_liberty_except_iff b n.1 n.2 x y hnin hnne).mpr
    rw [hno']
    exact hnl

/-- C1: the legality check returns false whenever the point is out of
bounds or occupied; at an in-bounds empty point it returns true exactly
when (a) placing there would strip the last liberty of some adjacent
opposing group, or (b) some orthogonal neighbour is empty, or (c) some
adjacent friendly group keeps a liberty other than the point itself —
so in the remaining (pure-suicide) case it returns false. -/
theorem c1_is_valid_move (b : Board) (x y : Nat) (stone : Stone)
    (hwf : WF b) :
    ((b.size ≤ x ∨ b.size ≤ y ∨ b.getRaw x y ≠ EMPTY) →
      b.is_valid_move x y stone = false) ∧
    (x < b.size → y < b.size → b.getRaw x y = EMPTY →
      (b.is_valid_move x y stone = true ↔
        (capturesOpponentSpec b x y stone ∨ hasEmptyNeighborSpec b x y ∨
          friendlyRetainsLibertySpec b x y stone))) := by
  constructor
  · intro hguard
    unfold Board.is_valid_move
    rw [if_pos (by rcases hguard with h | h | h <;> simp [h])]
  · intro hx hy he
    unfold Board.is_valid_move
    rw [if_neg (by simp [Nat.not_le.mpr hx, Nat.not_le.mpr hy, he])]
    show (if (b.nbrsOf x y).any (fun n =>
        b.getRaw n.1 n.2 = oppositeU8 (stoneToU8 stone) &&
          b.would_capture_after_move n.1 n.2 x y) then true
      else if (b.nbrsOf x y).any (fun n => b.getRaw n.1 n.2 = EMPTY) then true
      else if (b.nbrsOf x y).any (fun n =>
        b.getRaw n.1 n.2 = stoneToU8 stone &&
          b.group_has_liberty_except n.1 n.2 x y) then true
      else false) = true ↔ _
    by_cases h1 : (b.nbrsOf x y).any (fun n =>
        b.getRaw n.1 n.2 = oppositeU8 (stoneToU8 stone) &&
          b.would_capture_after_move n.1 n.2 x y) = true
    · rw [if_pos h1]
      constructor
      · intro _
        exact Or.inl ((any_capture_iff b x y stone hx hy).mp h1)
      · intro _
        rfl
    · rw [if_neg h1]
      by_cases h2 : (b.nbrsOf x y).any (fun n => b.getRaw n.1 n.2 = EMPTY) = true
      · rw [if_pos h2]
        constructor
        · intro _
          exact Or.inr (Or.inl ((any_empty_iff b x y).mp h2))
        · intro _
          rfl
      · rw [if_neg h2]
        by_cases h3 : (b.nbrsOf x y).any (fun n =>
            b.getRaw n.1 n.2 = stoneToU8 stone &&
              b.group_has_liberty_except n.1 n.2 x y) = true
        · rw [if_pos h3]
          constructor
          · intro _
            exact Or.inr (Or.inr ((any_friendly_iff b x y stone hx hy).mp h3))
          · intro _
            rfl
        · rw [if_neg h3]
          constructor
          · intro hcon
            exact absurd hcon Bool.false_ne_true
          · rintro (h | h | h)
            · exact absurd ((any_capture_iff b x y stone hx hy).mpr h) h1
            · exact absurd ((any_empty_iff b x y).mpr h) h2
            · exact absurd ((any_friendly_iff b x y stone hx hy).mpr h) h3

/-- C1 witness: black plays (0, 0) on `bOneStone` (a legal move thanks to
its empty neighbours); both conjuncts of the characterization instantiate. -/
theorem c1_is_valid_move_witness :
    ((bOneStone.size ≤ 0 ∨ bOneStone.size ≤ 0 ∨
        bOneStone.getRaw 0 0 ≠ EMPTY) →
      bOneStone.is_valid_move 0 0 Stone.black = false) ∧
    (0 < bOneStone.size → 0 < bOneStone.size → bOneStone.getRaw 0 0 = EMPTY →
      (bOneStone.is_valid_move 0 0 Stone.black = true ↔
        (capturesOpponentSpec bOneStone 0 0 Stone.black ∨
          hasEmptyNeighborSpec bOneStone 0 0 ∨
          friendlyRetainsLibertySpec bOneStone 0 0 Stone.black))) :=
  c1_is_valid_move bOneStone 0 0 Stone.black ⟨by decide, by decide⟩

/-! ## Claim C4: the no-dead-groups invariant -/

theorem inBounds_of_size_eq {bc bd : Board} (h : bc.size = bd.size)
    {p : Nat × Nat} (hp : inBounds bd p) : inBounds bc p :=
  ⟨by rw [h]; exact hp.1, by rw [h]; exact hp.2⟩

theorem nbrsOf_of_size_eq {bc bd : Board} (h : bc.size = bd.size) (x y : Nat) :
    bc.nbrsOf x y = bd.nbrsOf x y := by
  unfold Board.nbrsOf
  rw [h]

theorem cell_eq_stone_or_opp (stone : Stone) (v : Nat) (h1 : v ≤ 2)
    (h2 : v ≠ 0) :
    v = stoneToU8 stone ∨ v = oppositeU8 (stoneToU8 stone) := by
  cases stone
  · show v = 1 ∨ v = 2
    omega
  · show v = 2 ∨ v = 1
    omega

theorem reach_removeGroup_of_disjoint (bc : Board) (G : List (Nat × Nat))
    (hwfl : bc.grid.length = bc.size * bc.size)
    (hG : ∀ g ∈ G, inBounds bc g) (p q : Nat × Nat) {c : Nat}
    (hdisj : ∀ r, reach bc c p r → r ∉ G)
    (hreach : reach bc c p q) : reach (removeGroup bc G) c p q := by
  induction hreach with
  | refl => exact Relation.ReflTransGen.refl
  | tail hr hstep ih =>
    obtain ⟨hu, hv, hcu, hcv, hadj⟩ := hstep
    have huG := hdisj _ hr
    have hvG := hdisj _ (hr.tail ⟨hu, hv, hcu, hcv, hadj⟩)
    have hcu' := cellAt_removeGroup bc G hwfl hG _ hu
    rw [if_neg huG] at hcu'
    have hcv' := cellAt_removeGroup bc G hwfl hG _ hv
    rw [if_neg hvG] at hcv'
    refine ih.tail ⟨?_, ?_, ?_, ?_, hadj⟩
    · exact ⟨by rw [removeGroup_size]; exact hu.1,
        by rw [removeGroup_size]; exact hu.2⟩
    · exact ⟨by rw [removeGroup_size]; exact hv.1,
        by rw [removeGroup_size]; exact hv.2⟩
    · rw [hcu']
      exact hcu
    · rw [hcv']
      exact hcv

theorem hasLibM_removeGroup (bc : Board) (G : List (Nat × Nat))
    (hwfl : bc.grid.length = bc.size * bc.size)
    (hG : ∀ g ∈ G, inBounds bc g) (p : Nat × Nat) (hp : inBounds bc p)
    {c : Nat} (hdisj : ∀ r, reach bc c p r → r ∉ G)
    (hlib : hasLibM bc c p) : hasLibM (removeGroup bc G) c p := by
  obtain ⟨q, hq, r, hr, hrE⟩ := hlib
  have hqin : inBounds bc q := by
    rcases reach_last hq with heq | ⟨hqin, _⟩
    · rw [← heq]
      exact hp
    · exact hqin
  have hrin : inBounds bc r := ((mem_nbrsOf bc hqin.1 hqin.2 r).mp hr).1
  refine ⟨q, reach_removeGroup_of_disjoint bc G hwfl hG p q hdisj hq, r, ?_, ?_⟩
  · rw [nbrsOf_of_size_eq (removeGroup_size bc G) q.1 q.2]
    exact hr
  · have hcr := cellAt_removeGroup bc G hwfl hG r hrin
    by_cases hrG : r ∈ G
    · rw [if_pos hrG] at hcr
      exact hcr
    · rw [if_neg hrG] at hcr
      rw [hcr]
      exact hrE

theorem captureStep_eq_neg (stone : Stone) (acc : Board × Nat) (n : Nat × Nat)
    (h : acc.1.getRaw n.1 n.2 ≠ oppositeU8 (stoneToU8 stone)) :
    captureStep stone acc n = acc := by
  unfold captureStep
  rw [if_neg h]

theorem captureStep_eq_alive (stone : Stone) (acc : Board × Nat)
    (n : Nat × Nat) (h1 : acc.1.getRaw n.1 n.2 = oppositeU8 (stoneToU8 stone))
    (h2 : ¬acc.1.has_no_liberties (acc.1.get_group n.1 n.2) = true) :
    captureStep stone acc n = acc := by
  unfold captureStep
  rw [if_pos h1, if_neg h2]

theorem captureStep_eq_dead (stone : Stone) (acc : Board × Nat)
    (n : Nat × Nat) (h1 : acc.1.getRaw n.1 n.2 = oppositeU8 (stoneToU8 stone))
    (h2 : acc.1.has_no_liberties (acc.1.get_group n.1 n.2) = true) :
    captureStep stone acc n =
      (removeGroup acc.1 (acc.1.get_group n.1 n.2),
        acc.2 + (acc.1.get_group n.1 n.2).length) := by
  unfold captureStep
  rw [if_pos h1, if_pos h2]

theorem noDeadGroups_captured_update (b0 : Board) (cap : Nat × Nat)
    (h : NoDeadGroups b0) : NoDeadGroups { b0 with captured := cap } :=
  fun p hin hne => h p hin hne

theorem place_stone_fields (b : Board) (x y : Nat) (stone : Stone) (b' : Board)
    (hplace : b.place_stone x y stone = .ok b') :
    ∃ cap : Nat × Nat,
      b' = { (({ b with
          grid := b.grid.set (b.index x y) (stoneToU8 stone)
          current_hash := b.current_hash ^^^
            b.zobrist_table.get_stone_hash x y (stone = Stone.black) } :
          Board).check_captures x y stone).1 with captured := cap } := by
  have hx : x < b.size := by
    by_contra hcon
    unfold Board.place_stone at hplace
    rw [if_pos (Or.inl (Nat.le_of_not_lt hcon))] at hplace
    simp at hplace
  have hy : y < b.size := by
    by_contra hcon
    unfold Board.place_stone at hplace
    rw [if_pos (Or.inr (Nat.le_of_not_lt hcon))] at hplace
    simp at hplace
  have he : b.getRaw x y = EMPTY := by
    by_contra hcon
    unfold Board.place_stone at hplace
    rw [if_neg (by omega), if_pos hcon] at hplace
    simp at hplace
  cases stone with
  | black =>
    refine ⟨((({ b with
        grid := b.grid.set (b.index x y) (stoneToU8 Stone.black)
        current_hash := b.current_hash ^^^
          b.zobrist_table.get_stone_hash x y (Stone.black = Stone.black) } :
        Board).check_captures x y Stone.black).1.captured.1 +
          (({ b with
            grid := b.grid.set (b.index x y) (stoneToU8 Stone.black)
            current_hash := b.current_hash ^^^
              b.zobrist_table.get_stone_hash x y (Stone.black = Stone.black) } :
            Board).check_captures x y Stone.black).2,
        (({ b with
          grid := b.grid.set (b.index x y) (stoneToU8 Stone.black)
          current_hash := b.current_hash ^^^
            b.zobrist_table.get_stone_hash x y (Stone.black = Stone.black) } :
          Board).check_captures x y Stone.black).1.captured.2), ?_⟩
    have hb'eq : { (({ b with
        grid := b.grid.set (b.index x y) (stoneToU8 Stone.black)
        current_hash := b.current_hash ^^^
          b.zobrist_table.get_stone_hash x y (Stone.black = Stone.black) } :
        Board).check_captures x y Stone.black).1 with
        captured := ((({ b with
          grid := b.grid.set (b.index x y) (stoneToU8 Stone.black)
          current_hash := b.current_hash ^^^
            b.zobrist_table.get_stone_hash x y (Stone.black = Stone.black) } :
          Board).check_captures x y Stone.black).1.captured.1 +
            (({ b with
              grid := b.grid.set (b.index x y) (stoneToU8 Stone.black)
              current_hash := b.current_hash ^^^
                b.zobrist_table.get_stone_hash x y
                  (Stone.black = Stone.black) } :
              Board).check_captures x y Stone.black).2,
          (({ b with
            grid := b.grid.set (b.index x y) (stoneToU8 Stone.black)
            current_hash := b.current_hash ^^^
              b.zobrist_table.get_stone_hash x y (Stone.black = Stone.black) } :
            Board).check_captures x y Stone.black).1.captured.2) } = b' := by
      unfold Board.place_stone at hplace
      rw [if_neg (by omega), if_neg (fun hcon => hcon he)] at hplace
      exact Except.ok.inj hplace
    exact hb'eq.symm
  | white =>
    refine ⟨((({ b with
        grid := b.grid.set (b.index x y) (stoneToU8 Stone.white)
        current_hash := b.current_hash ^^^
          b.zobrist_table.get_stone_hash x y (Stone.white = Stone.black) } :
        Board).check_captures x y Stone.white).1.captured.1,
        (({ b with
          grid := b.grid.set (b.index x y) (stoneToU8 Stone.white)
          current_hash := b.current_hash ^^^
            b.zobrist_table.get_stone_hash x y (Stone.white = Stone.black) } :
          Board).check_captures x y Stone.white).1.captured.2 +
          (({ b with
            grid := b.grid.set (b.index x y) (stoneToU8 Stone.white)
            current_hash := b.current_hash ^^^
              b.zobrist_table.get_stone_hash x y (Stone.white = Stone.black) } :
            Board).check_captures x y Stone.white).2), ?_⟩
    have hb'eq : { (({ b with
        grid := b.grid.set (b.index x y) (stoneToU8 Stone.white)
        current_hash := b.current_hash ^^^
          b.zobrist_table.get_stone_hash x y (Stone.white = Stone.black) } :
        Board).check_captures x y Stone.white).1 with
        captured := ((({ b with
          grid := b.grid.set (b.index x y) (stoneToU8 Stone.white)
          current_hash := b.current_hash ^^^
            b.zobrist_table.get_stone_hash x y (Stone.white = Stone.black) } :
          Board).check_captures x y Stone.white).1.captured.1,
          (({ b with
            grid := b.grid.set (b.index x y) (stoneToU8 Stone.white)
            current_hash := b.current_hash ^^^
              b.zobrist_table.get_stone_hash x y (Stone.white = Stone.black) } :
            Board).check_captures x y Stone.white).1.captured.2 +
            (({ b with
              grid := b.grid.set (b.index x y) (stoneToU8 Stone.white)
              current_hash := b.current_hash ^^^
                b.zobrist_table.get_stone_hash x y
                  (Stone.white = Stone.black) } :
              Board).check_captures x y Stone.white).2) } = b' := by
      unfold Board.place_stone at hplace
      rw [if_neg (by omega), if_neg (fun hcon => hcon he)] at hplace
      exact Except.ok.inj hplace
    exact hb'eq.symm

theorem captureStep_nodead (b1 : Board) (x y : Nat) (stone : Stone)
    (hx : x < b1.size) (hy : y < b1.size) :
    ∀ (l : List (Nat × Nat)), (∀ m ∈ l, m ∈ b1.nbrsOf x y) →
    ∀ (acc : Board × Nat),
    acc.1.size = b1.size → WF acc.1 →
    cellAt acc.1 (x, y) = stoneToU8 stone →
    (∀ p, inBounds acc.1 p → cellAt acc.1 p ≠ EMPTY →
      (cellAt acc.1 p = stoneToU8 stone ∧
        reach acc.1 (stoneToU8 stone) p (x, y)) ∨
      hasLibM acc.1 (cellAt acc.1 p) p ∨
      (cellAt acc.1 p = oppositeU8 (stoneToU8 stone) ∧
        ∃ m ∈ l, cellAt acc.1 m = oppositeU8 (stoneToU8 stone) ∧
          reach acc.1 (oppositeU8 (stoneToU8 stone)) p m)) →
    (l.foldl (captureStep stone) acc).1.size = b1.size ∧
    WF (l.foldl (captureStep stone) acc).1 ∧
    cellAt (l.foldl (captureStep stone) acc).1 (x, y) = stoneToU8 stone ∧
    (∀ p, inBounds (l.foldl (captureStep stone) acc).1 p →
      cellAt (l.foldl (captureStep stone) acc).1 p ≠ EMPTY →
      (cellAt (l.foldl (captureStep stone) acc).1 p = stoneToU8 stone ∧
        reach (l.foldl (captureStep stone) acc).1 (stoneToU8 stone) p (x, y)) ∨
      hasLibM (l.foldl (captureStep stone) acc).1
        (cellAt (l.foldl (captureStep stone) acc).1 p) p) := by
  intro l
  induction l with
  | nil =>
    intro _ acc hsz hwf hxyc hinv
    rw [List.foldl_nil]
    refine ⟨hsz, hwf, hxyc, ?_⟩
    intro p hpin hne2
    rcases hinv p hpin hne2 with h | h | ⟨_, m, hm, _⟩
    · exact Or.inl h
    · exact Or.inr h
    · exact absurd hm (by simp)
  | cons n l' ihl =>
    intro hsub acc hsz hwf hxyc hinv
    have hnmem : n ∈ b1.nbrsOf x y := hsub n (by simp)
    have hnin : inBounds acc.1 n :=
      inBounds_of_size_eq hsz ((mem_nbrsOf b1 hx hy n).mp hnmem).1
    rw [List.foldl_cons]
    by_cases hc1 : acc.1.getRaw n.1 n.2 = oppositeU8 (stoneToU8 stone)
    · by_cases hc2 : acc.1.has_no_liberties (acc.1.get_group n.1 n.2) = true
      · rw [captureStep_eq_dead stone acc n hc1 hc2]
        have hcellopp : cellAt acc.1 n = oppositeU8 (stoneToU8 stone) := hc1
        have hoppne : oppositeU8 (stoneToU8 stone) ≠ 0 :=
          oppositeU8_ne_zero stone
        have hstopp : oppositeU8 (stoneToU8 stone) ≠ stoneToU8 stone :=
          oppositeU8_ne_stoneU stone
        have hgs := get_group_spec acc.1 n hwf hnin
          (by rw [hcellopp]; exact hoppne)
        have hGin : ∀ g ∈ acc.1.get_group n.1 n.2, inBounds acc.1 g :=
          fun g hg => (hgs.1 g hg).1
        have hGc : ∀ g ∈ acc.1.get_group n.1 n.2,
            cellAt acc.1 g = oppositeU8 (stoneToU8 stone) := by
          intro g hg
          have := (hgs.1 g hg).2.1
          rw [hcellopp] at this
          exact this
        have hGreach : ∀ g ∈ acc.1.get_group n.1 n.2,
            reach acc.1 (oppositeU8 (stoneToU8 stone)) n g := by
          intro g hg
          have := (hgs.1 g hg).2.2
          rw [hcellopp] at this
          exact this
        have hcompl : ∀ q, reach acc.1 (oppositeU8 (stoneToU8 stone)) n q →
            q ∈ acc.1.get_group n.1 n.2 := by
          intro q hq
          exact hgs.2.2.2 q (by rw [hcellopp]; exact hq)
        have hdisj : ∀ (p : Nat × Nat) (c : Nat), p ∉ acc.1.get_group n.1 n.2 →
            ∀ r, reach acc.1 c p r → r ∉ acc.1.get_group n.1 n.2 := by
          intro p c hpG r hr hrG
          rcases reach_last hr with heq | ⟨_, hrc2⟩
          · rw [heq] at hpG
            exact hpG hrG
          · have hrc := hGc r hrG
            have hceq : c = oppositeU8 (stoneToU8 stone) := by
              rw [← hrc2, hrc]
            subst hceq
            exact hpG (hcompl p (Relation.ReflTransGen.trans
              (hGreach r hrG) (reach_symm hr)))
        refine ihl (fun m hm => hsub m (by simp [hm]))
          (removeGroup acc.1 (acc.1.get_group n.1 n.2),
            acc.2 + (acc.1.get_group n.1 n.2).length) ?_ ?_ ?_ ?_
        · show (removeGroup acc.1 (acc.1.get_group n.1 n.2)).size = b1.size
          rw [removeGroup_size]
          exact hsz
        · exact removeGroup_wf _ _ hwf
        · have hxyin : inBounds acc.1 (x, y) := inBounds_of_size_eq hsz ⟨hx, hy⟩
          have hxyG : (x, y) ∉ acc.1.get_group n.1 n.2 := by
            intro hcon
            exact hstopp (by rw [← hGc (x, y) hcon]; exact hxyc)
          show cellAt (removeGroup acc.1 (acc.1.get_group n.1 n.2)) (x, y) =
            stoneToU8 stone
          rw [cellAt_removeGroup acc.1 _ hwf.1 hGin (x, y) hxyin, if_neg hxyG]
          exact hxyc
        · intro p hin' hne'
          have hpin : inBounds acc.1 p :=
            inBounds_of_size_eq (removeGroup_size _ _).symm hin'
          have hcellp := cellAt_removeGroup acc.1 _ hwf.1 hGin p hpin
          have hpG : p ∉ acc.1.get_group n.1 n.2 := by
            intro hcon
            rw [if_pos hcon] at hcellp
            exact hne' hcellp
          rw [if_neg hpG] at hcellp
          have hne2 : cellAt acc.1 p ≠ EMPTY := by
            rw [← hcellp]
            exact hne'
          rcases hinv p hpin hne2 with ⟨hps, hpr⟩ | hplib |
            ⟨hpo, m, hm, hmc, hmr⟩
          · left
            refine ⟨by rw [hcellp]; exact hps, ?_⟩
            exact reach_removeGroup_of_disjoint acc.1 _ hwf.1 hGin p (x, y)
              (hdisj p _ hpG) hpr
          · right; left
            rw [hcellp]
            exact hasLibM_removeGroup acc.1 _ hwf.1 hGin p hpin
              (hdisj p _ hpG) hplib
          · have hmG : m ∉ acc.1.get_group n.1 n.2 := hdisj p _ hpG m hmr
            have hmne : m ≠ n := by
              intro hcon
              rw [hcon] at hmG
              exact hmG hgs.2.2.1
            have hm' : m ∈ l' := by
              rcases List.mem_cons.mp hm with h | h
              · exact absurd h hmne
              · exact h
            right; right
            have hmin : inBounds acc.1 m := inBounds_of_size_eq hsz
              ((mem_nbrsOf b1 hx hy m).mp (hsub m hm)).1
            have hcellm := cellAt_removeGroup acc.1 _ hwf.1 hGin m hmin
            rw [if_neg hmG] at hcellm
            refine ⟨by rw [hcellp]; exact hpo, m, hm',
              by rw [hcellm]; exact hmc, ?_⟩
            exact reach_removeGroup_of_disjoint acc.1 _ hwf.1 hGin p m
              (hdisj p _ hpG) hmr
      · rw [captureStep_eq_alive stone acc n hc1 hc2]
        refine ihl (fun m hm => hsub m (by simp [hm])) acc hsz hwf hxyc ?_
        intro p hpin hne2
        rcases hinv p hpin hne2 with h | h | ⟨hpo, m, hm, hmc, hmr⟩
        · exact Or.inl h
        · exact Or.inr (Or.inl h)
        · rcases List.mem_cons.mp hm with hmn | hm'
          · subst hmn
            have hcellopp : cellAt acc.1 m = oppositeU8 (stoneToU8 stone) := hc1
            have hgs := get_group_spec acc.1 m hwf hnin
              (by rw [hcellopp]; exact oppositeU8_ne_zero stone)
            have hnl : ¬(∀ q ∈ acc.1.get_group m.1 m.2,
                ∀ r ∈ acc.1.nbrsOf q.1 q.2, cellAt acc.1 r ≠ EMPTY) := by
              intro hcon
              exact hc2 ((has_no_liberties_iff acc.1 _).mpr hcon)
            push_neg at hnl
            obtain ⟨g, hgG, r, hrn, hrE⟩ := hnl
            have hng : reach acc.1 (oppositeU8 (stoneToU8 stone)) m g := by
              have := (hgs.1 g hgG).2.2
              rw [hcellopp] at this
              exact this
            right; left
            rw [hpo]
            exact ⟨g, Relation.ReflTransGen.trans hmr hng, r, hrn, hrE⟩
          · exact Or.inr (Or.inr ⟨hpo, m, hm', hmc, hmr⟩)
    · rw [captureStep_eq_neg stone acc n hc1]
      refine ihl (fun m hm => hsub m (by simp [hm])) acc hsz hwf hxyc ?_
      intro p hpin hne2
      rcases hinv p hpin hne2 with h | h | ⟨hpo, m, hm, hmc, hmr⟩
      · exact Or.inl h
      · exact Or.inr (Or.inl h)
      · rcases List.mem_cons.mp hm with hmn | hm'
        · subst hmn
          exact absurd hmc hc1
        · exact Or.inr (Or.inr ⟨hpo, m, hm', hmc, hmr⟩)

/-- C4: a successful placement on a well-formed board satisfying the
no-dead-groups invariant yields a board that satisfies it again — the
capture loop removes every adjacent opposing group left without liberties
and the self-capture phase removes the placed stone's own group if it has
none, so no group is ever left at zero liberties. -/
theorem c4_no_dead_groups (b : Board) (x y : Nat) (stone : Stone) (b' : Board)
    (hwf : WF b) (hnd : NoDeadGroups b)
    (hplace : b.place_stone x y stone = .ok b') :
    NoDeadGroups b' ∧ WF b' := by
  have hx : x < b.size := by
    by_contra hcon
    unfold Board.place_stone at hplace
    rw [if_pos (Or.inl (Nat.le_of_not_lt hcon))] at hplace
    simp at hplace
  have hy : y < b.size := by
    by_contra hcon
    unfold Board.place_stone at hplace
    rw [if_pos (Or.inr (Nat.le_of_not_lt hcon))] at hplace
    simp at hplace
  have he : b.getRaw x y = EMPTY := by
    by_contra hcon
    unfold Board.place_stone at hplace
    rw [if_neg (by omega), if_pos hcon] at hplace
    simp at hplace
  set b1 : Board := { b with
    grid := b.grid.set (b.index x y) (stoneToU8 stone)
    current_hash := b.current_hash ^^^
      b.zobrist_table.get_stone_hash x y (stone = Stone.black) } with hb1
  have hb1wf : WF b1 := by
    refine ⟨by simp [hb1, List.length_set, hwf.1], ?_⟩
    intro v hv
    rcases List.mem_or_eq_of_mem_set hv with hv | hv
    · exact hwf.2 v hv
    · rw [hv]
      cases stone <;> decide
  have hidxlt : b.index x y < b.grid.length := by
    rw [hwf.1]
    exact @index_lt b (x, y) ⟨hx, hy⟩
  have hb1xy : cellAt b1 (x, y) = stoneToU8 stone := by
    show (b.grid.set (b.index x y) (stoneToU8 stone)).getD (b.index x y) 0 =
      stoneToU8 stone
    exact getD_set_self _ _ _ _ hidxlt
  have hb1cell : ∀ q, inBounds b q → q ≠ (x, y) → cellAt b1 q = cellAt b q := by
    intro q hq hne
    show (b.grid.set (b.index x y) (stoneToU8 stone)).getD (b.index q.1 q.2) 0 =
      b.grid.getD (b.index q.1 q.2) 0
    exact getD_set_ne _ _ _ (fun hcon => hne (index_inj b hq ⟨hx, hy⟩ hcon.symm))
  have hinv1 : ∀ p, inBounds b1 p → cellAt b1 p ≠ EMPTY →
      (cellAt b1 p = stoneToU8 stone ∧ reach b1 (stoneToU8 stone) p (x, y)) ∨
      hasLibM b1 (cellAt b1 p) p ∨
      (cellAt b1 p = oppositeU8 (stoneToU8 stone) ∧
        ∃ m ∈ b1.nbrsOf x y, cellAt b1 m = oppositeU8 (stoneToU8 stone) ∧
          reach b1 (oppositeU8 (stoneToU8 stone)) p m) := by
    intro p hpin hpne
    by_cases hpxy : p = (x, y)
    · subst hpxy
      exact Or.inl ⟨hb1xy, Relation.ReflTransGen.refl⟩
    · have hpb : inBounds b p := hpin
      have hcp : cellAt b1 p = cellAt b p := hb1cell p hpb hpxy
      have hpneb : cellAt b p ≠ EMPTY := by
        rw [← hcp]
        exact hpne
      obtain ⟨q, hq, r, hr, hrE⟩ := hnd p hpb hpneb
      have hqb : inBounds b q := by
        rcases reach_last hq with heq | ⟨hqin, _⟩
        · rw [← heq]
          exact hpb
        · exact hqin
      have hqc : cellAt b q = cellAt b p := by
        rcases reach_last hq with heq | ⟨_, hqc⟩
        · rw [← heq]
        · exact hqc
      have hcne : cellAt b p ≠ 0 := hpneb
      have hreach1 : reach b1 (cellAt b p) p q := by
        refine reach_mono_of_cells (show b1.size = b.size from rfl) ?_ hq
        intro u hu huc
        have hune : u ≠ (x, y) := by
          intro hcon
          rw [hcon] at huc
          exact hcne (by rw [← huc]; exact he)
        rw [hb1cell u hu hune]
        exact huc
      by_cases hrxy : r = (x, y)
      · have hqxy : q ≠ (x, y) := by
          intro hcon
          rw [hcon] at hqc
          exact hcne (by rw [← hqc]; exact he)
        have hq1c : cellAt b1 q = cellAt b p := by
          rw [hb1cell q hqb hqxy]
          exact hqc
        have hqadj : adjacent q (x, y) := by
          have hmm := (mem_nbrsOf b hqb.1 hqb.2 r).mp hr
          rw [hrxy] at hmm
          exact hmm.2
        have hple : cellAt b p ≤ 2 := cellAt_le_two hwf p
        rcases cell_eq_stone_or_opp stone (cellAt b p) hple hcne with hcs | hco
        · left
          refine ⟨by rw [hcp]; exact hcs, ?_⟩
          have hstep : stepRel b1 (stoneToU8 stone) q (x, y) := by
            refine ⟨hqb, ⟨hx, hy⟩, ?_, hb1xy, hqadj⟩
            rw [hq1c]
            exact hcs
          rw [hcs] at hreach1
          exact hreach1.tail hstep
        · right; right
          have hqmem : q ∈ b1.nbrsOf x y :=
            (mem_nbrsOf b1 hx hy q).mpr ⟨hqb, adjacent_comm.mp hqadj⟩
          rw [hco] at hreach1
          exact ⟨by rw [hcp]; exact hco, q, hqmem,
            by rw [hq1c]; exact hco, hreach1⟩
      · right; left
        rw [hcp]
        refine ⟨q, hreach1, r, hr, ?_⟩
        have hrb : inBounds b r := ((mem_nbrsOf b hqb.1 hqb.2 r).mp hr).1
        rw [hb1cell r hrb hrxy]
        exact hrE
  obtain ⟨hAsz, hAwf, hAxy, hAinv⟩ :=
    captureStep_nodead b1 x y stone hx hy (b1.nbrsOf x y) (fun m hm => hm)
      (b1, 0) rfl hb1wf hb1xy hinv1
  set A := (b1.nbrsOf x y).foldl (captureStep stone) (b1, 0) with hA
  have hAxyin : inBounds A.1 (x, y) := inBounds_of_size_eq hAsz ⟨hx, hy⟩
  have hstne : stoneToU8 stone ≠ 0 := stoneToU8_ne_zero stone
  have hgs2 := get_group_spec A.1 (x, y) hAwf hAxyin
    (by rw [hAxy]; exact hstne)
  have hG2in : ∀ g ∈ A.1.get_group x y, inBounds A.1 g :=
    fun g hg => (hgs2.1 g hg).1
  have hG2c : ∀ g ∈ A.1.get_group x y, cellAt A.1 g = stoneToU8 stone := by
    intro g hg
    have := (hgs2.1 g hg).2.1
    rw [hAxy] at this
    exact this
  have hG2reach : ∀ g ∈ A.1.get_group x y,
      reach A.1 (stoneToU8 stone) (x, y) g := by
    intro g hg
    have := (hgs2.1 g hg).2.2
    rw [hAxy] at this
    exact this
  have hG2compl : ∀ q, reach A.1 (stoneToU8 stone) (x, y) q →
      q ∈ A.1.get_group x y := by
    intro q hq
    exact hgs2.2.2.2 q (by rw [hAxy]; exact hq)
  have hcc2 : b1.check_captures x y stone =
      (if A.1.has_no_liberties (A.1.get_group x y) then
        (removeGroup A.1 (A.1.get_group x y), A.2)
      else A) := rfl
  have hfinal : NoDeadGroups (b1.check_captures x y stone).1 ∧
      WF (b1.check_captures x y stone).1 := by
    rw [hcc2]
    by_cases hsc : A.1.has_no_liberties (A.1.get_group x y) = true
    · rw [if_pos hsc]
      refine ⟨?_, removeGroup_wf _ _ hAwf⟩
      intro p hpin' hpne'
      have hpin : inBounds A.1 p :=
        inBounds_of_size_eq (removeGroup_size _ _).symm hpin'
      have hcellp := cellAt_removeGroup A.1 (A.1.get_group x y) hAwf.1 hG2in
        p hpin
      have hpG : p ∉ A.1.get_group x y := by
        intro hcon
        rw [if_pos hcon] at hcellp
        exact hpne' hcellp
      rw [if_neg hpG] at hcellp
      have hpneA : cellAt A.1 p ≠ EMPTY := by
        rw [← hcellp]
        exact hpne'
      have hdisj2 : ∀ r, reach A.1 (cellAt A.1 p) p r →
          r ∉ A.1.get_group x y := by
        intro r hrr hrG
        rcases reach_last hrr with heq | ⟨_, hrc⟩
        · rw [heq] at hpG
          exact hpG hrG
        · have hrc2 := hG2c r hrG
          have hceq : cellAt A.1 p = stoneToU8 stone := by
            rw [← hrc, hrc2]
          rw [hceq] at hrr
          exact hpG (hG2compl p (Relation.ReflTransGen.trans
            (hG2reach r hrG) (reach_symm hrr)))
      rcases hAinv p hpin hpneA with ⟨hps, hpr⟩ | hplib
      · exact absurd (hG2compl p (reach_symm hpr)) hpG
      · rw [hcellp]
        exact hasLibM_removeGroup A.1 _ hAwf.1 hG2in p hpin hdisj2 hplib
    · rw [if_neg hsc]
      refine ⟨?_, hAwf⟩
      intro p hpin hpne2
      rcases hAinv p hpin hpne2 with ⟨hps, hpr⟩ | hplib
      · have hnl : ¬(∀ q ∈ A.1.get_group x y, ∀ r ∈ A.1.nbrsOf q.1 q.2,
            cellAt A.1 r ≠ EMPTY) := by
          intro hcon
          exact hsc ((has_no_liberties_iff A.1 _).mpr hcon)
        push_neg at hnl
        obtain ⟨g, hgG, r, hrn, hrE⟩ := hnl
        have hpg : reach A.1 (stoneToU8 stone) p g :=
          Relation.ReflTransGen.trans hpr (hG2reach g hgG)
        rw [hps]
        exact ⟨g, hpg, r, hrn, hrE⟩
      · exact hplib
  obtain ⟨cap, hb'⟩ := place_stone_fields b x y stone b' hplace
  constructor
  · rw [hb']
    exact noDeadGroups_captured_update _ cap hfinal.1
  · rw [hb']
    exact wf_captured_update _ cap hfinal.2

/-- Every cell of the empty 2×2 grid reads as `EMPTY`. -/
theorem emptyGrid4_getD : ∀ i : Nat, ([0, 0, 0, 0] : List Nat).getD i 0 = 0 := by
  intro i
  rcases i with _ | _ | _ | _ | i <;> rfl

/-- C4 witness: black plays (0, 0) on the empty 2×2 board (which satisfies
the invariant vacuously); the resulting single-stone board satisfies it. -/
theorem c4_no_dead_groups_witness :
    NoDeadGroups (⟨2, [1, 0, 0, 0], (0, 0), ztZero, 0⟩ : Board) ∧
      WF (⟨2, [1, 0, 0, 0], (0, 0), ztZero, 0⟩ : Board) :=
  c4_no_dead_groups bEmpty2 0 0 Stone.black
    ⟨2, [1, 0, 0, 0], (0, 0), ztZero, 0⟩ ⟨by decide, by decide⟩
    (fun p _ hne => absurd (emptyGrid4_getD (bEmpty2.index p.1 p.2)) hne)
    rfl
